import Mathlib

/-!
# CPU_Ray_Tracer: vector math, rays, the integrator, the pixel driver and the profiler

A shallow embedding of `vec3.h`, `ray.h`, `main.cpp` and `Instrumentor.h`.

* `double` is idealised as an ordered field `K` with exact arithmetic; the definitions are
  generic in `K` (so they evaluate over `ℚ`), the theorems are stated over `ℝ`. This is the
  first model; the results of the code are roundings of its results as long as nothing
  overflows or underflows and no branch depends on the sign of a rounded value.
* where the exponent range matters (`unit_vector` of a very long or very short direction),
  a second model `double K` adds the infinities, the NaN, the negative zero and the underflow
  to the exact arithmetic; its functions carry the prefix `dbl.`.
* where a statement holds however the operations round (the branch of `hit_sphere`), the
  function is given over an arbitrary `arithmetic`, of which the two models are instances;
  its functions carry the prefix `fp.`.
* `sqrt` is passed explicitly as a function `K → K`; the theorems instantiate it with
  `Real.sqrt`.
* the random generator, and anything else a scene query or a material may touch, is an explicit
  state `σ` threaded through the calls.
* `int` is `Int`; the conversion to `unsigned` is an explicit `% 2 ^ 32`, the conversion to
  `unsigned char` an explicit `% 256`.
* the unbounded rejection loops take a number of passes they may run (`fuel`) and return
  `none` when it is used up.
* the output stream of the profiler is the file it has open, as path and text, with an error
  flag; the files it has closed are kept next to it.
-/

namespace RayTracer

/-! ## vec3.h -/

/-- The class `vec3` (vec3.h:10-62): three doubles `x`, `y`, `z`. -/
@[ext] structure vec3 (K : Type) where
  x : K
  y : K
  z : K
deriving DecidableEq, Repr

/-- Type alias `point3` (vec3.h:153). -/
abbrev point3 (K : Type) := vec3 K

/-- Type alias `color` (vec3.h:154). -/
abbrev color (K : Type) := vec3 K

section VecOps

variable {K : Type} [LinearOrderedField K]

/-- The unary `operator-` (vec3.h:15). -/
def vec3.neg (v : vec3 K) : vec3 K := ⟨-v.x, -v.y, -v.z⟩

/-- The method `length_squared` (vec3.h:41-43). -/
def vec3.length_squared (v : vec3 K) : K := v.x * v.x + v.y * v.y + v.z * v.z

/-- The method `length` (vec3.h:37-39). -/
def vec3.length (sqrt : K → K) (v : vec3 K) : K := sqrt v.length_squared

/-- The binary `operator+` (vec3.h:70-72). -/
def vec3.add (u v : vec3 K) : vec3 K := ⟨u.x + v.x, u.y + v.y, u.z + v.z⟩

/-- The binary `operator-` (vec3.h:74-76). -/
def vec3.sub (u v : vec3 K) : vec3 K := ⟨u.x - v.x, u.y - v.y, u.z - v.z⟩

/-- The componentwise `operator*` on two vectors (vec3.h:78-80). -/
def vec3.mul (u v : vec3 K) : vec3 K := ⟨u.x * v.x, u.y * v.y, u.z * v.z⟩

/-- The `operator*(double t, const vec3 &v)` (vec3.h:82-84). -/
def vec3.smul (t : K) (v : vec3 K) : vec3 K := ⟨t * v.x, t * v.y, t * v.z⟩

/-- The `operator*(const vec3 &v, double t)` (vec3.h:86-88): `t * v`. -/
def vec3.mul_scalar (v : vec3 K) (t : K) : vec3 K := vec3.smul t v

/-- The `operator/(vec3 v, double t)` (vec3.h:90-92): `(1 / t) * v`. -/
def vec3.div (v : vec3 K) (t : K) : vec3 K := vec3.smul (1 / t) v

/-- The compound `operator+=` (vec3.h:19-24), as the new value of `*this`. -/
def vec3.add_assign (u v : vec3 K) : vec3 K := ⟨u.x + v.x, u.y + v.y, u.z + v.z⟩

/-- The function `dot` (vec3.h:94-98). -/
def dot (u v : vec3 K) : K := u.x * v.x + u.y * v.y + u.z * v.z

/-- The function `cross` (vec3.h:100-104). -/
def cross (u v : vec3 K) : vec3 K :=
  ⟨u.y * v.z - u.z * v.y, u.z * v.x - u.x * v.z, u.x * v.y - u.y * v.x⟩

/-- The function `refract` (vec3.h:110-115). -/
def refract (sqrt : K → K) (uv n : vec3 K) (etai_over_etat : K) : vec3 K :=
  let cos_theta := dot (vec3.neg uv) n
  let r_out_perp := vec3.smul etai_over_etat (vec3.add uv (vec3.smul cos_theta n))
  let r_out_parallel := vec3.smul (-sqrt |1.0 - r_out_perp.length_squared|) n
  vec3.add r_out_perp r_out_parallel

/-- The function `unit_vector` (vec3.h:117-119): `v / v.length()`. -/
def unit_vector (sqrt : K → K) (v : vec3 K) : vec3 K := vec3.div v (v.length sqrt)

end VecOps

section Ranges

variable {K : Type} [LinearOrderedField K]

/-- A colour all of whose three components lie in `[0,1]`. -/
def unit_range (c : color K) : Prop :=
  (0 ≤ c.x ∧ c.x ≤ 1) ∧ (0 ≤ c.y ∧ c.y ≤ 1) ∧ (0 ≤ c.z ∧ c.z ≤ 1)

/-- Membership in the unit range can be computed. -/
instance unit_range_decidable (c : color K) : Decidable (unit_range c) :=
  inferInstanceAs (Decidable ((0 ≤ c.x ∧ c.x ≤ 1) ∧ (0 ≤ c.y ∧ c.y ≤ 1) ∧ (0 ≤ c.z ∧ c.z ≤ 1)))

/-- A direction whose squared length is in the normal range of binary64, from `2 ^ (-1022)`
to `2 ^ 1024` excluded: on it `length_squared` neither underflows nor overflows, and the
results of `double` are roundings of the exact ones. -/
def normal_range (d : vec3 K) : Prop :=
  1 / 2 ^ 1022 ≤ d.length_squared ∧ d.length_squared < 2 ^ 1024

/-- Membership in the normal range can be computed. -/
instance normal_range_decidable (d : vec3 K) : Decidable (normal_range d) :=
  inferInstanceAs (Decidable (1 / 2 ^ 1022 ≤ d.length_squared ∧ d.length_squared < 2 ^ 1024))

end Ranges

section Sampling

variable {K σ : Type} [LinearOrderedField K]

/-- The function `random_unit_vector` (vec3.h:121-126). The functions `sqrt`, `cos`, `sin`
and the constant `pi` are passed in; `random_double` is `random_double(min, max)` of
rtweekend.h, which is not among the sources: a draw and the generator state after it. -/
def random_unit_vector (sqrt cos sin : K → K) (pi : K) (random_double : K → K → σ → K × σ)
    (s : σ) : vec3 K × σ :=
  let a := random_double 0 (2 * pi) s
  let z := random_double (-1) 1 a.2
  let r := sqrt (1 - z.1 * z.1)
  (⟨r * cos a.1, r * sin a.1, z.1⟩, z.2)

/-- The static method `vec3::random(min, max)` (vec3.h:54-56): three draws, taken here in
the order of the arguments (the order matters to no squared length). -/
def vec3.random (random_double : K → K → σ → K × σ) (min max : K) (s : σ) : vec3 K × σ :=
  let a := random_double min max s
  let b := random_double min max a.2
  let c := random_double min max b.2
  (⟨a.1, b.1, c.1⟩, c.2)

/-- The function `random_in_unit_sphere` (vec3.h:128-134): the `while (true)` loop, run for
at most `fuel` passes; `none` if none of them returns. -/
def random_in_unit_sphere (random_double : K → K → σ → K × σ) : Nat → σ → Option (vec3 K × σ)
  | 0, _ => none
  | fuel + 1, s =>
    let p := vec3.random random_double (-1) 1 s
    if p.1.length_squared ≥ 1 then random_in_unit_sphere random_double fuel p.2
    else some p

/-- The function `random_in_unit_disk` (vec3.h:144-150): the `while (true)` loop, run for at
most `fuel` passes; `none` if none of them returns. -/
def random_in_unit_disk (random_double : K → K → σ → K × σ) : Nat → σ → Option (vec3 K × σ)
  | 0, _ => none
  | fuel + 1, s =>
    let x := random_double (-1) 1 s
    let y := random_double (-1) 1 x.2
    let p : vec3 K := ⟨x.1, y.1, 0⟩
    if p.length_squared ≥ 1 then random_in_unit_disk random_double fuel y.2
    else some (p, y.2)

/-- The candidate triple number `n` (from `0`) of the stream of draws in `[-1,1)` that the
generator produces from the state `s`, with the state after its three draws. -/
def sphere_candidate (random_double : K → K → σ → K × σ) : Nat → σ → vec3 K × σ
  | 0, s => vec3.random random_double (-1) 1 s
  | n + 1, s => sphere_candidate random_double n (vec3.random random_double (-1) 1 s).2

/-- The candidate pair number `n` (from `0`) of the stream of draws in `[-1,1)` that the
generator produces from the state `s`, as a vector with `z = 0`, with the state after its two
draws. -/
def disk_candidate (random_double : K → K → σ → K × σ) : Nat → σ → vec3 K × σ
  | 0, s =>
    (⟨(random_double (-1) 1 s).1, (random_double (-1) 1 (random_double (-1) 1 s).2).1, 0⟩,
      (random_double (-1) 1 (random_double (-1) 1 s).2).2)
  | n + 1, s =>
    disk_candidate random_double n (random_double (-1) 1 (random_double (-1) 1 s).2).2

end Sampling

/-! ## ray.h -/

/-- The class `ray` (ray.h:6-23). -/
@[ext] structure ray (K : Type) where
  orig : point3 K
  dir : vec3 K
deriving DecidableEq, Repr

section RayOps

variable {K : Type} [LinearOrderedField K]

/-- The accessor `ray::origin` (ray.h:13). -/
def ray.origin (r : ray K) : point3 K := r.orig

/-- The accessor `ray::direction` (ray.h:14). -/
def ray.direction (r : ray K) : vec3 K := r.dir

/-- The method `ray::at` (ray.h:16-18): `orig + t * dir`. -/
def ray.at (r : ray K) (t : K) : point3 K := vec3.add r.orig (vec3.smul t r.dir)

/-- The function `hit_sphere` (ray.h:25-38). -/
def hit_sphere (sqrt : K → K) (center : point3 K) (radius : K) (r : ray K) : K :=
  let oc := vec3.sub r.origin center
  let a := r.direction.length_squared
  let half_b := dot oc r.direction
  let c := oc.length_squared - radius * radius
  let discriminant := half_b * half_b - a * c
  if discriminant < 0 then -1.0
  else (-half_b - sqrt discriminant) / a

/-- The local `discriminant` of `hit_sphere` (ray.h:26-30): `half_b * half_b - a * c`. -/
def hit_sphere_discriminant (center : point3 K) (radius : K) (r : ray K) : K :=
  let oc := vec3.sub r.origin center
  let a := r.direction.length_squared
  let half_b := dot oc r.direction
  let c := oc.length_squared - radius * radius
  half_b * half_b - a * c

end RayOps

/-! ## main.cpp: the integrator -/

/-- Modelled from the spec: the struct `hit_record` of hittable.h, which is not among the
sources (spec 3, HitRecord: point, unit normal, parametric distance `t`, `front_face`, a
reference to a material). The material reference is a handle of type `M`. -/
structure hit_record (K M : Type) where
  p : point3 K
  normal : vec3 K
  mat_ptr : M
  t : K
  front_face : Bool

/-- Modelled from the spec: the interface `hittable` of hittable.h, which is not among the
sources (spec 4.3: `hit(ray, t_min, t_max) -> Option<HitRecord>`). The upper bound is a
`WithTop K` so that the constant `infinity` of rtweekend.h is `⊤`; the state `σ` goes in and comes
out, so that a scene can observe being queried (a `const` hit leaves it unchanged). -/
structure hittable (K M σ : Type) where
  hit : ray K → K → WithTop K → σ → Option (hit_record K M) × σ

/-- Modelled from the spec: the virtual method `material::scatter` of material.h, which is not
among the sources (spec 4.4: `scatter(ray_in, hit) -> (attenuation, ray_out) | absorbed`),
dispatched on the material handle; it may draw random numbers, hence the state. -/
abbrev scatter_fn (K M σ : Type) :=
  M → ray K → hit_record K M → σ → Option (color K × ray K) × σ

section Integrator

variable {K M σ : Type} [LinearOrderedField K]

/-- The function `ray_color` (main.cpp:19-41); the result is the colour and the state after
the calls. -/
def ray_color (sqrt : K → K) (scatter : scatter_fn K M σ) (world : hittable K M σ)
    (r : ray K) (depth : Int) (s : σ) : color K × σ :=
  if depth ≤ 0 then (⟨0, 0, 0⟩, s)
  else
    let q := world.hit r 0.001 ⊤ s
    match q.1 with
    | some rec =>
      let m := scatter rec.mat_ptr r rec q.2
      match m.1 with
      | some (attenuation, scattered) =>
        let sub := ray_color sqrt scatter world scattered (depth - 1) m.2
        (vec3.mul attenuation sub.1, sub.2)
      | none => (⟨0, 0, 0⟩, m.2)
    | none =>
      let unit_direction := unit_vector sqrt r.direction
      let t := 0.5 * (unit_direction.y + 1.0)
      (vec3.add (vec3.smul (1.0 - t) ⟨1.0, 1.0, 1.0⟩) (vec3.smul t ⟨0.5, 0.7, 1.0⟩), q.2)
termination_by depth.toNat
decreasing_by omega

/-- Modelled from the spec: `hittable_list::hit` of hittable_list.h, which is not among the
sources (spec 4.3: iterate all members, keep the closest valid hit so far, narrowing the upper
bound of the interval to the closest `t` found; nothing if no member reports a hit). -/
def hittable_list (objects : List (hittable K M σ)) : hittable K M σ where
  hit r t_min t_max s :=
    let out := objects.foldl
      (fun (acc : Option (hit_record K M) × WithTop K × σ) object =>
        let q := object.hit r t_min acc.2.1 acc.2.2
        match q.1 with
        | some temp_rec => (some temp_rec, ((temp_rec.t : K) : WithTop K), q.2)
        | none => (acc.1, acc.2.1, q.2))
      (none, t_max, s)
    (out.1, out.2.2)

/-- Counters of the calls made on a scene: hit queries and scatter calls. -/
structure Calls where
  hits : Nat
  scatters : Nat
deriving DecidableEq, Repr

/-- A scene that counts its hit queries in a `Calls` record next to the state. -/
def hittable.counting (world : hittable K M σ) : hittable K M (σ × Calls) where
  hit r t_min t_max s :=
    let q := world.hit r t_min t_max s.1
    (q.1, (q.2, { s.2 with hits := s.2.hits + 1 }))

/-- A material dispatch that counts its scatter calls in a `Calls` record next to the state. -/
def counting_scatter (scatter : scatter_fn K M σ) : scatter_fn K M (σ × Calls) :=
  fun m r rec s =>
    let q := scatter m r rec s.1
    (q.1, (q.2, { s.2 with scatters := s.2.scatters + 1 }))

/-- The number of recursive calls made by an evaluation of `ray_color` (main.cpp:34): the
control flow of `ray_color`, counting `1` for the call at main.cpp:34 plus the calls made
inside it. Each call is made inside the previous one, so this is also how deep they nest. -/
def ray_color_nesting (scatter : scatter_fn K M σ) (world : hittable K M σ)
    (r : ray K) (depth : Int) (s : σ) : Nat :=
  if depth ≤ 0 then 0
  else
    let q := world.hit r 0.001 ⊤ s
    match q.1 with
    | some rec =>
      let m := scatter rec.mat_ptr r rec q.2
      match m.1 with
      | some (_, scattered) => 1 + ray_color_nesting scatter world scattered (depth - 1) m.2
      | none => 0
    | none => 0
termination_by depth.toNat
decreasing_by omega

end Integrator

/-! ## main.cpp: the pixel driver -/

/-- The struct `Pixel` (main.cpp:43-46): three `unsigned char` channels. -/
structure Pixel where
  r : Nat
  g : Nat
  b : Nat
deriving DecidableEq, Repr

/-- Conversion of an `int` to `unsigned` (32 bits), as in `unsigned index = ...`
(main.cpp:133): reduction modulo `2 ^ 32`. -/
def to_unsigned (n : Int) : Nat := (n % 2 ^ 32).toNat

/-- The signed value `((height - 1 - j) * width) + i` computed at main.cpp:133. -/
def index_int (width height j i : Int) : Int := ((height - 1 - j) * width) + i

/-- The variable `index` of `render_pixel` (main.cpp:133): the signed value converted to
`unsigned`. -/
def index (width height j i : Int) : Nat := to_unsigned (index_int width height j i)

/-- Modelled from the spec: the class `camera` of camera.h, which is not among the sources
(spec 4.5: `get_ray(s, t) -> Ray`, sampling the lens disk, hence the state). -/
structure camera (K σ : Type) where
  get_ray : K → K → σ → ray K × σ

/-- The globals of main.cpp that `render_pixel` reads (main.cpp:97-113), with the functions of
the headers that are not among the sources: `sqrt` of `<cmath>`, `random_double` of
rtweekend.h (a draw and the generator state after it) and the material dispatch. The global
`image` is the state that `render_pixel` updates. -/
structure Globals (K M σ : Type) where
  sqrt : K → K
  random_double : σ → K × σ
  scatter : scatter_fn K M σ
  width : Int
  height : Int
  samples_per_pixel : Int
  max_depth : Int
  world : hittable K M σ
  cam : camera K σ

section Driver

variable {K M σ : Type} [LinearOrderedField K] [FloorRing K]

/-- Modelled from the spec: the function `clamp` of rtweekend.h, which is not among the
sources (spec 4.6: "clamp to [0, 0.999]"): `x` brought into `[min, max]`. -/
def clamp (x min max : K) : K :=
  if x < min then min else if x > max then max else x

/-- Conversion of a `double` to an integer type: truncation toward zero. -/
def trunc (x : K) : Int := if 0 ≤ x then ⌊x⌋ else ⌈x⌉

/-- The conversion `static_cast<unsigned char>` of a `double` (main.cpp:135-137): truncation,
then reduction modulo `256`. -/
def to_uchar (x : K) : Nat := (trunc x % 256).toNat

/-- The stored channel `static_cast<unsigned char>(256 * clamp(x, 0.0, 0.999))`
(main.cpp:135-137). -/
def channel_byte (x : K) : Nat := to_uchar (256 * clamp x 0.0 0.999)

/-- The sample loop of `render_pixel` (main.cpp:121-127), from the counter value `s` on; the
state is the accumulated `pixel_color` and the generator state. -/
def sample_loop (g : Globals K M σ) (j i : Int) (s : Int) (st : color K × σ) : color K × σ :=
  if s < g.samples_per_pixel then
    let d1 := g.random_double st.2
    let u := ((i : K) + d1.1) / (((g.width - 1 : Int)) : K)
    let d2 := g.random_double d1.2
    let v := ((j : K) + d2.1) / (((g.height - 1 : Int)) : K)
    let r := g.cam.get_ray u v d2.2
    let c := ray_color g.sqrt g.scatter g.world r.1 g.max_depth r.2
    sample_loop g j i (s + 1) (vec3.add_assign st.1 c.1, c.2)
  else st
termination_by (g.samples_per_pixel - s).toNat
decreasing_by omega

/-- The coordinate `u` of main.cpp:123, `double(i + random_double()) / (width - 1)`, for the
draw `d`. -/
def sample_u (width i : Int) (d : K) : K := ((i : K) + d) / (((width - 1 : Int)) : K)

/-- The coordinate `v` of main.cpp:124, `double(j + random_double()) / (height - 1)`, for the
draw `d`. -/
def sample_v (height j : Int) (d : K) : K := ((j : K) + d) / (((height - 1 : Int)) : K)

/-- The column loop of `render_pixel` (main.cpp:118-138), from the column `i` on; the state
is the image and the generator state. The profiling scope (`PROFILE_SCOPE`) is left out. -/
def render_pixel_loop (g : Globals K M σ) (j : Int) (i : Int) (st : (Nat → Pixel) × σ) :
    (Nat → Pixel) × σ :=
  if i < g.width then
    let acc := sample_loop g j i 0 (⟨0, 0, 0⟩, st.2)
    let pixel_color := acc.1
    let pr := g.sqrt (pixel_color.x / (g.samples_per_pixel : K))
    let pg := g.sqrt (pixel_color.y / (g.samples_per_pixel : K))
    let pb := g.sqrt (pixel_color.z / (g.samples_per_pixel : K))
    let idx := index g.width g.height j i
    let image1 := Function.update st.1 idx { st.1 idx with r := channel_byte pr }
    let image2 := Function.update image1 idx { image1 idx with g := channel_byte pg }
    let image3 := Function.update image2 idx { image2 idx with b := channel_byte pb }
    render_pixel_loop g j (i + 1) (image3, acc.2)
  else st
termination_by (g.width - i).toNat
decreasing_by omega

/-- The pixel that one pass of the column loop stores for column `i` (main.cpp:120-130 and
the right-hand sides of main.cpp:135-137) from the generator state `s`, with the generator
state after the pass. -/
def column_result (g : Globals K M σ) (j i : Int) (s : σ) : Pixel × σ :=
  let acc := sample_loop g j i 0 (⟨0, 0, 0⟩, s)
  (⟨channel_byte (g.sqrt (acc.1.x / (g.samples_per_pixel : K))),
    channel_byte (g.sqrt (acc.1.y / (g.samples_per_pixel : K))),
    channel_byte (g.sqrt (acc.1.z / (g.samples_per_pixel : K)))⟩, acc.2)

/-- The function `render_pixel` (main.cpp:115-139): one scanline `j`. -/
def render_pixel (g : Globals K M σ) (j : Int) (st : (Nat → Pixel) × σ) : (Nat → Pixel) × σ :=
  render_pixel_loop g j 0 st

end Driver

/-! ## Instrumentor.h -/

/-- The struct `ProfileResult` (Instrumentor.h:41-46); the field `end` is `end_`. -/
structure ProfileResult where
  name : String
  start : Int
  end_ : Int
  threadID : Nat
deriving DecidableEq, Repr

/-- The `std::ofstream` member as the class uses it: the file it has open, if any, as its path
and the text written to it so far, and whether the stream is in an error state. -/
structure ofstream where
  file : Option (String × String)
  bad : Bool
deriving DecidableEq, Repr

/-- The member `open` of `std::ofstream`: on a stream with no file open it opens the file
(empty; opening is taken to succeed) and clears the error state; on a stream that has a file
open it fails. -/
def ofstream.open (o : ofstream) (filepath : String) : ofstream :=
  match o.file with
  | some _ => { o with bad := true }
  | none => { file := some (filepath, ""), bad := false }

/-- The insertion `operator<<` of `std::ofstream`: the text is appended to the open file; on
a stream in an error state or with no file open nothing is written and the stream is in error
afterwards. -/
def ofstream.put (o : ofstream) (text : String) : ofstream :=
  match o.bad, o.file with
  | false, some (filepath, written) => { o with file := some (filepath, written ++ text) }
  | _, _ => { o with bad := true }

/-- The member `close` of `std::ofstream`: the stream has no file open afterwards; closing
with no file open fails. The second component is the file that was closed. -/
def ofstream.close (o : ofstream) : ofstream × Option (String × String) :=
  match o.file with
  | some f => ({ o with file := none }, some f)
  | none => ({ o with bad := true }, none)

/-- The class `Instrumentor` (Instrumentor.h:48-139) without its mutex, together with the
files that its stream has closed so far (`closed`: in order, the path and the text written
in each session). -/
structure Instrumentor where
  m_sessionName : String
  m_outputStream : ofstream
  m_profileCount : Int
  m_activeSession : Bool
  closed : List (String × String)
deriving DecidableEq, Repr

/-- The text of `writeHeader` (Instrumentor.h:124). -/
def header_text : String := "\x7b\"otherData\": \x7b\x7d,\"traceEvents\":["

/-- The text of `writeFooter` (Instrumentor.h:133). -/
def footer_text : String := "]\x7d"

/-- The state of a freshly constructed `Instrumentor` (Instrumentor.h:50-56), with no file
closed yet. -/
def Instrumentor.initial : Instrumentor where
  m_sessionName := "None"
  m_outputStream := { file := none, bad := false }
  m_profileCount := 0
  m_activeSession := false
  closed := []

/-- The method `writeHeader` (Instrumentor.h:122-129). -/
def Instrumentor.writeHeader (st : Instrumentor) : Instrumentor :=
  { st with m_outputStream := st.m_outputStream.put header_text }

/-- The method `writeFooter` (Instrumentor.h:131-138). -/
def Instrumentor.writeFooter (st : Instrumentor) : Instrumentor :=
  { st with m_outputStream := st.m_outputStream.put footer_text }

/-- The method `endSession` (Instrumentor.h:83-93). -/
def Instrumentor.endSession (st : Instrumentor) : Instrumentor :=
  if !st.m_activeSession then st
  else
    let st1 := { st with m_activeSession := false }
    let st2 := st1.writeFooter
    let c := st2.m_outputStream.close
    { st2 with m_outputStream := c.1, closed := st2.closed ++ c.2.toList, m_profileCount := 0 }

/-- The method `beginSession` (Instrumentor.h:71-81). -/
def Instrumentor.beginSession (st : Instrumentor) (name filepath : String) : Instrumentor :=
  let st1 := if st.m_activeSession then st.endSession else st
  let st2 := { st1 with m_activeSession := true }
  let st3 := { st2 with m_outputStream := st2.m_outputStream.open filepath }
  let st4 := st3.writeHeader
  { st4 with m_sessionName := name }

/-- The name written by `writeProfile` (Instrumentor.h:104-105): every double quote replaced
by a single quote. -/
def profile_name (result : ProfileResult) : String :=
  String.mk (result.name.data.map fun c => if c = Char.ofNat 34 then Char.ofNat 39 else c)

/-- The pieces that `writeProfile` inserts for one event (Instrumentor.h:107-115), in
order. -/
def profile_pieces (result : ProfileResult) : List String :=
  ["\x7b", "\"cat\":\"function\",", "\"dur\":", toString (result.end_ - result.start), ",",
   "\"name\":\"", profile_name result, "\",", "\"ph\":\"X\",", "\"pid\":0,", "\"tid\":",
   toString result.threadID, ",", "\"ts\":", toString result.start, "\x7d"]

/-- The text of one event: the pieces of `profile_pieces` in a row. -/
def profile_text (result : ProfileResult) : String :=
  (profile_pieces result).foldl (fun acc piece => acc ++ piece) ""

/-- The method `writeProfile` (Instrumentor.h:95-120). -/
def Instrumentor.writeProfile (st : Instrumentor) (result : ProfileResult) : Instrumentor :=
  let count := st.m_profileCount
  let st1 := { st with m_profileCount := count + 1 }
  let st2 := if count > 0 then { st1 with m_outputStream := st1.m_outputStream.put "," } else st1
  { st2 with m_outputStream := (profile_pieces result).foldl ofstream.put st2.m_outputStream }

/-- A call on the `Instrumentor`. -/
inductive Call where
  | beginSession (name filepath : String)
  | endSession
  | writeProfile (result : ProfileResult)
deriving DecidableEq, Repr

/-- The effect of one call. -/
def Instrumentor.step (st : Instrumentor) : Call → Instrumentor
  | Call.beginSession name filepath => st.beginSession name filepath
  | Call.endSession => st.endSession
  | Call.writeProfile result => st.writeProfile result

/-- The effect of a sequence of calls, first call first. -/
def Instrumentor.run (st : Instrumentor) (calls : List Call) : Instrumentor :=
  calls.foldl Instrumentor.step st

/-- The number of `beginSession` calls in a sequence of calls. -/
def begun : List Call → Nat
  | [] => 0
  | Call.beginSession _ _ :: calls => begun calls + 1
  | _ :: calls => begun calls

/-! ## The range of `double`

A second model of the arithmetic, for the inputs on which the exponent range of `double`
matters. A `double` is a finite value, a negative zero, an infinity or a NaN; an operation
takes the exact result and applies the exponent range of binary64 to it: at `2 ^ 1024` and
above it overflows to an infinity, below `2 ^ (-1022)` it is rounded to the grid of the
subnormal numbers (the multiples of `2 ^ (-1074)`, ties to even), which takes everything below
`2 ^ (-1075)` to a zero. The rounding of the 53-bit significand in the normal range is
idealised away, as in the first model. -/

/-- A `double` with its range: a finite value (`fin 0` is `+0.0`), `-0.0`, an infinity with
its sign bit, or a NaN. -/
inductive double (K : Type) where
  | fin (x : K)
  | negzero
  | inf (neg : Bool)
  | nan
deriving DecidableEq, Repr

section RangeModel

variable {K : Type} [LinearOrderedField K] [FloorRing K]

/-- The nearest integer, ties to even. -/
def round_even (y : K) : Int :=
  if y - (⌊y⌋ : K) < 1 / 2 then ⌊y⌋
  else if 1 / 2 < y - (⌊y⌋ : K) then ⌊y⌋ + 1
  else if ⌊y⌋ % 2 = 0 then ⌊y⌋
  else ⌊y⌋ + 1

/-- The result of an operation whose exact value is `x`: overflow at `2 ^ 1024`, the value
itself in the normal range, the nearest multiple of `2 ^ (-1074)` below `2 ^ (-1022)`, a zero
of the sign of `x` when that multiple is `0`. -/
def double.round (x : K) : double K :=
  if 2 ^ 1024 ≤ |x| then double.inf (decide (x < 0))
  else if 1 / 2 ^ 1022 ≤ |x| then double.fin x
  else if round_even (x * 2 ^ 1074) = 0 then (if x < 0 then double.negzero else double.fin 0)
  else double.fin ((round_even (x * 2 ^ 1074) : K) / 2 ^ 1074)

/-- The value of a finite `double` (`0` for the zeros; not used on an infinity or a NaN). -/
def double.val : double K → K
  | double.fin x => x
  | _ => 0

/-- The sign bit. -/
def double.sign : double K → Bool
  | double.fin x => decide (x < 0)
  | double.negzero => true
  | double.inf neg => neg
  | double.nan => false

/-- The zero with a given sign bit. -/
def double.zero (neg : Bool) : double K := if neg then double.negzero else double.fin 0

/-- The unary minus of `double`. -/
def double.neg : double K → double K
  | double.fin x => if x = 0 then double.negzero else double.fin (-x)
  | double.negzero => double.fin 0
  | double.inf neg => double.inf (!neg)
  | double.nan => double.nan

/-- The addition of `double`: NaN for a NaN operand and for infinities of opposite signs; an
exact sum of `0` is `+0.0`, except that `-0.0 + -0.0` is `-0.0`. -/
def double.add : double K → double K → double K
  | double.nan, _ => double.nan
  | _, double.nan => double.nan
  | double.inf a, double.inf b => if a = b then double.inf a else double.nan
  | double.inf a, _ => double.inf a
  | _, double.inf b => double.inf b
  | double.negzero, double.negzero => double.negzero
  | a, b => if a.val + b.val = 0 then double.fin 0 else double.round (a.val + b.val)

/-- The subtraction of `double`: `a - b` is `a + (-b)`. -/
def double.sub (a b : double K) : double K := double.add a (double.neg b)

/-- The multiplication of `double`: NaN for a NaN operand and for zero times infinity; the
sign bit of a zero or an infinity result is the exclusive or of the sign bits. -/
def double.mul : double K → double K → double K
  | double.nan, _ => double.nan
  | _, double.nan => double.nan
  | double.inf a, double.inf b => double.inf (Bool.xor a b)
  | double.inf a, b => if b.val = 0 then double.nan else double.inf (Bool.xor a b.sign)
  | a, double.inf b => if a.val = 0 then double.nan else double.inf (Bool.xor a.sign b)
  | a, b =>
    if a.val * b.val = 0 then double.zero (Bool.xor a.sign b.sign)
    else double.round (a.val * b.val)

/-- The division of `double`: NaN for a NaN operand, for infinity by infinity and for zero by
zero; a non-zero value divided by a zero is an infinity. -/
def double.div : double K → double K → double K
  | double.nan, _ => double.nan
  | _, double.nan => double.nan
  | double.inf _, double.inf _ => double.nan
  | double.inf a, b => double.inf (Bool.xor a b.sign)
  | a, double.inf b => double.zero (Bool.xor a.sign b)
  | a, b =>
    if b.val = 0 then
      (if a.val = 0 then double.nan else double.inf (Bool.xor a.sign b.sign))
    else if a.val = 0 then double.zero (Bool.xor a.sign b.sign)
    else double.round (a.val / b.val)

/-- The function `sqrt` on `double`, from the square root `rsqrt` of the values: NaN for a
negative operand, `-0.0` for `-0.0`. -/
def double.sqrt (rsqrt : K → K) : double K → double K
  | double.nan => double.nan
  | double.inf neg => if neg then double.nan else double.inf false
  | double.negzero => double.negzero
  | double.fin x => if x < 0 then double.nan else double.round (rsqrt x)

/-- The comparison `<` of `double`: false when an operand is a NaN; the zeros are equal. -/
def double.lt : double K → double K → Bool
  | double.nan, _ => false
  | _, double.nan => false
  | double.inf a, double.inf b => a && !b
  | double.inf a, _ => a
  | _, double.inf b => !b
  | a, b => decide (a.val < b.val)

/-! ### vec3.h, ray.h and `ray_color` on the range of `double` -/

/-- The method `length_squared` (vec3.h:41-43) on the range of `double`. -/
def dbl.length_squared (v : vec3 (double K)) : double K :=
  double.add (double.add (double.mul v.x v.x) (double.mul v.y v.y)) (double.mul v.z v.z)

/-- The method `length` (vec3.h:37-39) on the range of `double`. -/
def dbl.length (sqrt : double K → double K) (v : vec3 (double K)) : double K :=
  sqrt (dbl.length_squared v)

/-- The binary `operator+` (vec3.h:70-72) on the range of `double`. -/
def dbl.add (u v : vec3 (double K)) : vec3 (double K) :=
  ⟨double.add u.x v.x, double.add u.y v.y, double.add u.z v.z⟩

/-- The binary `operator-` (vec3.h:74-76) on the range of `double`. -/
def dbl.sub (u v : vec3 (double K)) : vec3 (double K) :=
  ⟨double.sub u.x v.x, double.sub u.y v.y, double.sub u.z v.z⟩

/-- The componentwise `operator*` on two vectors (vec3.h:78-80) on the range of `double`. -/
def dbl.mul (u v : vec3 (double K)) : vec3 (double K) :=
  ⟨double.mul u.x v.x, double.mul u.y v.y, double.mul u.z v.z⟩

/-- The `operator*(double t, const vec3 &v)` (vec3.h:82-84) on the range of `double`. -/
def dbl.smul (t : double K) (v : vec3 (double K)) : vec3 (double K) :=
  ⟨double.mul t v.x, double.mul t v.y, double.mul t v.z⟩

/-- The `operator/(vec3 v, double t)` (vec3.h:90-92) on the range of `double`:
`(1 / t) * v`. -/
def dbl.div (v : vec3 (double K)) (t : double K) : vec3 (double K) :=
  dbl.smul (double.div (double.fin 1) t) v

/-- The function `dot` (vec3.h:94-98) on the range of `double`. -/
def dbl.dot (u v : vec3 (double K)) : double K :=
  double.add (double.add (double.mul u.x v.x) (double.mul u.y v.y)) (double.mul u.z v.z)

/-- The function `unit_vector` (vec3.h:117-119) on the range of `double`. -/
def dbl.unit_vector (sqrt : double K → double K) (v : vec3 (double K)) : vec3 (double K) :=
  dbl.div v (dbl.length sqrt v)

/-- The local `discriminant` of `hit_sphere` (ray.h:26-30) on the range of `double`. -/
def dbl.hit_sphere_discriminant (center : point3 (double K)) (radius : double K)
    (r : ray (double K)) : double K :=
  let oc := dbl.sub r.orig center
  let a := dbl.length_squared r.dir
  let half_b := dbl.dot oc r.dir
  let c := double.sub (dbl.length_squared oc) (double.mul radius radius)
  double.sub (double.mul half_b half_b) (double.mul a c)

/-- The function `hit_sphere` (ray.h:25-38) on the range of `double`. -/
def dbl.hit_sphere (sqrt : double K → double K) (center : point3 (double K))
    (radius : double K) (r : ray (double K)) : double K :=
  let oc := dbl.sub r.orig center
  let a := dbl.length_squared r.dir
  let half_b := dbl.dot oc r.dir
  let c := double.sub (dbl.length_squared oc) (double.mul radius radius)
  let discriminant := double.sub (double.mul half_b half_b) (double.mul a c)
  if double.lt discriminant (double.fin 0) then double.fin (-1.0)
  else double.div (double.sub (double.neg half_b) (sqrt discriminant)) a

/-- The function `ray_color` (main.cpp:19-41) on the range of `double`; the constant
`infinity` of rtweekend.h is the positive infinity. -/
def dbl.ray_color {M σ : Type} (sqrt : double K → double K)
    (scatter : scatter_fn (double K) M σ) (world : hittable (double K) M σ)
    (r : ray (double K)) (depth : Int) (s : σ) : color (double K) × σ :=
  if depth ≤ 0 then (⟨double.fin 0, double.fin 0, double.fin 0⟩, s)
  else
    let q := world.hit r (double.fin 0.001) ((double.inf false : double K) : WithTop (double K)) s
    match q.1 with
    | some rec =>
      let m := scatter rec.mat_ptr r rec q.2
      match m.1 with
      | some (attenuation, scattered) =>
        let sub := dbl.ray_color sqrt scatter world scattered (depth - 1) m.2
        (dbl.mul attenuation sub.1, sub.2)
      | none => (⟨double.fin 0, double.fin 0, double.fin 0⟩, m.2)
    | none =>
      let unit_direction := dbl.unit_vector sqrt r.dir
      let t := double.mul (double.fin 0.5) (double.add unit_direction.y (double.fin 1.0))
      (dbl.add
          (dbl.smul (double.sub (double.fin 1.0) t)
            ⟨double.fin 1.0, double.fin 1.0, double.fin 1.0⟩)
          (dbl.smul t ⟨double.fin 0.5, double.fin 0.7, double.fin 1.0⟩), q.2)
termination_by depth.toNat
decreasing_by omega

/-- A scene on the range of `double` that never reports a hit and bumps the counter kept as
the state. -/
def dbl.void_world : hittable (double K) Unit Nat where
  hit _ _ _ s := (none, s + 1)

/-- A material on the range of `double` that always absorbs. -/
def dbl.absorb : scatter_fn (double K) Unit Nat := fun _ _ _ s => (none, s)

end RangeModel

/-! ### `hit_sphere` over an arbitrary arithmetic of `double`

The function `hit_sphere` once more, over operations about which nothing is assumed: whatever
holds of it here holds however the operations of `double` round, overflow or underflow. The
exact arithmetic of the first model and the arithmetic of the range model are two instances. -/

/-- The operations of `double` that `hit_sphere` and the vector operations under it use: the
four operations, the unary minus, `sqrt`, the comparison `<`, and the values of the literals
`0` and `-1.0`. -/
structure arithmetic (D : Type) where
  add : D → D → D
  sub : D → D → D
  mul : D → D → D
  div : D → D → D
  neg : D → D
  sqrt : D → D
  lt : D → D → Bool
  zero : D
  minus_one : D

section AnyArithmetic

variable {D : Type}

/-- The binary `operator-` (vec3.h:74-76) over an arithmetic `A`. -/
def fp.sub (A : arithmetic D) (u v : vec3 D) : vec3 D :=
  ⟨A.sub u.x v.x, A.sub u.y v.y, A.sub u.z v.z⟩

/-- The method `length_squared` (vec3.h:41-43) over an arithmetic `A`. -/
def fp.length_squared (A : arithmetic D) (v : vec3 D) : D :=
  A.add (A.add (A.mul v.x v.x) (A.mul v.y v.y)) (A.mul v.z v.z)

/-- The function `dot` (vec3.h:94-98) over an arithmetic `A`. -/
def fp.dot (A : arithmetic D) (u v : vec3 D) : D :=
  A.add (A.add (A.mul u.x v.x) (A.mul u.y v.y)) (A.mul u.z v.z)

/-- The local `discriminant` of `hit_sphere` (ray.h:26-30) over an arithmetic `A`. -/
def fp.hit_sphere_discriminant (A : arithmetic D) (center : point3 D) (radius : D)
    (r : ray D) : D :=
  let oc := fp.sub A r.orig center
  let a := fp.length_squared A r.dir
  let half_b := fp.dot A oc r.dir
  let c := A.sub (fp.length_squared A oc) (A.mul radius radius)
  A.sub (A.mul half_b half_b) (A.mul a c)

/-- The function `hit_sphere` (ray.h:25-38) over an arithmetic `A`. -/
def fp.hit_sphere (A : arithmetic D) (center : point3 D) (radius : D) (r : ray D) : D :=
  let oc := fp.sub A r.orig center
  let a := fp.length_squared A r.dir
  let half_b := fp.dot A oc r.dir
  let c := A.sub (fp.length_squared A oc) (A.mul radius radius)
  let discriminant := A.sub (A.mul half_b half_b) (A.mul a c)
  if A.lt discriminant A.zero then A.minus_one
  else A.div (A.sub (A.neg half_b) (A.sqrt discriminant)) a

end AnyArithmetic

/-- The exact arithmetic of the first model, with the function `sqrt` passed in. -/
def exact_arithmetic {K : Type} [LinearOrderedField K] (sqrt : K → K) : arithmetic K where
  add a b := a + b
  sub a b := a - b
  mul a b := a * b
  div a b := a / b
  neg a := -a
  sqrt := sqrt
  lt a b := decide (a < b)
  zero := 0
  minus_one := -1.0

/-- The arithmetic of the range model, with the function `sqrt` on `double` passed in. -/
def double.arithmetic {K : Type} [LinearOrderedField K] [FloorRing K]
    (sqrt : double K → double K) : arithmetic (double K) where
  add := double.add
  sub := double.sub
  mul := double.mul
  div := double.div
  neg := double.neg
  sqrt := sqrt
  lt := double.lt
  zero := double.fin 0
  minus_one := double.fin (-1.0)

/-! ## Concrete scenes for the instances -/

section Instances

variable {K : Type} [LinearOrderedField K]

/-- A scene of one material (handle `Unit`) whose every query reports a hit at the ray origin
and bumps a counter kept as the state. -/
def busy_world : hittable K Unit Nat where
  hit r _ _ s := (some ⟨r.orig, ⟨0, 1, 0⟩, (), 1, true⟩, s + 1)

/-- A material that always scatters, halving the light and keeping the direction, and bumps
the counter kept as the state. -/
def busy_scatter : scatter_fn K Unit Nat :=
  fun _ r rec s => (some (⟨0.5, 0.5, 0.5⟩, ⟨rec.p, r.dir⟩), s + 1)

/-- A material that always scatters straight up from the hit point, halving the light, and
bumps the counter kept as the state. -/
def up_scatter : scatter_fn K Unit Nat :=
  fun _ _ rec s => (some (⟨0.5, 0.5, 0.5⟩, ⟨rec.p, ⟨0, 1, 0⟩⟩), s + 1)

/-- A scene that never reports a hit but still bumps the counter kept as the state. -/
def void_world : hittable K Unit Nat where
  hit _ _ _ s := (none, s + 1)

/-- A pinhole camera at the origin looking down `-z`; it draws nothing. -/
def pinhole : camera K Nat where
  get_ray u v s := (⟨⟨0, 0, 0⟩, ⟨u, v, -1⟩⟩, s)

/-- A generator that always draws `0.5` and counts its draws in the state. -/
def half_draw : Nat → K × Nat := fun s => (0.5, s + 1)

/-- The random source as a stream of draws: the state is the position in the stream, and
`random_double(min, max)` hands out the draw at that position. -/
def stream_draw (draws : Nat → K) : K → K → Nat → K × Nat := fun _ _ s => (draws s, s + 1)

/-- The globals with the constants of main.cpp:97-101 (`width = 1920`,
`height = static_cast<int>(1920 / (16.0 / 9.0)) = 1080`, `samples_per_pixel = 400`,
`max_depth = 16`) around a given `sqrt`, on the scene `void_world` seen through `pinhole`. -/
def src_globals (sqrt : K → K) : Globals K Unit Nat where
  sqrt := sqrt
  random_double := half_draw
  scatter := busy_scatter
  width := 1920
  height := 1080
  samples_per_pixel := 400
  max_depth := 16
  world := void_world
  cam := pinhole

/-- The globals with the constants of main.cpp:97-101 around a given `sqrt`, on the scene
`busy_world` with the material `up_scatter`, seen through `pinhole`. -/
def busy_globals (sqrt : K → K) : Globals K Unit Nat where
  sqrt := sqrt
  random_double := half_draw
  scatter := up_scatter
  width := 1920
  height := 1080
  samples_per_pixel := 400
  max_depth := 16
  world := busy_world
  cam := pinhole

end Instances

/-! ## Properties of `ray::at` -/

/-- A vector of length `1` has squared length `1`. -/
lemma length_squared_of_unit (v : vec3 ℝ) (h : v.length Real.sqrt = 1) :
    v.length_squared = 1 := by
  unfold vec3.length at h
  have h0 : 0 ≤ v.length_squared := by
    unfold vec3.length_squared
    exact add_nonneg (add_nonneg (mul_self_nonneg _) (mul_self_nonneg _)) (mul_self_nonneg _)
  have := Real.mul_self_sqrt h0
  rw [h] at this
  linarith

/-- C9: for every unit vector `uv` and every unit normal `n` oriented against the incoming
ray (`dot(uv, n) <= 0`), `refract(uv, n, 1.0)` equals `uv`: with a refraction ratio of `1.0`
the refracted direction is a straight pass-through. -/
theorem refract_ratio_one (uv n : vec3 ℝ) (hu : uv.length Real.sqrt = 1)
    (hn : n.length Real.sqrt = 1) (hdot : dot uv n ≤ 0) :
    refract Real.sqrt uv n 1.0 = uv := by
  have hu2 := length_squared_of_unit uv hu
  have hn2 := length_squared_of_unit n hn
  obtain ⟨ux, uy, uz⟩ := uv
  obtain ⟨nx, ny, nz⟩ := n
  simp only [vec3.length_squared, dot] at hu2 hn2 hdot
  simp only [refract, dot, vec3.neg, vec3.add, vec3.smul, vec3.length_squared]
  have hc : 0 ≤ -ux * nx + -uy * ny + -uz * nz := by linarith
  have harg : (1.0 : ℝ)
      - (1.0 * (ux + (-ux * nx + -uy * ny + -uz * nz) * nx)
            * (1.0 * (ux + (-ux * nx + -uy * ny + -uz * nz) * nx))
          + 1.0 * (uy + (-ux * nx + -uy * ny + -uz * nz) * ny)
            * (1.0 * (uy + (-ux * nx + -uy * ny + -uz * nz) * ny))
          + 1.0 * (uz + (-ux * nx + -uy * ny + -uz * nz) * nz)
            * (1.0 * (uz + (-ux * nx + -uy * ny + -uz * nz) * nz)))
      = (-ux * nx + -uy * ny + -uz * nz) * (-ux * nx + -uy * ny + -uz * nz) := by
    norm_num
    linear_combination (-1 : ℝ) * hu2
      - (-ux * nx + -uy * ny + -uz * nz) ^ 2 * hn2
  rw [harg, abs_of_nonneg (mul_self_nonneg _), Real.sqrt_mul_self hc]
  ext <;> norm_num <;> ring

/-- Instance of C9: `uv = (3/5, -4/5, 0)` entering through the normal `(0, 1, 0)`. -/
theorem refract_ratio_one_witness :
    refract Real.sqrt (⟨3 / 5, -4 / 5, 0⟩ : vec3 ℝ) ⟨0, 1, 0⟩ 1.0 = ⟨3 / 5, -4 / 5, 0⟩ :=
  refract_ratio_one ⟨3 / 5, -4 / 5, 0⟩ ⟨0, 1, 0⟩
    (by simp only [vec3.length, vec3.length_squared]; norm_num)
    (by simp only [vec3.length, vec3.length_squared]; norm_num)
    (by simp only [dot]; norm_num)

section RayColor

variable {M σ : Type}

/-- The first step of `ray_color` on a miss with budget left: the background gradient. -/
lemma ray_color_of_miss (scatter : scatter_fn ℝ M σ) (world : hittable ℝ M σ) (r : ray ℝ)
    (depth : Int) (s : σ) (hd : 0 < depth) (hmiss : (world.hit r 0.001 ⊤ s).1 = none) :
    ray_color Real.sqrt scatter world r depth s
      = (vec3.add
          (vec3.smul (1.0 - 0.5 * ((unit_vector Real.sqrt r.direction).y + 1.0)) ⟨1.0, 1.0, 1.0⟩)
          (vec3.smul (0.5 * ((unit_vector Real.sqrt r.direction).y + 1.0)) ⟨0.5, 0.7, 1.0⟩),
         (world.hit r 0.001 ⊤ s).2) := by
  rw [ray_color, if_neg (not_le.mpr hd)]
  simp only [hmiss]

/-- C1: for every ray and every scene (whatever its hit query and materials return),
`ray_color` with any `depth <= 0` (in particular `depth = 0`) returns exactly the colour
`(0,0,0)` and never queries the scene: the state comes back untouched, and a scene that counts
its hit queries and scatter calls counts none. -/
theorem ray_color_depth_nonpos (scatter : scatter_fn ℝ M σ) (world : hittable ℝ M σ)
    (r : ray ℝ) (depth : Int) (s : σ) (n : Calls) (h : depth ≤ 0) :
    ray_color Real.sqrt scatter world r depth s = (⟨0, 0, 0⟩, s) ∧
    ray_color Real.sqrt (counting_scatter scatter) world.counting r depth (s, n)
      = (⟨0, 0, 0⟩, (s, n)) := by
  constructor
  · rw [ray_color, if_pos h]
  · rw [ray_color, if_pos h]

/-- Instance of C1 at `depth = 0` on a scene that would report a hit at every query. -/
theorem ray_color_depth_nonpos_witness :
    (0 : Int) ≤ 0 ∧
    ray_color Real.sqrt busy_scatter busy_world (⟨⟨0, 0, 0⟩, ⟨0, 0, -1⟩⟩ : ray ℝ) 0 7
      = (⟨0, 0, 0⟩, 7) :=
  ⟨le_refl 0,
   (ray_color_depth_nonpos busy_scatter busy_world ⟨⟨0, 0, 0⟩, ⟨0, 0, -1⟩⟩ 0 7 ⟨0, 0⟩
      (le_refl 0)).1⟩

/-- C2: for every `depth > 0` and every ray with direction `d`, if the scene reports no hit in
`(0.001, infinity)` then `ray_color` returns exactly `(1-t)*(1,1,1) + t*(0.5,0.7,1.0)` with
`t = 0.5*(unit_vector(d).y + 1)`; the colour is the same for any other origin and any other
positive depth; and the empty scene list reports no hit, so it gives this colour for every
ray. -/
theorem ray_color_miss_gradient (scatter : scatter_fn ℝ M σ) (world : hittable ℝ M σ)
    (r : ray ℝ) (depth : Int) (s : σ) (t : ℝ)
    (ht : t = 0.5 * ((unit_vector Real.sqrt r.direction).y + 1))
    (hd : 0 < depth) (hmiss : (world.hit r 0.001 ⊤ s).1 = none) :
    (ray_color Real.sqrt scatter world r depth s).1
      = vec3.add (vec3.smul (1 - t) ⟨1, 1, 1⟩) (vec3.smul t ⟨0.5, 0.7, 1.0⟩) ∧
    (∀ (r' : ray ℝ) (depth' : Int) (s' : σ), 0 < depth' → r'.direction = r.direction →
      (world.hit r' 0.001 ⊤ s').1 = none →
      (ray_color Real.sqrt scatter world r' depth' s').1
        = (ray_color Real.sqrt scatter world r depth s).1) ∧
    ray_color Real.sqrt scatter (hittable_list []) r depth s
      = (vec3.add (vec3.smul (1 - t) ⟨1, 1, 1⟩) (vec3.smul t ⟨0.5, 0.7, 1.0⟩), s) := by
  subst ht
  refine ⟨?_, ?_, ?_⟩
  · rw [ray_color_of_miss scatter world r depth s hd hmiss]
    norm_num
  · intro r' depth' s' hd' hdir hmiss'
    rw [ray_color_of_miss scatter world r depth s hd hmiss,
      ray_color_of_miss scatter world r' depth' s' hd' hmiss', hdir]
  · rw [ray_color_of_miss scatter (hittable_list []) r depth s hd rfl]
    norm_num [hittable_list]

/-- Instance of C2: direction `(3,4,0)` has unit `y` component `4/5`, so `t = 0.9` and the
colour is `(0.55, 0.73, 1)`. -/
theorem ray_color_miss_gradient_witness :
    (ray_color Real.sqrt busy_scatter void_world (⟨⟨1, 2, 3⟩, ⟨3, 4, 0⟩⟩ : ray ℝ) 16 0).1
      = vec3.add (vec3.smul (1 - 0.9) ⟨1, 1, 1⟩) (vec3.smul 0.9 ⟨0.5, 0.7, 1.0⟩) :=
  (ray_color_miss_gradient busy_scatter void_world ⟨⟨1, 2, 3⟩, ⟨3, 4, 0⟩⟩ 16 0 0.9
    (by
      have h5 : Real.sqrt 25 = 5 := by
        rw [show (25 : ℝ) = 5 ^ 2 by norm_num]
        exact Real.sqrt_sq (by norm_num)
      simp only [unit_vector, vec3.div, vec3.smul, vec3.length, vec3.length_squared,
        ray.direction]
      norm_num [h5])
    (by decide) rfl).1

end RayColor

/-! ## Properties of `hit_sphere` -/

/-- The signed index of a pixel inside the image lies in `[0, width * height)`. -/
lemma index_int_bounds (width height j i : Int) (hi : 0 ≤ i ∧ i < width)
    (hj : 0 ≤ j ∧ j < height) :
    0 ≤ index_int width height j i ∧ index_int width height j i < width * height := by
  unfold index_int
  obtain ⟨hi0, hi1⟩ := hi
  obtain ⟨hj0, hj1⟩ := hj
  have hw : 0 ≤ width := le_trans hi0 hi1.le
  have h1 : 0 ≤ (height - 1 - j) * width := mul_nonneg (by omega) hw
  have h2 : (height - 1 - j) * width ≤ (height - 1) * width :=
    mul_le_mul_of_nonneg_right (by omega) hw
  constructor
  · omega
  · have h3 : (height - 1) * width = width * height - width := by ring
    omega

/-- The conversion to `unsigned` is the identity on the index of a pixel inside an image whose
size fits an `int`. -/
lemma index_eq_index_int (width height j i : Int) (hi : 0 ≤ i ∧ i < width)
    (hj : 0 ≤ j ∧ j < height) (hfit : width * height < 2 ^ 31) :
    (index width height j i : Int) = index_int width height j i := by
  obtain ⟨h0, h1⟩ := index_int_bounds width height j i hi hj
  unfold index to_unsigned
  have hlt : index_int width height j i < 2 ^ 32 := by
    have : (2 : Int) ^ 31 < 2 ^ 32 := by norm_num
    omega
  rw [Int.emod_eq_of_lt h0 hlt, Int.toNat_of_nonneg h0]

/-- C7: for every column `0 <= i < width` and every scanline `0 <= j < height` (so that
`width, height > 0`) of an image whose size `width * height` fits an `int`, the signed value `((height-1-j)*width) + i` is
non-negative, the conversion to `unsigned` does not wrap (`index` is that value), and it is
strictly less than `width * height`; the scanline `j = height - 1` lands in buffer row 0
(`index` is the column `i`). -/
theorem index_in_bounds (width height j i : Int)
    (hi : 0 ≤ i ∧ i < width) (hj : 0 ≤ j ∧ j < height) (hfit : width * height < 2 ^ 31) :
    0 ≤ index_int width height j i ∧
    (index width height j i : Int) = index_int width height j i ∧
    (index width height j i : Int) < width * height ∧
    (index width height (height - 1) i : Int) = 0 * width + i := by
  have hb := index_int_bounds width height j i hi hj
  have he := index_eq_index_int width height j i hi hj hfit
  refine ⟨hb.1, he, he ▸ hb.2, ?_⟩
  rw [index_eq_index_int width height (height - 1) i hi ⟨by omega, by omega⟩ hfit]
  unfold index_int
  ring

/-- Instance of C7 on the image of main.cpp (`1920 x 1080`), column `5` of scanline `1079`
and of scanline `0`. -/
theorem index_in_bounds_witness :
    (index 1920 1080 1079 5 : Int) = 0 * 1920 + 5 ∧
    (index 1920 1080 0 5 : Int) < 1920 * 1080 :=
  ⟨(index_in_bounds 1920 1080 1079 5 (by decide) (by decide) (by decide)).2.2.2,
   (index_in_bounds 1920 1080 0 5 (by decide) (by decide) (by decide)).2.2.1⟩

/-- The clamped and scaled channel `256 * clamp(x, 0, 0.999)` lies in `[0, 255.744]`. -/
lemma scaled_clamp_bounds (x : ℝ) :
    0 ≤ 256 * clamp x 0.0 0.999 ∧ 256 * clamp x 0.0 0.999 < 256 := by
  unfold clamp
  split_ifs with h1 h2 <;> constructor <;> norm_num at * <;> linarith

/-- The function `clamp` is monotone in its first argument when `min <= max`. -/
lemma clamp_mono (x y lo hi : ℝ) (hb : lo ≤ hi) (hxy : x ≤ y) : clamp x lo hi ≤ clamp y lo hi := by
  unfold clamp
  split_ifs <;> linarith

/-- C8: for every real channel value `x`, the truncation of `256 * clamp(x, 0.0, 0.999)` is an
integer in `[0,255]`, so the cast to `unsigned char` does not wrap (the stored byte is that
integer); the byte is `0` for `x <= 0`, `255` for `x >= 0.999`, and it is monotonically
non-decreasing in `x`. -/
theorem channel_byte_range (x y : ℝ) :
    (0 ≤ trunc (256 * clamp x 0.0 0.999) ∧ trunc (256 * clamp x 0.0 0.999) ≤ 255) ∧
    (channel_byte x : Int) = trunc (256 * clamp x 0.0 0.999) ∧
    channel_byte x ≤ 255 ∧
    (x ≤ 0 → channel_byte x = 0) ∧
    (0.999 ≤ x → channel_byte x = 255) ∧
    (x ≤ y → channel_byte x ≤ channel_byte y) := by
  have key : ∀ z : ℝ, 0 ≤ trunc (256 * clamp z 0.0 0.999) ∧
      trunc (256 * clamp z 0.0 0.999) ≤ 255 ∧
      (channel_byte z : Int) = trunc (256 * clamp z 0.0 0.999) ∧
      trunc (256 * clamp z 0.0 0.999) = ⌊256 * clamp z 0.0 0.999⌋ := by
    intro z
    obtain ⟨h0, h1⟩ := scaled_clamp_bounds z
    have ht : trunc (256 * clamp z 0.0 0.999) = ⌊256 * clamp z 0.0 0.999⌋ := by
      unfold trunc
      rw [if_pos h0]
    have hf0 : 0 ≤ ⌊256 * clamp z 0.0 0.999⌋ := Int.floor_nonneg.mpr h0
    have hf1 : ⌊256 * clamp z 0.0 0.999⌋ < 256 := by
      rw [Int.floor_lt]
      exact_mod_cast h1
    refine ⟨ht ▸ hf0, by rw [ht]; omega, ?_, ht⟩
    unfold channel_byte to_uchar
    rw [ht, Int.emod_eq_of_lt hf0 hf1, Int.toNat_of_nonneg hf0]
  obtain ⟨hx0, hx1, hxb, hxf⟩ := key x
  obtain ⟨-, -, hyb, hyf⟩ := key y
  refine ⟨⟨hx0, hx1⟩, hxb, ?_, ?_, ?_, ?_⟩
  · have : (channel_byte x : Int) ≤ 255 := hxb ▸ hx1
    exact_mod_cast this
  · intro hx
    have hc : clamp x 0.0 0.999 = 0 := by
      unfold clamp
      rcases lt_or_eq_of_le hx with h | h
      · rw [if_pos (by norm_num; exact h)]; norm_num
      · subst h; norm_num
    have : (channel_byte x : Int) = 0 := by
      rw [hxb, hxf, hc]; simp
    exact_mod_cast this
  · intro hx
    have hc : clamp x 0.0 0.999 = 0.999 := by
      unfold clamp
      rw [if_neg (by norm_num; linarith)]
      split_ifs <;> [rfl; (norm_num at *; linarith)]
    have : (channel_byte x : Int) = 255 := by
      rw [hxb, hxf, hc, Int.floor_eq_iff]
      constructor <;> norm_num
    exact_mod_cast this
  · intro hxy
    have hm : (256 : ℝ) * clamp x 0.0 0.999 ≤ 256 * clamp y 0.0 0.999 :=
      mul_le_mul_of_nonneg_left (clamp_mono x y _ _ (by norm_num) hxy) (by norm_num)
    have : (channel_byte x : Int) ≤ channel_byte y := by
      rw [hxb, hyb, hxf, hyf]
      exact Int.floor_le_floor hm
    exact_mod_cast this

/-- Instance of C8: the byte stored for `x = -1` is `0`, for `x = 2` it is `255`, and the byte
for `0.25` is at most the byte for `0.5`. -/
theorem channel_byte_range_witness :
    channel_byte (-1 : ℝ) = 0 ∧ channel_byte (2 : ℝ) = 255 ∧
    channel_byte (0.25 : ℝ) ≤ channel_byte (0.5 : ℝ) :=
  ⟨(channel_byte_range (-1) 0).2.2.2.1 (by norm_num),
   (channel_byte_range 2 0).2.2.2.2.1 (by norm_num),
   (channel_byte_range 0.25 0.5).2.2.2.2.2 (by norm_num)⟩

/-- One pass of the column loop: the entry `index` receives the three channels of
`column_result`, and the loop goes on with the next column. -/
lemma render_pixel_loop_step (g : Globals ℝ M σ) (j i : Int) (img : Nat → Pixel) (s : σ)
    (h : i < g.width) :
    render_pixel_loop g j i (img, s)
      = render_pixel_loop g j (i + 1)
          (Function.update img (index g.width g.height j i) (column_result g j i s).1,
           (column_result g j i s).2) := by
  rw [render_pixel_loop, if_pos h]
  simp [column_result]

/-- Past the last column the loop leaves the state as it is. -/
lemma render_pixel_loop_done (g : Globals ℝ M σ) (j i : Int) (st : (Nat → Pixel) × σ)
    (h : ¬ i < g.width) : render_pixel_loop g j i st = st := by
  rw [render_pixel_loop, if_neg h]

/-- Distinct pixels of an image whose size fits an `int` have distinct indices. -/
lemma index_injective (width height j j' i i' : Int) (hi : 0 ≤ i ∧ i < width)
    (hi' : 0 ≤ i' ∧ i' < width) (hj : 0 ≤ j ∧ j < height) (hj' : 0 ≤ j' ∧ j' < height)
    (hfit : width * height < 2 ^ 31)
    (h : index width height j i = index width height j' i') : i = i' ∧ j = j' := by
  have e1 := index_eq_index_int width height j i hi hj hfit
  have e2 := index_eq_index_int width height j' i' hi' hj' hfit
  rw [h, e2] at e1
  unfold index_int at e1
  have hjj : j = j' := by
    rcases lt_trichotomy j j' with hlt | heq | hgt
    · exfalso
      have : (j' - j) * width ≥ 1 * width := mul_le_mul_of_nonneg_right (by omega) (by omega)
      nlinarith
    · exact heq
    · exfalso
      have : (j - j') * width ≥ 1 * width := mul_le_mul_of_nonneg_right (by omega) (by omega)
      nlinarith
  subst hjj
  exact ⟨by linarith, rfl⟩

/-- The column loop from column `i` on leaves every entry unchanged that is not the index of
a column `i' >= i` of the scanline. -/
lemma render_pixel_loop_frame (g : Globals ℝ M σ) (j : Int) :
    ∀ (n : Nat) (i : Int) (img : Nat → Pixel) (s : σ), (g.width - i).toNat = n →
      ∀ k : Nat, (∀ i', i ≤ i' → i' < g.width → k ≠ index g.width g.height j i') →
        (render_pixel_loop g j i (img, s)).1 k = img k := by
  intro n
  induction n with
  | zero =>
    intro i img s hn k _
    rw [render_pixel_loop_done g j i _ (by omega)]
  | succ n ih =>
    intro i img s hn k hk
    have hlt : i < g.width := by omega
    rw [render_pixel_loop_step g j i img s hlt,
      ih (i + 1) _ _ (by omega) k (fun i' h1 h2 => hk i' (by omega) h2),
      Function.update_noteq (hk i (le_refl i) hlt)]

/-- The column loop from column `i` on overwrites the entry of every column `i' >= i` of the
scanline: its final content does not depend on the image before. -/
lemma render_pixel_loop_overwrite (g : Globals ℝ M σ) (j : Int)
    (hj : 0 ≤ j ∧ j < g.height) (hfit : g.width * g.height < 2 ^ 31) :
    ∀ (n : Nat) (i : Int) (img img' : Nat → Pixel) (s : σ), 0 ≤ i → (g.width - i).toNat = n →
      ∀ i', i ≤ i' → i' < g.width →
        (render_pixel_loop g j i (img, s)).1 (index g.width g.height j i')
          = (render_pixel_loop g j i (img', s)).1 (index g.width g.height j i') := by
  intro n
  induction n with
  | zero =>
    intro i img img' s _ hn i' h1 h2
    omega
  | succ n ih =>
    intro i img img' s hi hn i' h1 h2
    have hlt : i < g.width := by omega
    rw [render_pixel_loop_step g j i img s hlt, render_pixel_loop_step g j i img' s hlt]
    rcases eq_or_lt_of_le h1 with heq | hgt
    · subst heq
      have hne : ∀ i2, i + 1 ≤ i2 → i2 < g.width →
          index g.width g.height j i ≠ index g.width g.height j i2 := by
        intro i2 h3 h4 heq
        have := (index_injective g.width g.height j j i i2 ⟨hi, hlt⟩ ⟨by omega, h4⟩ hj hj
          hfit heq).1
        omega
      rw [render_pixel_loop_frame g j n (i + 1) _ _ (by omega) _ hne,
        render_pixel_loop_frame g j n (i + 1) _ _ (by omega) _ hne,
        Function.update_same, Function.update_same]
    · exact ih (i + 1) _ _ _ (by omega) (by omega) i' (by omega) h2

/-- An entry number lies in the row `(height-1-j)*width .. (height-1-j)*width + width-1` exactly
when it is the index of a column of scanline `j`. -/
lemma mem_row_iff (width height j : Int) (hj : 0 ≤ j ∧ j < height)
    (hfit : width * height < 2 ^ 31) (k : Nat) :
    ((height - 1 - j) * width ≤ (k : Int) ∧ (k : Int) ≤ (height - 1 - j) * width + width - 1)
      ↔ ∃ i : Int, (0 ≤ i ∧ i < width) ∧ k = index width height j i := by
  constructor
  · rintro ⟨h1, h2⟩
    refine ⟨(k : Int) - (height - 1 - j) * width, ⟨by omega, by omega⟩, ?_⟩
    have e := index_eq_index_int width height j ((k : Int) - (height - 1 - j) * width)
      ⟨by omega, by omega⟩ hj hfit
    unfold index_int at e
    have : (index width height j ((k : Int) - (height - 1 - j) * width) : Int) = (k : Int) := by
      rw [e]; ring
    exact_mod_cast this.symm
  · rintro ⟨i, hi, rfl⟩
    rw [index_eq_index_int width height j i hi hj hfit]
    unfold index_int
    constructor <;> omega

/-- C6: `render_pixel(j)`, for `0 <= j < height` on an image whose size fits an `int`, writes
exactly the `width` frame-buffer entries `(height-1-j)*width .. (height-1-j)*width + width-1`
(column `i` goes to `(height-1-j)*width + i`; each of these entries is overwritten, its final
content not depending on the image before) and leaves every other entry unchanged; for two
different scanlines the index sets are disjoint, and distinct pixels `(i,j)` map to distinct
indices. -/
theorem render_pixel_writes_row (g : Globals ℝ M σ) (j : Int) (image image' : Nat → Pixel)
    (s : σ) (hj : 0 ≤ j ∧ j < g.height) (hfit : g.width * g.height < 2 ^ 31) :
    (∀ i : Int, 0 ≤ i ∧ i < g.width →
      (index g.width g.height j i : Int) = (g.height - 1 - j) * g.width + i) ∧
    (∀ k : Nat, (g.height - 1 - j) * g.width ≤ (k : Int) ∧
        (k : Int) ≤ (g.height - 1 - j) * g.width + g.width - 1 →
      (render_pixel g j (image, s)).1 k = (render_pixel g j (image', s)).1 k) ∧
    (∀ k : Nat, ¬ ((g.height - 1 - j) * g.width ≤ (k : Int) ∧
        (k : Int) ≤ (g.height - 1 - j) * g.width + g.width - 1) →
      (render_pixel g j (image, s)).1 k = image k) ∧
    (∀ j' i i' : Int, 0 ≤ j' ∧ j' < g.height → 0 ≤ i ∧ i < g.width → 0 ≤ i' ∧ i' < g.width →
      j ≠ j' → index g.width g.height j i ≠ index g.width g.height j' i') ∧
    (∀ j' i i' : Int, 0 ≤ j' ∧ j' < g.height → 0 ≤ i ∧ i < g.width → 0 ≤ i' ∧ i' < g.width →
      index g.width g.height j i = index g.width g.height j' i' → i = i' ∧ j = j') := by
  refine ⟨?_, ?_, ?_, ?_, ?_⟩
  · intro i hi
    exact index_eq_index_int g.width g.height j i hi hj hfit
  · intro k hk
    obtain ⟨i, hi, rfl⟩ := (mem_row_iff g.width g.height j hj hfit k).mp hk
    exact render_pixel_loop_overwrite g j hj hfit _ 0 image image' s (le_refl 0) rfl i hi.1 hi.2
  · intro k hk
    apply render_pixel_loop_frame g j _ 0 image s rfl k
    intro i' h1 h2 heq
    exact hk ((mem_row_iff g.width g.height j hj hfit k).mpr ⟨i', ⟨h1, h2⟩, heq⟩)
  · intro j' i i' hj' hi hi' hne heq
    exact hne (index_injective g.width g.height j j' i i' hi hi' hj hj' hfit heq).2
  · intro j' i i' hj' hi hi' heq
    exact index_injective g.width g.height j j' i i' hi hi' hj hj' hfit heq

/-- Instance of C6 on the image of main.cpp (`1920 x 1080`), scanline `j = 0`, which owns the
last row: entry `0` is left unchanged, and column `0` of scanline `0` and column `7` of
scanline `1` have different indices. -/
theorem render_pixel_writes_row_witness :
    (render_pixel (src_globals Real.sqrt) 0 (fun _ => ⟨1, 2, 3⟩, 0)).1 0 = ⟨1, 2, 3⟩ ∧
    index 1920 1080 0 0 ≠ index 1920 1080 1 7 :=
  ⟨(render_pixel_writes_row (src_globals Real.sqrt) 0 (fun _ => ⟨1, 2, 3⟩) (fun _ => ⟨0, 0, 0⟩) 0
      (by decide) (by decide)).2.2.1 0 (by decide),
   (render_pixel_writes_row (src_globals Real.sqrt) 0 (fun _ => ⟨1, 2, 3⟩) (fun _ => ⟨0, 0, 0⟩) 0
      (by decide) (by decide)).2.2.2.1 1 0 7 (by decide) (by decide) (by decide) (by decide)⟩

/-! ## The coordinates passed to the camera -/

/-- One pass of the sample loop: the camera receives `sample_u` and `sample_v` of the two
draws, and the colour of its ray is added to `pixel_color`. -/
lemma sample_loop_step (g : Globals ℝ M σ) (j i s : Int) (st : color ℝ × σ)
    (h : s < g.samples_per_pixel) :
    sample_loop g j i s st
      = sample_loop g j i (s + 1)
          (vec3.add_assign st.1
            (ray_color g.sqrt g.scatter g.world
              (g.cam.get_ray (sample_u g.width i (g.random_double st.2).1)
                (sample_v g.height j (g.random_double (g.random_double st.2).2).1)
                (g.random_double (g.random_double st.2).2).2).1
              g.max_depth
              (g.cam.get_ray (sample_u g.width i (g.random_double st.2).1)
                (sample_v g.height j (g.random_double (g.random_double st.2).2).1)
                (g.random_double (g.random_double st.2).2).2).2).1,
           (ray_color g.sqrt g.scatter g.world
              (g.cam.get_ray (sample_u g.width i (g.random_double st.2).1)
                (sample_v g.height j (g.random_double (g.random_double st.2).2).1)
                (g.random_double (g.random_double st.2).2).2).1
              g.max_depth
              (g.cam.get_ray (sample_u g.width i (g.random_double st.2).1)
                (sample_v g.height j (g.random_double (g.random_double st.2).2).1)
                (g.random_double (g.random_double st.2).2).2).2).2) := by
  rw [sample_loop, if_pos h]
  rfl

/-- Past the last sample the loop leaves the state as it is. -/
lemma sample_loop_done (g : Globals ℝ M σ) (j i s : Int) (st : color ℝ × σ)
    (h : ¬ s < g.samples_per_pixel) : sample_loop g j i s st = st := by
  rw [sample_loop, if_neg h]

/-- The quotient `(n + d) / (m - 1)` for integers `0 <= n < m`, `2 <= m` and a draw `d` in
`[0,1)`: it lies in `[0, m / (m - 1))`, and it is at most `1` exactly when `n + d <= m - 1`. -/
lemma jitter_quotient_range (m n : Int) (d : ℝ) (hm : 2 ≤ m) (hn : 0 ≤ n ∧ n < m)
    (hd : 0 ≤ d ∧ d < 1) :
    0 ≤ ((n : ℝ) + d) / (((m - 1 : Int)) : ℝ) ∧
    ((n : ℝ) + d) / (((m - 1 : Int)) : ℝ) < (m : ℝ) / (((m - 1 : Int)) : ℝ) ∧
    (((n : ℝ) + d) / (((m - 1 : Int)) : ℝ) ≤ 1 ↔ (n : ℝ) + d ≤ (m : ℝ) - 1) ∧
    (n ≤ m - 2 → ((n : ℝ) + d) / (((m - 1 : Int)) : ℝ) < 1) := by
  have hpos : (0 : ℝ) < (((m - 1 : Int)) : ℝ) := by
    have : (0 : Int) < m - 1 := by omega
    exact_mod_cast this
  have hn0 : (0 : ℝ) ≤ (n : ℝ) := by exact_mod_cast hn.1
  have hnm : (n : ℝ) + 1 ≤ (m : ℝ) := by exact_mod_cast (show n + 1 ≤ m by omega)
  have hcast : (((m - 1 : Int)) : ℝ) = (m : ℝ) - 1 := by push_cast; ring
  refine ⟨div_nonneg (by linarith [hd.1]) hpos.le, ?_, ?_, ?_⟩
  · exact div_lt_div_of_pos_right (by linarith [hd.2]) hpos
  · rw [div_le_one hpos, hcast]
  · intro h2
    rw [div_lt_one hpos, hcast]
    have : (n : ℝ) ≤ (m : ℝ) - 2 := by exact_mod_cast h2
    linarith [hd.2]

/-- C11 (as stated, refuted): on the image of main.cpp (`1920 x 1080`), in the last column
`i = 1919` and the last scanline `j = 1079`, the draw `0.5` gives `u = 1919.5 / 1919 > 1` and
`v = 1079.5 / 1079 > 1`; and these are the coordinates the last pass of the sample loop hands
to `cam.get_ray` when the generator draws `0.5`. -/
theorem sample_uv_exceeds_one :
    ((0 : Int) ≤ 1919 ∧ (1919 : Int) < 1920) ∧ ((0 : Int) ≤ 1079 ∧ (1079 : Int) < 1080) ∧
    ((0 : ℝ) ≤ 0.5 ∧ (0.5 : ℝ) < 1) ∧
    1 < sample_u 1920 1919 (0.5 : ℝ) ∧ 1 < sample_v 1080 1079 (0.5 : ℝ) ∧
    sample_loop (src_globals Real.sqrt) 1079 1919 399 (⟨0, 0, 0⟩, 0)
      = (vec3.add_assign ⟨0, 0, 0⟩
          (ray_color Real.sqrt busy_scatter void_world
            (pinhole.get_ray (sample_u 1920 1919 (0.5 : ℝ)) (sample_v 1080 1079 (0.5 : ℝ)) 2).1
            16 2).1,
         (ray_color Real.sqrt busy_scatter void_world
            (pinhole.get_ray (sample_u 1920 1919 (0.5 : ℝ)) (sample_v 1080 1079 (0.5 : ℝ)) 2).1
            16 2).2) := by
  refine ⟨by decide, by decide, by norm_num, ?_, ?_, ?_⟩
  · unfold sample_u
    norm_num
  · unfold sample_v
    norm_num
  · rw [sample_loop_step _ _ _ _ _ (by decide), sample_loop_done _ _ _ _ _ (by decide)]
    rfl

/-- C11 (amended): for `width, height >= 2`, every column `0 <= i < width`, every scanline
`0 <= j < height` and all draws in `[0,1)`, the coordinates `u = (i + random)/(width-1)` and
`v = (j + random)/(height-1)` that the sample loop passes to `cam.get_ray` satisfy
`0 <= u < width/(width-1)` and `0 <= v < height/(height-1)`; `u <= 1` exactly when
`i + random <= width - 1` (so `u < 1` for `i <= width-2`), and likewise `v`. -/
theorem sample_uv_range (width height i j : Int) (d1 d2 : ℝ) (hw : 2 ≤ width)
    (hh : 2 ≤ height) (hi : 0 ≤ i ∧ i < width) (hj : 0 ≤ j ∧ j < height)
    (hd1 : 0 ≤ d1 ∧ d1 < 1) (hd2 : 0 ≤ d2 ∧ d2 < 1) :
    (0 ≤ sample_u width i d1 ∧
      sample_u width i d1 < (width : ℝ) / (((width - 1 : Int)) : ℝ) ∧
      (sample_u width i d1 ≤ 1 ↔ (i : ℝ) + d1 ≤ (width : ℝ) - 1) ∧
      (i ≤ width - 2 → sample_u width i d1 < 1)) ∧
    (0 ≤ sample_v height j d2 ∧
      sample_v height j d2 < (height : ℝ) / (((height - 1 : Int)) : ℝ) ∧
      (sample_v height j d2 ≤ 1 ↔ (j : ℝ) + d2 ≤ (height : ℝ) - 1) ∧
      (j ≤ height - 2 → sample_v height j d2 < 1)) :=
  ⟨jitter_quotient_range width i d1 hw hi hd1, jitter_quotient_range height j d2 hh hj hd2⟩

/-- Instance of C11 (amended): column `5` of scanline `7` of the `1920 x 1080` image with the
draws `0.5` and `0.25`. -/
theorem sample_uv_range_witness :
    sample_u 1920 5 (0.5 : ℝ) < 1 ∧ sample_v 1080 7 (0.25 : ℝ) < 1 :=
  ⟨(sample_uv_range 1920 1080 5 7 0.5 0.25 (by decide) (by decide) (by decide) (by decide)
      (by norm_num) (by norm_num)).1.2.2.2 (by decide),
   (sample_uv_range 1920 1080 5 7 0.5 0.25 (by decide) (by decide) (by decide) (by decide)
      (by norm_num) (by norm_num)).2.2.2.2 (by decide)⟩

/-! ## Termination and cost of `ray_color` -/

/-- The step of `ray_color` on a hit whose material absorbs, with budget left: black. -/
lemma ray_color_of_absorb (scatter : scatter_fn ℝ M σ) (world : hittable ℝ M σ) (r : ray ℝ)
    (depth : Int) (s : σ) (rec : hit_record ℝ M) (hd : 0 < depth)
    (hhit : (world.hit r 0.001 ⊤ s).1 = some rec)
    (hsc : (scatter rec.mat_ptr r rec (world.hit r 0.001 ⊤ s).2).1 = none) :
    ray_color Real.sqrt scatter world r depth s
      = (⟨0, 0, 0⟩, (scatter rec.mat_ptr r rec (world.hit r 0.001 ⊤ s).2).2) := by
  rw [ray_color, if_neg (not_le.mpr hd)]
  simp only [hhit, hsc]

/-- The step of `ray_color` on a hit whose material scatters, with budget left: the
attenuation times the colour of the scattered ray at `depth - 1`. -/
lemma ray_color_of_scatter (scatter : scatter_fn ℝ M σ) (world : hittable ℝ M σ) (r : ray ℝ)
    (depth : Int) (s : σ) (rec : hit_record ℝ M) (attenuation : color ℝ) (scattered : ray ℝ)
    (hd : 0 < depth) (hhit : (world.hit r 0.001 ⊤ s).1 = some rec)
    (hsc : (scatter rec.mat_ptr r rec (world.hit r 0.001 ⊤ s).2).1
      = some (attenuation, scattered)) :
    ray_color Real.sqrt scatter world r depth s
      = (vec3.mul attenuation
          (ray_color Real.sqrt scatter world scattered (depth - 1)
            (scatter rec.mat_ptr r rec (world.hit r 0.001 ⊤ s).2).2).1,
         (ray_color Real.sqrt scatter world scattered (depth - 1)
            (scatter rec.mat_ptr r rec (world.hit r 0.001 ⊤ s).2).2).2) := by
  rw [ray_color, if_neg (not_le.mpr hd)]
  simp only [hhit, hsc]

/-- The counting scene computes what the plain scene computes, and an evaluation at a depth
with `depth.toNat = k` adds at most `k` to each counter and nests at most `k` calls. -/
lemma ray_color_counting (scatter : scatter_fn ℝ M σ) (world : hittable ℝ M σ) :
    ∀ (k : Nat) (depth : Int) (r : ray ℝ) (s : σ) (n : Calls), depth.toNat = k →
      (ray_color Real.sqrt (counting_scatter scatter) world.counting r depth (s, n)).1
        = (ray_color Real.sqrt scatter world r depth s).1 ∧
      (ray_color Real.sqrt (counting_scatter scatter) world.counting r depth (s, n)).2.1
        = (ray_color Real.sqrt scatter world r depth s).2 ∧
      (ray_color Real.sqrt (counting_scatter scatter) world.counting r depth (s, n)).2.2.hits
        ≤ n.hits + k ∧
      (ray_color Real.sqrt (counting_scatter scatter) world.counting r depth (s, n)).2.2.scatters
        ≤ n.scatters + k ∧
      ray_color_nesting scatter world r depth s ≤ k := by
  intro k
  induction k with
  | zero =>
    intro depth r s n hk
    have hd : depth ≤ 0 := by omega
    rw [ray_color, if_pos hd, ray_color, if_pos hd, ray_color_nesting, if_pos hd]
    simp
  | succ k ih =>
    intro depth r s n hk
    have hd : 0 < depth := by omega
    cases hq : (world.hit r 0.001 ⊤ s).1 with
    | none =>
      rw [ray_color_of_miss (counting_scatter scatter) world.counting r depth (s, n) hd hq,
        ray_color_of_miss scatter world r depth s hd hq,
        ray_color_nesting, if_neg (not_le.mpr hd)]
      simp [hittable.counting, hq]
    | some rec =>
      cases hm : (scatter rec.mat_ptr r rec (world.hit r 0.001 ⊤ s).2).1 with
      | none =>
        rw [ray_color_of_absorb (counting_scatter scatter) world.counting r depth (s, n) rec hd
            hq hm,
          ray_color_of_absorb scatter world r depth s rec hd hq hm,
          ray_color_nesting, if_neg (not_le.mpr hd)]
        simp [hittable.counting, counting_scatter, hq, hm]
      | some p =>
        obtain ⟨attenuation, scattered⟩ := p
        rw [ray_color_of_scatter (counting_scatter scatter) world.counting r depth (s, n) rec
            attenuation scattered hd hq hm,
          ray_color_of_scatter scatter world r depth s rec attenuation scattered hd hq hm,
          ray_color_nesting, if_neg (not_le.mpr hd)]
        simp only [hq, hm]
        obtain ⟨h1, h2, h3, h4, h5⟩ := ih (depth - 1) scattered
          (scatter rec.mat_ptr r rec (world.hit r 0.001 ⊤ s).2).2
          ⟨n.hits + 1, n.scatters + 1⟩ (by omega)
        simp only [hittable.counting, counting_scatter] at h1 h2 h3 h4 ⊢
        refine ⟨by rw [h1], h2, by omega, by omega, by omega⟩

/-- On the scene whose every query hits and whose material always scatters, an evaluation
at a depth with `depth.toNat = k` makes exactly `k` hit queries, `k` scatter calls and `k`
nested calls. -/
lemma ray_color_busy_counts :
    ∀ (k : Nat) (depth : Int) (r : ray ℝ) (t : Nat) (n : Calls), depth.toNat = k →
      (ray_color Real.sqrt (counting_scatter busy_scatter) busy_world.counting r depth
          (t, n)).2.2 = ⟨n.hits + k, n.scatters + k⟩ ∧
      ray_color_nesting busy_scatter busy_world r depth t = k := by
  intro k
  induction k with
  | zero =>
    intro depth r t n hk
    have hd : depth ≤ 0 := by omega
    rw [ray_color, if_pos hd, ray_color_nesting, if_pos hd]
    simp
  | succ k ih =>
    intro depth r t n hk
    have hd : 0 < depth := by omega
    rw [ray_color_of_scatter (counting_scatter busy_scatter) busy_world.counting r depth (t, n)
        ⟨r.orig, ⟨0, 1, 0⟩, (), 1, true⟩ ⟨0.5, 0.5, 0.5⟩ ⟨r.orig, r.dir⟩ hd rfl rfl,
      ray_color_nesting, if_neg (not_le.mpr hd)]
    obtain ⟨h1, h2⟩ := ih (depth - 1) ⟨r.orig, r.dir⟩ (t + 1 + 1) ⟨n.hits + 1, n.scatters + 1⟩
      (by omega)
    simp only [hittable.counting, counting_scatter, busy_world, busy_scatter] at h1 h2 ⊢
    rw [h1, h2]
    simp only [Calls.mk.injEq]
    omega

/-- C12: `ray_color` terminates for every ray, every scene and every integer depth (it is a
total function, by recursion on the measure `max(depth, 0)`, which strictly decreases at the
recursive call); an evaluation on a scene that counts its calls returns what the plain scene
returns and performs at most `max(depth, 0)` hit queries and at most `max(depth, 0)` scatter
calls, and it nests at most `max(depth, 0)` recursive calls; the bounds are reached on the
scene whose every query hits and whose material always scatters. -/
theorem ray_color_terminates_bounded (scatter : scatter_fn ℝ M σ) (world : hittable ℝ M σ)
    (r : ray ℝ) (depth : Int) (s : σ) (n : Calls) (t : Nat) :
    (0 < depth → (depth - 1).toNat < depth.toNat) ∧
    ((ray_color Real.sqrt (counting_scatter scatter) world.counting r depth (s, n)).1
        = (ray_color Real.sqrt scatter world r depth s).1 ∧
      (ray_color Real.sqrt (counting_scatter scatter) world.counting r depth (s, n)).2.1
        = (ray_color Real.sqrt scatter world r depth s).2) ∧
    ((ray_color Real.sqrt (counting_scatter scatter) world.counting r depth (s, n)).2.2.hits
        : Int) ≤ n.hits + max depth 0 ∧
    ((ray_color Real.sqrt (counting_scatter scatter) world.counting r depth (s, n)).2.2.scatters
        : Int) ≤ n.scatters + max depth 0 ∧
    (ray_color_nesting scatter world r depth s : Int) ≤ max depth 0 ∧
    ((ray_color Real.sqrt (counting_scatter busy_scatter) busy_world.counting r depth
          (t, n)).2.2 = ⟨n.hits + depth.toNat, n.scatters + depth.toNat⟩ ∧
      ray_color_nesting busy_scatter busy_world r depth t = depth.toNat) := by
  obtain ⟨h1, h2, h3, h4, h5⟩ := ray_color_counting scatter world depth.toNat depth r s n rfl
  have hmax : ((depth.toNat : Nat) : Int) = max depth 0 := Int.toNat_eq_max depth
  refine ⟨fun hd => by omega, ⟨h1, h2⟩, ?_, ?_, ?_,
    ray_color_busy_counts depth.toNat depth r t n rfl⟩
  · rw [← hmax]; exact_mod_cast h3
  · rw [← hmax]; exact_mod_cast h4
  · rw [← hmax]; exact_mod_cast h5

/-- Instance of C12 at `max_depth = 16` on the scene whose every query hits and scatters: at
most `16` hit queries, and the measure decreases from `16` to `15`. -/
theorem ray_color_terminates_bounded_witness :
    ((ray_color Real.sqrt (counting_scatter busy_scatter) busy_world.counting
        (⟨⟨0, 0, 0⟩, ⟨0, 0, -1⟩⟩ : ray ℝ) 16 (0, ⟨0, 0⟩)).2.2.hits : Int)
      ≤ ((0 : Nat) : Int) + max 16 0 ∧
    ((16 : Int) - 1).toNat < (16 : Int).toNat :=
  ⟨(ray_color_terminates_bounded busy_scatter busy_world ⟨⟨0, 0, 0⟩, ⟨0, 0, -1⟩⟩ 16 0 ⟨0, 0⟩
      0).2.2.1,
   (ray_color_terminates_bounded busy_scatter busy_world ⟨⟨0, 0, 0⟩, ⟨0, 0, -1⟩⟩ 16 0 ⟨0, 0⟩
      0).1 (by decide)⟩

/-! ## `hit_sphere` and the quadratic of the sphere -/

/-- The function `hit_sphere` tests the sign of `hit_sphere_discriminant`. -/
lemma hit_sphere_eq (C : point3 ℝ) (radius : ℝ) (r : ray ℝ) :
    hit_sphere Real.sqrt C radius r
      = if hit_sphere_discriminant C radius r < 0 then -1.0
        else (-dot (vec3.sub r.origin C) r.direction
            - Real.sqrt (hit_sphere_discriminant C radius r)) / r.direction.length_squared :=
  rfl

/-- A non-zero direction has a positive squared length. -/
lemma length_squared_pos (d : vec3 ℝ) (hd : d ≠ ⟨0, 0, 0⟩) : 0 < d.length_squared := by
  obtain ⟨x, y, z⟩ := d
  simp only [vec3.length_squared]
  by_contra hneg
  have h0 : x * x + y * y + z * z = 0 :=
    le_antisymm (not_lt.mp hneg)
      (add_nonneg (add_nonneg (mul_self_nonneg _) (mul_self_nonneg _)) (mul_self_nonneg _))
  have hx : x = 0 := by nlinarith [mul_self_nonneg x, mul_self_nonneg y, mul_self_nonneg z]
  have hy : y = 0 := by nlinarith [mul_self_nonneg x, mul_self_nonneg y, mul_self_nonneg z]
  have hz : z = 0 := by nlinarith [mul_self_nonneg x, mul_self_nonneg y, mul_self_nonneg z]
  exact hd (by rw [hx, hy, hz])

/-- Completing the square: with `a = |D|^2` and `half_b = dot(O - C, D)`,
`a * (|O + t*D - C|^2 - radius^2) = (a*t + half_b)^2 - discriminant`. -/
lemma sphere_quadratic (C : point3 ℝ) (radius : ℝ) (r : ray ℝ) (t : ℝ) :
    r.direction.length_squared
        * ((vec3.sub (r.at t) C).length_squared - radius * radius)
      = (r.direction.length_squared * t + dot (vec3.sub r.origin C) r.direction)
          * (r.direction.length_squared * t + dot (vec3.sub r.origin C) r.direction)
        - hit_sphere_discriminant C radius r := by
  simp only [hit_sphere_discriminant, vec3.length_squared, vec3.sub, ray.at, vec3.add,
    vec3.smul, dot, ray.origin, ray.direction]
  ring

/-- With a non-negative discriminant and a non-zero direction the value of `hit_sphere` is
the parameter of a point of the sphere, and no point of the line on the sphere has a smaller
parameter. -/
lemma hit_sphere_smaller_root (C : point3 ℝ) (radius : ℝ) (r : ray ℝ)
    (hD : r.direction ≠ ⟨0, 0, 0⟩) (hdisc : 0 ≤ hit_sphere_discriminant C radius r) :
    (vec3.sub (r.at (hit_sphere Real.sqrt C radius r)) C).length_squared = radius * radius ∧
    ∀ t : ℝ, (vec3.sub (r.at t) C).length_squared = radius * radius →
      hit_sphere Real.sqrt C radius r ≤ t := by
  have ha := length_squared_pos r.direction hD
  have hval : hit_sphere Real.sqrt C radius r
      = (-dot (vec3.sub r.origin C) r.direction
          - Real.sqrt (hit_sphere_discriminant C radius r)) / r.direction.length_squared := by
    rw [hit_sphere_eq, if_neg (not_lt.mpr hdisc)]
  have hss := Real.mul_self_sqrt hdisc
  have hs0 := Real.sqrt_nonneg (hit_sphere_discriminant C radius r)
  constructor
  · have hq := sphere_quadratic C radius r (hit_sphere Real.sqrt C radius r)
    have hlin : r.direction.length_squared * hit_sphere Real.sqrt C radius r
        + dot (vec3.sub r.origin C) r.direction
        = -Real.sqrt (hit_sphere_discriminant C radius r) := by
      rw [hval]
      field_simp
      ring
    rw [hlin] at hq
    have hzero : r.direction.length_squared
        * ((vec3.sub (r.at (hit_sphere Real.sqrt C radius r)) C).length_squared
            - radius * radius) = 0 := by
      rw [hq]; linarith
    rcases mul_eq_zero.mp hzero with h | h
    · linarith
    · linarith
  · intro t ht
    have hq := sphere_quadratic C radius r t
    rw [ht, sub_self, mul_zero] at hq
    rw [hval, div_le_iff₀ ha]
    nlinarith [mul_self_nonneg (r.direction.length_squared * t
      + dot (vec3.sub r.origin C) r.direction
      + Real.sqrt (hit_sphere_discriminant C radius r))]

/-- In exact arithmetic, for every sphere and every ray with non-zero direction, the line of
the ray does not meet the sphere (no real `t` satisfies `|O + t*D - C|^2 = r^2`) exactly when
the discriminant `half_b^2 - a*c` is negative. -/
lemma hit_sphere_miss_exact (C : point3 ℝ) (radius : ℝ) (r : ray ℝ)
    (hD : r.direction ≠ ⟨0, 0, 0⟩) :
    (¬ ∃ t : ℝ, (vec3.sub (r.at t) C).length_squared = radius * radius)
      ↔ hit_sphere_discriminant C radius r < 0 := by
  have ha := length_squared_pos r.direction hD
  constructor
  · intro hno
    by_contra hnn
    exact hno ⟨_, (hit_sphere_smaller_root C radius r hD (not_lt.mp hnn)).1⟩
  · rintro hneg ⟨t, ht⟩
    have hq := sphere_quadratic C radius r t
    rw [ht, sub_self, mul_zero] at hq
    nlinarith [mul_self_nonneg (r.direction.length_squared * t
      + dot (vec3.sub r.origin C) r.direction)]

/-- C16: for every unit vector `uv`, every unit normal `n` with `dot(uv, n) <= 0` and every
ratio `k >= 0` with `k*sin(theta) <= 1` (`sin(theta)^2 = 1 - dot(uv,n)^2`),
`refract(uv, n, k)` satisfies Snell's law: the result has unit length, its component
perpendicular to `n` equals `k` times the perpendicular component of `uv`, and its component
along `n` points opposite to `n` (`dot(result, n) <= 0`). -/
theorem refract_snell (uv n : vec3 ℝ) (k : ℝ) (hu : uv.length Real.sqrt = 1)
    (hn : n.length Real.sqrt = 1) (hdot : dot uv n ≤ 0) (hk : 0 ≤ k)
    (htir : k * Real.sqrt (1 - dot uv n ^ 2) ≤ 1) :
    (refract Real.sqrt uv n k).length Real.sqrt = 1 ∧
    vec3.sub (refract Real.sqrt uv n k) (vec3.smul (dot (refract Real.sqrt uv n k) n) n)
      = vec3.smul k (vec3.sub uv (vec3.smul (dot uv n) n)) ∧
    dot (refract Real.sqrt uv n k) n ≤ 0 := by
  have hu2 := length_squared_of_unit uv hu
  have hn2 := length_squared_of_unit n hn
  obtain ⟨ux, uy, uz⟩ := uv
  obtain ⟨nx, ny, nz⟩ := n
  simp only [vec3.length_squared, dot] at hu2 hn2 hdot htir
  have hsin : 0 ≤ 1 - (ux * nx + uy * ny + uz * nz) ^ 2 := by
    nlinarith [mul_self_nonneg (ux - (ux * nx + uy * ny + uz * nz) * nx),
      mul_self_nonneg (uy - (ux * nx + uy * ny + uz * nz) * ny),
      mul_self_nonneg (uz - (ux * nx + uy * ny + uz * nz) * nz)]
  have hksin : k ^ 2 * (1 - (ux * nx + uy * ny + uz * nz) ^ 2) ≤ 1 := by
    have h0 : 0 ≤ k * Real.sqrt (1 - (ux * nx + uy * ny + uz * nz) ^ 2) :=
      mul_nonneg hk (Real.sqrt_nonneg _)
    have h1 := mul_le_mul htir htir h0 zero_le_one
    have h2 := Real.mul_self_sqrt hsin
    nlinarith
  have hPlen : k * (ux + (-ux * nx + -uy * ny + -uz * nz) * nx)
        * (k * (ux + (-ux * nx + -uy * ny + -uz * nz) * nx))
      + k * (uy + (-ux * nx + -uy * ny + -uz * nz) * ny)
        * (k * (uy + (-ux * nx + -uy * ny + -uz * nz) * ny))
      + k * (uz + (-ux * nx + -uy * ny + -uz * nz) * nz)
        * (k * (uz + (-ux * nx + -uy * ny + -uz * nz) * nz))
      = k ^ 2 * (1 - (ux * nx + uy * ny + uz * nz) ^ 2) := by
    linear_combination k ^ 2 * hu2 + k ^ 2 * (ux * nx + uy * ny + uz * nz) ^ 2 * hn2
  have hw : (0 : ℝ) ≤ 1.0 - k ^ 2 * (1 - (ux * nx + uy * ny + uz * nz) ^ 2) := by
    norm_num
    linarith
  simp only [refract, dot, vec3.neg, vec3.add, vec3.sub, vec3.smul, vec3.length,
    vec3.length_squared]
  rw [hPlen, abs_of_nonneg hw]
  have hS := Real.mul_self_sqrt hw
  have hS0 := Real.sqrt_nonneg (1.0 - k ^ 2 * (1 - (ux * nx + uy * ny + uz * nz) ^ 2))
  set S : ℝ := Real.sqrt (1.0 - k ^ 2 * (1 - (ux * nx + uy * ny + uz * nz) ^ 2)) with hSdef
  have hS1 : S * S = 1 - k ^ 2 * (1 - (ux * nx + uy * ny + uz * nz) ^ 2) := by
    rw [hS]; norm_num
  refine ⟨?_, ?_, ?_⟩
  · rw [show (k * (ux + (-ux * nx + -uy * ny + -uz * nz) * nx) + -S * nx)
          * (k * (ux + (-ux * nx + -uy * ny + -uz * nz) * nx) + -S * nx)
        + (k * (uy + (-ux * nx + -uy * ny + -uz * nz) * ny) + -S * ny)
          * (k * (uy + (-ux * nx + -uy * ny + -uz * nz) * ny) + -S * ny)
        + (k * (uz + (-ux * nx + -uy * ny + -uz * nz) * nz) + -S * nz)
          * (k * (uz + (-ux * nx + -uy * ny + -uz * nz) * nz) + -S * nz) = 1 by
      linear_combination k ^ 2 * hu2
        + (k ^ 2 * (ux * nx + uy * ny + uz * nz) ^ 2
            + 2 * S * k * (ux * nx + uy * ny + uz * nz) + S ^ 2) * hn2 + hS1]
    exact Real.sqrt_one
  · ext
    · simp only
      linear_combination (nx * (S + k * (ux * nx + uy * ny + uz * nz))) * hn2
    · simp only
      linear_combination (ny * (S + k * (ux * nx + uy * ny + uz * nz))) * hn2
    · simp only
      linear_combination (nz * (S + k * (ux * nx + uy * ny + uz * nz))) * hn2
  · have hval : (k * (ux + (-ux * nx + -uy * ny + -uz * nz) * nx) + -S * nx) * nx
        + (k * (uy + (-ux * nx + -uy * ny + -uz * nz) * ny) + -S * ny) * ny
        + (k * (uz + (-ux * nx + -uy * ny + -uz * nz) * nz) + -S * nz) * nz = -S := by
      linear_combination (-(k * (ux * nx + uy * ny + uz * nz)) - S) * hn2
    rw [hval]
    linarith

/-- Instance of C16: `uv = (3/5, -4/5, 0)` entering through the normal `(0, 1, 0)` with ratio
`1/2` (`sin(theta) = 3/5`). -/
theorem refract_snell_witness :
    (refract Real.sqrt (⟨3 / 5, -4 / 5, 0⟩ : vec3 ℝ) ⟨0, 1, 0⟩ (1 / 2)).length Real.sqrt = 1 ∧
    dot (refract Real.sqrt (⟨3 / 5, -4 / 5, 0⟩ : vec3 ℝ) ⟨0, 1, 0⟩ (1 / 2)) ⟨0, 1, 0⟩ ≤ 0 := by
  have h := refract_snell (⟨3 / 5, -4 / 5, 0⟩ : vec3 ℝ) ⟨0, 1, 0⟩ (1 / 2)
    (by simp only [vec3.length, vec3.length_squared]; norm_num)
    (by simp only [vec3.length, vec3.length_squared]; norm_num)
    (by simp only [dot]; norm_num)
    (by norm_num)
    (by
      have h1 : Real.sqrt (1 - dot (⟨3 / 5, -4 / 5, 0⟩ : vec3 ℝ) ⟨0, 1, 0⟩ ^ 2) ≤ 1 := by
        rw [Real.sqrt_le_iff]
        simp only [dot]
        norm_num
      linarith)
  exact ⟨h.1, h.2.2⟩

/-- C18: for every pair of draws `a` in `[0, 2*pi)` and `z` in `[-1, 1)`, the vector
`(r*cos(a), r*sin(a), z)` with `r = sqrt(1 - z*z)` returned by `random_unit_vector` has length
exactly `1` (`length_squared = 1`), its third component is the draw `z`, and the generator is
left in the state after the two draws. -/
theorem random_unit_vector_unit {σ : Type} (random_double : ℝ → ℝ → σ → ℝ × σ) (s : σ)
    (a z : ℝ) (ha : a = (random_double 0 (2 * Real.pi) s).1)
    (hz : z = (random_double (-1) 1 (random_double 0 (2 * Real.pi) s).2).1)
    (hdraws : (0 ≤ a ∧ a < 2 * Real.pi) ∧ (-1 ≤ z ∧ z < 1)) :
    (random_unit_vector Real.sqrt Real.cos Real.sin Real.pi random_double s).1
      = ⟨Real.sqrt (1 - z * z) * Real.cos a, Real.sqrt (1 - z * z) * Real.sin a, z⟩ ∧
    (random_unit_vector Real.sqrt Real.cos Real.sin Real.pi random_double s).1.length_squared
      = 1 ∧
    (random_unit_vector Real.sqrt Real.cos Real.sin Real.pi random_double s).1.length Real.sqrt
      = 1 ∧
    (random_unit_vector Real.sqrt Real.cos Real.sin Real.pi random_double s).1.z = z ∧
    (random_unit_vector Real.sqrt Real.cos Real.sin Real.pi random_double s).2
      = (random_double (-1) 1 (random_double 0 (2 * Real.pi) s).2).2 := by
  obtain ⟨-, hz1, hz2⟩ := hdraws
  have hval : (random_unit_vector Real.sqrt Real.cos Real.sin Real.pi random_double s).1
      = ⟨Real.sqrt (1 - z * z) * Real.cos a, Real.sqrt (1 - z * z) * Real.sin a, z⟩ := by
    rw [ha, hz]
    rfl
  have hr0 : 0 ≤ 1 - z * z := by nlinarith
  have hrr := Real.mul_self_sqrt hr0
  have hlen : (random_unit_vector Real.sqrt Real.cos Real.sin Real.pi random_double
      s).1.length_squared = 1 := by
    rw [hval]
    simp only [vec3.length_squared]
    have hcs := Real.cos_sq_add_sin_sq a
    linear_combination (Real.cos a ^ 2 + Real.sin a ^ 2) * hrr + (1 - z * z) * hcs
  refine ⟨hval, hlen, ?_, ?_, rfl⟩
  · rw [vec3.length, hlen, Real.sqrt_one]
  · rw [hval]

/-- Instance of C18: a generator whose state is the next draw, `0` for the angle, then `1/2`
for `z`. -/
theorem random_unit_vector_unit_witness :
    (random_unit_vector Real.sqrt Real.cos Real.sin Real.pi
        (fun (_ _ : ℝ) (s : ℝ) => (s, s + 1 / 2)) 0).1.length_squared = 1 :=
  (random_unit_vector_unit (fun (_ _ : ℝ) (s : ℝ) => (s, s + 1 / 2)) 0 0 (1 / 2)
    rfl (by norm_num)
    ⟨⟨le_refl 0, by positivity⟩, by norm_num, by norm_num⟩).2.1

/-! ## Rejection sampling -/

/-- Whenever `random_in_unit_sphere` returns, it returns the first candidate of the stream
with squared length below `1`, unaltered. -/
lemma random_in_unit_sphere_returns {σ : Type} (rd : ℝ → ℝ → σ → ℝ × σ) :
    ∀ (fuel : Nat) (s : σ) (p : vec3 ℝ) (s' : σ),
      random_in_unit_sphere rd fuel s = some (p, s') →
      ∃ n, n < fuel ∧ sphere_candidate rd n s = (p, s') ∧
        (∀ m, m < n → 1 ≤ (sphere_candidate rd m s).1.length_squared) ∧
        p.length_squared < 1 := by
  intro fuel
  induction fuel with
  | zero =>
    intro s p s' h
    simp [random_in_unit_sphere] at h
  | succ fuel ih =>
    intro s p s' h
    rw [random_in_unit_sphere] at h
    by_cases hrej : (vec3.random rd (-1) 1 s).1.length_squared ≥ 1
    · simp only [hrej, if_true] at h
      obtain ⟨n, hn, hc, hall, hlt⟩ := ih _ p s' h
      refine ⟨n + 1, by omega, hc, ?_, hlt⟩
      intro m hm
      cases m with
      | zero => exact hrej
      | succ m => exact hall m (by omega)
    · simp only [hrej, if_false, Option.some.injEq] at h
      refine ⟨0, by omega, h, fun m hm => absurd hm (by omega), ?_⟩
      have hp : (vec3.random rd (-1) 1 s).1 = p := congrArg Prod.fst h
      rw [← hp]
      exact not_le.mp hrej

/-- If candidate `n` of the stream is the first with squared length below `1`, then
`random_in_unit_sphere` returns it as soon as the loop may run more than `n` passes. -/
lemma random_in_unit_sphere_finds {σ : Type} (rd : ℝ → ℝ → σ → ℝ × σ) :
    ∀ (n : Nat) (s : σ) (fuel : Nat), n < fuel →
      (sphere_candidate rd n s).1.length_squared < 1 →
      (∀ m, m < n → 1 ≤ (sphere_candidate rd m s).1.length_squared) →
      random_in_unit_sphere rd fuel s = some (sphere_candidate rd n s) := by
  intro n
  induction n with
  | zero =>
    intro s fuel hf hacc _
    obtain ⟨fuel, rfl⟩ : ∃ k, fuel = k + 1 := ⟨fuel - 1, by omega⟩
    rw [random_in_unit_sphere]
    simp only [sphere_candidate] at hacc ⊢
    rw [if_neg (not_le.mpr hacc)]
  | succ n ih =>
    intro s fuel hf hacc hall
    obtain ⟨fuel, rfl⟩ : ∃ k, fuel = k + 1 := ⟨fuel - 1, by omega⟩
    rw [random_in_unit_sphere]
    have h0 : (vec3.random rd (-1) 1 s).1.length_squared ≥ 1 := hall 0 (by omega)
    simp only [h0, if_true, sphere_candidate]
    exact ih _ fuel (by omega) hacc (fun m hm => hall (m + 1) (by omega))

/-- Whenever `random_in_unit_disk` returns, it returns the first candidate of the stream
with squared length below `1`, unaltered. -/
lemma random_in_unit_disk_returns {σ : Type} (rd : ℝ → ℝ → σ → ℝ × σ) :
    ∀ (fuel : Nat) (s : σ) (p : vec3 ℝ) (s' : σ),
      random_in_unit_disk rd fuel s = some (p, s') →
      ∃ n, n < fuel ∧ disk_candidate rd n s = (p, s') ∧
        (∀ m, m < n → 1 ≤ (disk_candidate rd m s).1.length_squared) ∧
        p.length_squared < 1 := by
  intro fuel
  induction fuel with
  | zero =>
    intro s p s' h
    simp [random_in_unit_disk] at h
  | succ fuel ih =>
    intro s p s' h
    rw [random_in_unit_disk] at h
    by_cases hrej : (disk_candidate rd 0 s).1.length_squared ≥ 1
    · simp only [disk_candidate] at hrej
      simp only [hrej, if_true] at h
      obtain ⟨n, hn, hc, hall, hlt⟩ := ih _ p s' h
      refine ⟨n + 1, by omega, hc, ?_, hlt⟩
      intro m hm
      cases m with
      | zero => exact hrej
      | succ m => exact hall m (by omega)
    · have hrej2 := hrej
      simp only [disk_candidate] at hrej2
      simp only [hrej2, if_false, Option.some.injEq] at h
      refine ⟨0, by omega, h, fun m hm => absurd hm (by omega), ?_⟩
      have hp : (disk_candidate rd 0 s).1 = p := congrArg Prod.fst h
      rw [← hp]
      exact not_le.mp hrej

/-- If candidate `n` of the stream is the first with squared length below `1`, then
`random_in_unit_disk` returns it as soon as the loop may run more than `n` passes. -/
lemma random_in_unit_disk_finds {σ : Type} (rd : ℝ → ℝ → σ → ℝ × σ) :
    ∀ (n : Nat) (s : σ) (fuel : Nat), n < fuel →
      (disk_candidate rd n s).1.length_squared < 1 →
      (∀ m, m < n → 1 ≤ (disk_candidate rd m s).1.length_squared) →
      random_in_unit_disk rd fuel s = some (disk_candidate rd n s) := by
  intro n
  induction n with
  | zero =>
    intro s fuel hf hacc _
    obtain ⟨fuel, rfl⟩ : ∃ k, fuel = k + 1 := ⟨fuel - 1, by omega⟩
    rw [random_in_unit_disk]
    simp only [disk_candidate] at hacc ⊢
    rw [if_neg (not_le.mpr hacc)]
  | succ n ih =>
    intro s fuel hf hacc hall
    obtain ⟨fuel, rfl⟩ : ∃ k, fuel = k + 1 := ⟨fuel - 1, by omega⟩
    rw [random_in_unit_disk]
    have h0 : (disk_candidate rd 0 s).1.length_squared ≥ 1 := hall 0 (by omega)
    simp only [disk_candidate] at h0
    simp only [h0, if_true, disk_candidate]
    exact ih _ fuel (by omega) hacc (fun m hm => hall (m + 1) (by omega))

/-- Every candidate of the disk has `z = 0`. -/
lemma disk_candidate_z {σ : Type} (rd : ℝ → ℝ → σ → ℝ × σ) :
    ∀ (n : Nat) (s : σ), (disk_candidate rd n s).1.z = 0 := by
  intro n
  induction n with
  | zero => intro s; rfl
  | succ n ih => intro s; exact ih _

/-- C17: with the random source a stream of draws in `[-1,1)`, whenever
`random_in_unit_sphere` returns (here: within `fuel` passes of its loop), its result is the
first candidate triple of the stream with `length_squared < 1` (every earlier candidate had
`length_squared >= 1`, none is altered), so the result satisfies `length_squared < 1`; and it
does return that candidate as soon as the loop may run long enough to reach it. Likewise
`random_in_unit_disk` returns the first candidate pair with `x^2 + y^2 < 1`, with `z = 0`. -/
theorem rejection_sampling_first_accepted {σ : Type} (rd : ℝ → ℝ → σ → ℝ × σ) (s : σ)
    (fuel : Nat) :
    (∀ (p : vec3 ℝ) (s' : σ), random_in_unit_sphere rd fuel s = some (p, s') →
      ∃ n, n < fuel ∧ sphere_candidate rd n s = (p, s') ∧
        (∀ m, m < n → 1 ≤ (sphere_candidate rd m s).1.length_squared) ∧
        p.length_squared < 1) ∧
    (∀ n, n < fuel → (sphere_candidate rd n s).1.length_squared < 1 →
      (∀ m, m < n → 1 ≤ (sphere_candidate rd m s).1.length_squared) →
      random_in_unit_sphere rd fuel s = some (sphere_candidate rd n s)) ∧
    (∀ (p : vec3 ℝ) (s' : σ), random_in_unit_disk rd fuel s = some (p, s') →
      ∃ n, n < fuel ∧ disk_candidate rd n s = (p, s') ∧
        (∀ m, m < n → 1 ≤ (disk_candidate rd m s).1.length_squared) ∧
        p.x * p.x + p.y * p.y < 1 ∧ p.z = 0) ∧
    (∀ n, n < fuel → (disk_candidate rd n s).1.length_squared < 1 →
      (∀ m, m < n → 1 ≤ (disk_candidate rd m s).1.length_squared) →
      random_in_unit_disk rd fuel s = some (disk_candidate rd n s)) := by
  refine ⟨random_in_unit_sphere_returns rd fuel s, ?_, ?_, ?_⟩
  · intro n hn hacc hall
    exact random_in_unit_sphere_finds rd n s fuel hn hacc hall
  · intro p s' h
    obtain ⟨n, hn, hc, hall, hlt⟩ := random_in_unit_disk_returns rd fuel s p s' h
    have hz : p.z = 0 := by
      have := disk_candidate_z rd n s
      rw [hc] at this
      exact this
    refine ⟨n, hn, hc, hall, ?_, hz⟩
    simp only [vec3.length_squared, hz] at hlt
    linarith
  · intro n hn hacc hall
    exact random_in_unit_disk_finds rd n s fuel hn hacc hall

/-- Instance of C17: on the stream `0.9, 0.9, 0.9, 0.1, 0.1, 0.1, ...` the first triple is
rejected (`2.43 >= 1`) and the second, `(0.1, 0.1, 0.1)`, is returned. -/
theorem rejection_sampling_first_accepted_witness :
    random_in_unit_sphere (stream_draw (fun i => if i < 3 then (0.9 : ℝ) else 0.1)) 5 0
      = some (⟨0.1, 0.1, 0.1⟩, 6) := by
  have h := (rejection_sampling_first_accepted
    (stream_draw (fun i => if i < 3 then (0.9 : ℝ) else 0.1)) 0 5).2.1 1 (by decide)
    (by
      simp only [sphere_candidate, vec3.random, stream_draw, vec3.length_squared]
      norm_num)
    (by
      intro m hm
      obtain rfl : m = 0 := by omega
      simp only [sphere_candidate, vec3.random, stream_draw, vec3.length_squared]
      norm_num)
  rw [h]
  simp only [sphere_candidate, vec3.random, stream_draw]
  norm_num

/-! ## The range of the colours -/

/-- A direction in the normal range is not the zero vector. -/
lemma normal_range_ne_zero (d : vec3 ℝ) (h : normal_range d) : d ≠ ⟨0, 0, 0⟩ := by
  rintro rfl
  have h1 := h.1
  simp only [vec3.length_squared, mul_zero, add_zero] at h1
  have : (0 : ℝ) < 1 / 2 ^ 1022 := by positivity
  linarith

/-- In exact arithmetic, the unit vector of a non-zero direction has its `y` component in
`[-1, 1]`. -/
lemma unit_vector_y_range (d : vec3 ℝ) (hd : d ≠ ⟨0, 0, 0⟩) :
    -1 ≤ (unit_vector Real.sqrt d).y ∧ (unit_vector Real.sqrt d).y ≤ 1 := by
  have hq := length_squared_pos d hd
  have hL : 0 < Real.sqrt d.length_squared := Real.sqrt_pos.mpr hq
  have habs : |d.y| ≤ Real.sqrt d.length_squared := by
    apply Real.abs_le_sqrt
    unfold vec3.length_squared
    nlinarith [mul_self_nonneg d.x, mul_self_nonneg d.z]
  obtain ⟨h1, h2⟩ := abs_le.mp habs
  simp only [unit_vector, vec3.div, vec3.smul, vec3.length]
  rw [one_div, inv_mul_eq_div]
  constructor
  · rw [le_div_iff₀ hL]; linarith
  · rw [div_le_one hL]; exact h2

/-- The background gradient of a direction whose unit `y` component is in `[-1, 1]` has its
three components in `[0,1]`. -/
lemma gradient_unit_range (y : ℝ) (hy : -1 ≤ y ∧ y ≤ 1) :
    unit_range (vec3.add (vec3.smul (1.0 - 0.5 * (y + 1.0)) (⟨1.0, 1.0, 1.0⟩ : color ℝ))
      (vec3.smul (0.5 * (y + 1.0)) ⟨0.5, 0.7, 1.0⟩)) := by
  obtain ⟨h1, h2⟩ := hy
  simp only [unit_range, vec3.add, vec3.smul]
  norm_num
  refine ⟨⟨?_, ?_⟩, ⟨?_, ?_⟩⟩ <;> linarith

/-- In exact arithmetic, if every scatter returns an attenuation in `[0,1]` and a scattered
ray of non-zero direction, every colour returned by `ray_color` for a ray of non-zero
direction at a depth with `depth.toNat = k` has its components in `[0,1]`. -/
lemma ray_color_unit_range (scatter : scatter_fn ℝ M σ) (world : hittable ℝ M σ)
    (hsc : ∀ (m : M) (r : ray ℝ) (rec : hit_record ℝ M) (s : σ) (att : color ℝ) (sc : ray ℝ),
      (scatter m r rec s).1 = some (att, sc) → unit_range att ∧ sc.direction ≠ ⟨0, 0, 0⟩) :
    ∀ (k : Nat) (depth : Int) (r : ray ℝ) (s : σ), depth.toNat = k →
      r.direction ≠ ⟨0, 0, 0⟩ →
      unit_range (ray_color Real.sqrt scatter world r depth s).1 := by
  intro k
  induction k with
  | zero =>
    intro depth r s hk _
    rw [ray_color, if_pos (by omega)]
    simp [unit_range]
  | succ k ih =>
    intro depth r s hk hr
    have hd : 0 < depth := by omega
    cases hq : (world.hit r 0.001 ⊤ s).1 with
    | none =>
      rw [ray_color_of_miss scatter world r depth s hd hq]
      exact gradient_unit_range _ (unit_vector_y_range r.direction hr)
    | some rec =>
      cases hm : (scatter rec.mat_ptr r rec (world.hit r 0.001 ⊤ s).2).1 with
      | none =>
        rw [ray_color_of_absorb scatter world r depth s rec hd hq hm]
        simp [unit_range]
      | some p =>
        obtain ⟨att, sc⟩ := p
        rw [ray_color_of_scatter scatter world r depth s rec att sc hd hq hm]
        obtain ⟨⟨⟨ax0, ax1⟩, ⟨ay0, ay1⟩, ⟨az0, az1⟩⟩, hdir⟩ := hsc _ _ _ _ _ _ hm
        obtain ⟨⟨cx0, cx1⟩, ⟨cy0, cy1⟩, ⟨cz0, cz1⟩⟩ := ih (depth - 1) sc
          (scatter rec.mat_ptr r rec (world.hit r 0.001 ⊤ s).2).2 (by omega) hdir
        simp only [unit_range, vec3.mul]
        exact ⟨⟨mul_nonneg ax0 cx0, mul_le_one₀ ax1 cx0 cx1⟩,
          ⟨mul_nonneg ay0 cy0, mul_le_one₀ ay1 cy0 cy1⟩,
          ⟨mul_nonneg az0 cz0, mul_le_one₀ az1 cz0 cz1⟩⟩

/-- The sums of the sample loop, in exact arithmetic: if the draws are in `[0,1)` and the
camera hands out rays of non-zero direction at the sample positions of the pixel, then from a
counter value `s` and a `pixel_color` with components in `[0, s]` the loop ends with
components in `[0, samples_per_pixel]`. -/
lemma sample_loop_sum_range (g : Globals ℝ M σ) (j i : Int) (hsqrt : g.sqrt = Real.sqrt)
    (hsc : ∀ (m : M) (r : ray ℝ) (rec : hit_record ℝ M) (s : σ) (att : color ℝ) (sc : ray ℝ),
      (g.scatter m r rec s).1 = some (att, sc) → unit_range att ∧ sc.direction ≠ ⟨0, 0, 0⟩)
    (hrand : ∀ s : σ, 0 ≤ (g.random_double s).1 ∧ (g.random_double s).1 < 1)
    (hcam : ∀ (d1 d2 : ℝ) (s : σ), 0 ≤ d1 → d1 < 1 → 0 ≤ d2 → d2 < 1 →
      (g.cam.get_ray (sample_u g.width i d1) (sample_v g.height j d2) s).1.direction
        ≠ ⟨0, 0, 0⟩) :
    ∀ (n : Nat) (s : Int) (acc : color ℝ) (st : σ), (g.samples_per_pixel - s).toNat = n →
      0 ≤ s → s ≤ g.samples_per_pixel →
      (0 ≤ acc.x ∧ acc.x ≤ (s : ℝ)) ∧ (0 ≤ acc.y ∧ acc.y ≤ (s : ℝ))
        ∧ (0 ≤ acc.z ∧ acc.z ≤ (s : ℝ)) →
      (0 ≤ (sample_loop g j i s (acc, st)).1.x
          ∧ (sample_loop g j i s (acc, st)).1.x ≤ (g.samples_per_pixel : ℝ)) ∧
        (0 ≤ (sample_loop g j i s (acc, st)).1.y
          ∧ (sample_loop g j i s (acc, st)).1.y ≤ (g.samples_per_pixel : ℝ)) ∧
        (0 ≤ (sample_loop g j i s (acc, st)).1.z
          ∧ (sample_loop g j i s (acc, st)).1.z ≤ (g.samples_per_pixel : ℝ)) := by
  intro n
  induction n with
  | zero =>
    intro s acc st hn hs0 hs1 hacc
    have hs : s = g.samples_per_pixel := by omega
    rw [sample_loop_done g j i s _ (by omega), ← hs]
    exact hacc
  | succ n ih =>
    intro s acc st hn hs0 hs1 hacc
    have hlt : s < g.samples_per_pixel := by omega
    rw [sample_loop_step g j i s _ hlt]
    apply ih (s + 1) _ _ (by omega) (by omega) (by omega)
    obtain ⟨⟨cx0, cx1⟩, ⟨cy0, cy1⟩, ⟨cz0, cz1⟩⟩ :=
      ray_color_unit_range g.scatter g.world hsc g.max_depth.toNat g.max_depth
        (g.cam.get_ray (sample_u g.width i (g.random_double st).1)
          (sample_v g.height j (g.random_double (g.random_double st).2).1)
          (g.random_double (g.random_double st).2).2).1
        (g.cam.get_ray (sample_u g.width i (g.random_double st).1)
          (sample_v g.height j (g.random_double (g.random_double st).2).1)
          (g.random_double (g.random_double st).2).2).2 rfl
        (hcam _ _ _ (hrand _).1 (hrand _).2 (hrand _).1 (hrand _).2)
    obtain ⟨⟨ax0, ax1⟩, ⟨ay0, ay1⟩, ⟨az0, az1⟩⟩ := hacc
    simp only [hsqrt, vec3.add_assign]
    push_cast
    refine ⟨⟨?_, ?_⟩, ⟨?_, ?_⟩, ⟨?_, ?_⟩⟩ <;> linarith

/-- C20 (amended): where no squared length underflows or overflows, the range of the colours
is `[0,1]`. For every scene in which every scatter returns an attenuation with all three
components in `[0,1]` and a scattered ray whose direction is in the normal range
(`2^(-1022) <= |D|^2 < 2^1024`), every ray with a direction in the normal range and every
integer depth, each component of `ray_color(ray, scene, depth)` lies in `[0,1]`, in exact
arithmetic; consequently, when the draws of `random_double` are in `[0,1)` and the camera
hands out rays with a direction in the normal range at the sample positions of the pixel,
the per-pixel average of `samples_per_pixel > 0` such values
(`pixel_color / samples_per_pixel` before the square root) also lies in `[0,1]`. -/
theorem ray_color_unit_cube_in_range (scatter : scatter_fn ℝ M σ) (world : hittable ℝ M σ)
    (hsc : ∀ (m : M) (r : ray ℝ) (rec : hit_record ℝ M) (s : σ) (att : color ℝ) (sc : ray ℝ),
      (scatter m r rec s).1 = some (att, sc) → unit_range att ∧ normal_range sc.direction)
    (r : ray ℝ) (hr : normal_range r.direction) (depth : Int) (s : σ) :
    unit_range (ray_color Real.sqrt scatter world r depth s).1 ∧
    ∀ (g : Globals ℝ M σ) (j i : Int) (s0 : σ), g.sqrt = Real.sqrt → g.scatter = scatter →
      g.world = world →
      (∀ s1 : σ, 0 ≤ (g.random_double s1).1 ∧ (g.random_double s1).1 < 1) →
      (∀ (d1 d2 : ℝ) (s1 : σ), 0 ≤ d1 → d1 < 1 → 0 ≤ d2 → d2 < 1 →
        normal_range
          (g.cam.get_ray (sample_u g.width i d1) (sample_v g.height j d2) s1).1.direction) →
      0 < g.samples_per_pixel →
      unit_range
        ⟨(sample_loop g j i 0 (⟨0, 0, 0⟩, s0)).1.x / (g.samples_per_pixel : ℝ),
         (sample_loop g j i 0 (⟨0, 0, 0⟩, s0)).1.y / (g.samples_per_pixel : ℝ),
         (sample_loop g j i 0 (⟨0, 0, 0⟩, s0)).1.z / (g.samples_per_pixel : ℝ)⟩ := by
  have hsc0 : ∀ (m : M) (r : ray ℝ) (rec : hit_record ℝ M) (s : σ) (att : color ℝ)
      (sc : ray ℝ), (scatter m r rec s).1 = some (att, sc) →
      unit_range att ∧ sc.direction ≠ ⟨0, 0, 0⟩ :=
    fun m r rec s att sc h => ⟨(hsc m r rec s att sc h).1,
      normal_range_ne_zero _ (hsc m r rec s att sc h).2⟩
  refine ⟨ray_color_unit_range scatter world hsc0 depth.toNat depth r s rfl
    (normal_range_ne_zero _ hr), ?_⟩
  intro g j i s0 hsqrt hgs hgw hrand hcam hspp
  have hpos : (0 : ℝ) < (g.samples_per_pixel : ℝ) := by exact_mod_cast hspp
  obtain ⟨⟨x0, x1⟩, ⟨y0, y1⟩, ⟨z0, z1⟩⟩ :=
    sample_loop_sum_range g j i hsqrt (hgs ▸ hsc0) hrand
      (fun d1 d2 s1 h1 h2 h3 h4 => normal_range_ne_zero _ (hcam d1 d2 s1 h1 h2 h3 h4))
      _ 0 ⟨0, 0, 0⟩ s0 rfl (le_refl 0) hspp.le (by norm_num)
  simp only [unit_range]
  exact ⟨⟨div_nonneg x0 hpos.le, (div_le_one hpos).mpr x1⟩,
    ⟨div_nonneg y0 hpos.le, (div_le_one hpos).mpr y1⟩,
    ⟨div_nonneg z0 hpos.le, (div_le_one hpos).mpr z1⟩⟩

/-- The scattered rays of `up_scatter` have the attenuation `(0.5, 0.5, 0.5)` and the
direction `(0, 1, 0)`, of squared length `1`. -/
lemma up_scatter_in_range (m : Unit) (r : ray ℝ) (rec : hit_record ℝ Unit) (s : Nat)
    (att : color ℝ) (sc : ray ℝ) (h : (up_scatter m r rec s).1 = some (att, sc)) :
    unit_range att ∧ normal_range sc.direction := by
  simp only [up_scatter, Option.some.injEq, Prod.mk.injEq] at h
  obtain ⟨rfl, rfl⟩ := h
  refine ⟨?_, ?_⟩
  · simp only [unit_range]
    norm_num
  · simp only [normal_range, ray.direction, vec3.length_squared]
    norm_num

/-- The rays of `pinhole` at the sample positions of the pixel `(0, 0)` of a `1920 x 1080`
image have a squared length between `1` and `3`. -/
lemma pinhole_in_range (d1 d2 : ℝ) (s : Nat) (h1 : 0 ≤ d1) (h2 : d1 < 1) (h3 : 0 ≤ d2)
    (h4 : d2 < 1) :
    normal_range
      ((pinhole : camera ℝ Nat).get_ray (sample_u 1920 0 d1) (sample_v 1080 0 d2) s).1.direction
      := by
  have hu : 0 ≤ sample_u 1920 0 d1 ∧ sample_u 1920 0 d1 < 1 := by
    simp only [sample_u]
    constructor
    · apply div_nonneg <;> norm_num
      exact h1
    · rw [div_lt_one (by norm_num)]
      norm_num
      linarith
  have hv : 0 ≤ sample_v 1080 0 d2 ∧ sample_v 1080 0 d2 < 1 := by
    simp only [sample_v]
    constructor
    · apply div_nonneg <;> norm_num
      exact h3
    · rw [div_lt_one (by norm_num)]
      norm_num
      linarith
  have hlo : (1 : ℝ) / 2 ^ 1022 ≤ 1 := by
    rw [div_le_one (by positivity)]
    exact one_le_pow₀ (by norm_num)
  have hhi : (3 : ℝ) < 2 ^ 1024 := by norm_num
  simp only [normal_range, pinhole, ray.direction, vec3.length_squared]
  constructor
  · nlinarith [mul_self_nonneg (sample_u 1920 0 d1), mul_self_nonneg (sample_v 1080 0 d2)]
  · nlinarith [hu.1, hu.2, hv.1, hv.2]

/-- Instance of C20 (amended): the scene whose every query hits, with the material that
scatters straight up and halves the light, at `max_depth = 16`; the average of the 400
samples of the pixel `(0, 0)` with the constants of main.cpp, seen through `pinhole`. -/
theorem ray_color_unit_cube_in_range_witness :
    normal_range (⟨⟨0, 0, 0⟩, ⟨0, 0, -1⟩⟩ : ray ℝ).direction ∧
    (0 : Int) < (busy_globals Real.sqrt).samples_per_pixel ∧
    unit_range
      (ray_color Real.sqrt up_scatter busy_world (⟨⟨0, 0, 0⟩, ⟨0, 0, -1⟩⟩ : ray ℝ) 16 0).1 ∧
    unit_range
      ⟨(sample_loop (busy_globals Real.sqrt) 0 0 0 (⟨0, 0, 0⟩, 0)).1.x
          / ((busy_globals Real.sqrt).samples_per_pixel : ℝ),
       (sample_loop (busy_globals Real.sqrt) 0 0 0 (⟨0, 0, 0⟩, 0)).1.y
          / ((busy_globals Real.sqrt).samples_per_pixel : ℝ),
       (sample_loop (busy_globals Real.sqrt) 0 0 0 (⟨0, 0, 0⟩, 0)).1.z
          / ((busy_globals Real.sqrt).samples_per_pixel : ℝ)⟩ := by
  have hr : normal_range (⟨⟨0, 0, 0⟩, ⟨0, 0, -1⟩⟩ : ray ℝ).direction := by
    simp only [normal_range, ray.direction, vec3.length_squared]
    norm_num
  have hrand : ∀ s1 : Nat, 0 ≤ ((busy_globals Real.sqrt).random_double s1).1
      ∧ ((busy_globals Real.sqrt).random_double s1).1 < 1 := by
    intro s1
    simp only [busy_globals, half_draw]
    norm_num
  have h := ray_color_unit_cube_in_range up_scatter busy_world up_scatter_in_range
    ⟨⟨0, 0, 0⟩, ⟨0, 0, -1⟩⟩ hr 16 0
  exact ⟨hr, by decide, h.1,
    h.2 (busy_globals Real.sqrt) 0 0 0 rfl rfl rfl hrand
      (fun d1 d2 s1 h1 h2 h3 h4 => pinhole_in_range d1 d2 s1 h1 h2 h3 h4) (by decide)⟩

/-! ## Sessions of the `Instrumentor` -/

/-- Insertions into a stream that is sound and has a file open leave it sound, with the same
file open. -/
lemma put_pieces_open (pieces : List String) :
    ∀ (filepath written : String), ∃ written' : String,
      pieces.foldl ofstream.put { file := some (filepath, written), bad := false }
        = { file := some (filepath, written'), bad := false } := by
  induction pieces with
  | nil => intro filepath written; exact ⟨written, rfl⟩
  | cons piece rest ih =>
    intro filepath written
    exact ih filepath (written ++ piece)

/-- Insertions into a stream with no file open open no file. -/
lemma put_pieces_closed (pieces : List String) :
    ∀ (o : ofstream), o.file = none → (pieces.foldl ofstream.put o).file = none := by
  induction pieces with
  | nil => intro o h; exact h
  | cons piece rest ih =>
    intro o h
    apply ih
    simp [ofstream.put, h]

/-- The effect of `endSession` on an active session whose file is open on a sound stream: the
footer goes to the file, the file is closed, the count is `0` and no session is active. -/
lemma endSession_active (st : Instrumentor) (filepath written : String)
    (hact : st.m_activeSession = true)
    (hfile : st.m_outputStream = { file := some (filepath, written), bad := false }) :
    st.endSession
      = { m_sessionName := st.m_sessionName
          m_outputStream := { file := none, bad := false }
          m_profileCount := 0
          m_activeSession := false
          closed := st.closed ++ [(filepath, written ++ footer_text)] } := by
  simp [Instrumentor.endSession, Instrumentor.writeFooter, ofstream.put, ofstream.close, hact,
    hfile]

/-- The effect of `beginSession` when no session is active and the stream has no file open:
the file is opened and holds the header, and the session is active. -/
lemma beginSession_inactive (st : Instrumentor) (name filepath : String)
    (hact : st.m_activeSession = false) (hfile : st.m_outputStream.file = none) :
    st.beginSession name filepath
      = { m_sessionName := name
          m_outputStream := { file := some (filepath, header_text), bad := false }
          m_profileCount := st.m_profileCount
          m_activeSession := true
          closed := st.closed } := by
  simp [Instrumentor.beginSession, Instrumentor.writeHeader, ofstream.put, ofstream.open, hact,
    hfile]

/-- The session invariant is kept by every call: an active session has its file open on a
sound stream, no file is open otherwise, and the sessions begun are the files closed plus the
active session. -/
lemma step_invariant (st : Instrumentor) (c : Call) (n : Nat)
    (h1 : st.m_activeSession = true →
      ∃ filepath written, st.m_outputStream = { file := some (filepath, written), bad := false })
    (h2 : st.m_activeSession = false → st.m_outputStream.file = none)
    (h3 : st.closed.length + (if st.m_activeSession then 1 else 0) = n) :
    ((st.step c).m_activeSession = true →
      ∃ filepath written,
        (st.step c).m_outputStream = { file := some (filepath, written), bad := false }) ∧
    ((st.step c).m_activeSession = false → (st.step c).m_outputStream.file = none) ∧
    (st.step c).closed.length + (if (st.step c).m_activeSession then 1 else 0)
      = n + begun [c] := by
  cases hact : st.m_activeSession with
  | false =>
    have hfile := h2 hact
    rw [hact] at h3
    cases c with
    | beginSession name filepath =>
      simp only [Instrumentor.step, beginSession_inactive st name filepath hact hfile, begun]
      exact ⟨fun _ => ⟨filepath, header_text, rfl⟩, fun h => by simp at h, by simpa using h3⟩
    | endSession =>
      simp only [Instrumentor.step, Instrumentor.endSession, hact, begun]
      simp [hact, hfile]
      simpa using h3
    | writeProfile result =>
      simp only [Instrumentor.step, Instrumentor.writeProfile, begun]
      refine ⟨?_, ?_, ?_⟩
      · intro h
        split_ifs at h <;> simp [hact] at h
      · intro _
        apply put_pieces_closed
        split_ifs <;> simp [ofstream.put, hfile]
      · split_ifs <;> simp_all
  | true =>
    obtain ⟨fp, written, hfile⟩ := h1 hact
    rw [hact] at h3
    cases c with
    | beginSession name filepath =>
      have hend := endSession_active st fp written hact hfile
      have hbegin : st.beginSession name filepath
          = (st.endSession).beginSession name filepath := by
        simp [Instrumentor.beginSession, hact, hend]
      simp only [Instrumentor.step, hbegin, begun]
      rw [beginSession_inactive _ name filepath (by rw [hend]) (by rw [hend]), hend]
      refine ⟨fun _ => ⟨filepath, header_text, rfl⟩, fun h => by simp at h, ?_⟩
      simp at h3 ⊢
      omega
    | endSession =>
      simp only [Instrumentor.step, endSession_active st fp written hact hfile, begun]
      refine ⟨fun h => by simp at h, fun _ => trivial, ?_⟩
      simp at h3 ⊢
      omega
    | writeProfile result =>
      simp only [Instrumentor.step, Instrumentor.writeProfile, begun]
      refine ⟨?_, ?_, ?_⟩
      · intro _
        split_ifs
        · obtain ⟨w, hw⟩ := put_pieces_open (profile_pieces result) fp (written ++ ",")
          exact ⟨fp, w, by simp [hfile, ofstream.put, hw]⟩
        · obtain ⟨w, hw⟩ := put_pieces_open (profile_pieces result) fp written
          exact ⟨fp, w, by simp [hfile, hw]⟩
      · intro h
        split_ifs at h <;> simp [hact] at h
      · split_ifs <;> simp_all

/-- The session invariant holds after every sequence of calls from a state where it
holds. -/
lemma run_invariant (calls : List Call) :
    ∀ (st : Instrumentor) (n : Nat),
      (st.m_activeSession = true →
        ∃ filepath written,
          st.m_outputStream = { file := some (filepath, written), bad := false }) →
      (st.m_activeSession = false → st.m_outputStream.file = none) →
      st.closed.length + (if st.m_activeSession then 1 else 0) = n →
      ((st.run calls).m_activeSession = true →
        ∃ filepath written,
          (st.run calls).m_outputStream = { file := some (filepath, written), bad := false }) ∧
      ((st.run calls).m_activeSession = false → (st.run calls).m_outputStream.file = none) ∧
      (st.run calls).closed.length + (if (st.run calls).m_activeSession then 1 else 0)
        = n + begun calls := by
  induction calls with
  | nil => intro st n h1 h2 h3; exact ⟨h1, h2, h3⟩
  | cons c rest ih =>
    intro st n h1 h2 h3
    obtain ⟨k1, k2, k3⟩ := step_invariant st c n h1 h2 h3
    obtain ⟨r1, r2, r3⟩ := ih (st.step c) (n + begun [c]) k1 k2 k3
    refine ⟨r1, r2, ?_⟩
    have hb : begun (c :: rest) = begun [c] + begun rest := by
      cases c with
      | beginSession name filepath => simp only [begun]; omega
      | endSession => simp only [begun]; omega
      | writeProfile result => simp only [begun]; omega
    rw [hb, ← add_assoc]
    exact r3

/-- C13: after every sequence of calls on the `Instrumentor` (in particular every sequence of
`beginSession` and `endSession` calls) at most one session is open: a session is active
exactly when the stream has a file open, and the sessions begun are the files closed plus
the active one. Calling `beginSession` while a session is active first ends the active one
(its footer `]}` is written to its file, the file is closed and the event count is reset to
`0`), then the new file is opened and given its header; and the `Instrumentor` is active after
every `beginSession`. -/
theorem instrumentor_single_session (calls : List Call) (name filepath : String) :
    ((Instrumentor.initial.run calls).closed.length
        + (if (Instrumentor.initial.run calls).m_activeSession then 1 else 0) = begun calls) ∧
    ((Instrumentor.initial.run calls).m_activeSession
        = (Instrumentor.initial.run calls).m_outputStream.file.isSome) ∧
    ((Instrumentor.initial.run calls).m_activeSession = true →
      ∃ active_path written,
        (Instrumentor.initial.run calls).m_outputStream
          = { file := some (active_path, written), bad := false } ∧
        (Instrumentor.initial.run calls).endSession
          = { m_sessionName := (Instrumentor.initial.run calls).m_sessionName
              m_outputStream := { file := none, bad := false }
              m_profileCount := 0
              m_activeSession := false
              closed := (Instrumentor.initial.run calls).closed
                ++ [(active_path, written ++ footer_text)] } ∧
        (Instrumentor.initial.run calls).beginSession name filepath
          = ((Instrumentor.initial.run calls).endSession).beginSession name filepath ∧
        (Instrumentor.initial.run calls).beginSession name filepath
          = { m_sessionName := name
              m_outputStream := { file := some (filepath, header_text), bad := false }
              m_profileCount := 0
              m_activeSession := true
              closed := (Instrumentor.initial.run calls).closed
                ++ [(active_path, written ++ footer_text)] }) ∧
    ((Instrumentor.initial.run calls).beginSession name filepath).m_activeSession = true ∧
    ((Instrumentor.initial.run calls).beginSession name filepath).m_outputStream
      = { file := some (filepath, header_text), bad := false } := by
  obtain ⟨h1, h2, h3⟩ := run_invariant calls Instrumentor.initial 0
    (fun h => by simp [Instrumentor.initial] at h) (fun _ => rfl) rfl
  have hactive : (Instrumentor.initial.run calls).m_activeSession = true →
      ∃ active_path written,
        (Instrumentor.initial.run calls).m_outputStream
          = { file := some (active_path, written), bad := false } ∧
        (Instrumentor.initial.run calls).endSession
          = { m_sessionName := (Instrumentor.initial.run calls).m_sessionName
              m_outputStream := { file := none, bad := false }
              m_profileCount := 0
              m_activeSession := false
              closed := (Instrumentor.initial.run calls).closed
                ++ [(active_path, written ++ footer_text)] } ∧
        (Instrumentor.initial.run calls).beginSession name filepath
          = ((Instrumentor.initial.run calls).endSession).beginSession name filepath ∧
        (Instrumentor.initial.run calls).beginSession name filepath
          = { m_sessionName := name
              m_outputStream := { file := some (filepath, header_text), bad := false }
              m_profileCount := 0
              m_activeSession := true
              closed := (Instrumentor.initial.run calls).closed
                ++ [(active_path, written ++ footer_text)] } := by
    intro hact
    obtain ⟨fp, written, hfile⟩ := h1 hact
    have hend := endSession_active _ fp written hact hfile
    have hbegin : (Instrumentor.initial.run calls).beginSession name filepath
        = ((Instrumentor.initial.run calls).endSession).beginSession name filepath := by
      simp [Instrumentor.beginSession, hact, hend]
    refine ⟨fp, written, hfile, hend, hbegin, ?_⟩
    rw [hbegin, beginSession_inactive _ name filepath (by rw [hend]) (by rw [hend]), hend]
  refine ⟨by simpa using h3, ?_, hactive, ?_⟩
  · cases hact : (Instrumentor.initial.run calls).m_activeSession with
    | false => rw [h2 hact]; rfl
    | true =>
      obtain ⟨fp, written, hfile⟩ := h1 hact
      rw [hfile]; rfl
  · cases hact : (Instrumentor.initial.run calls).m_activeSession with
    | false =>
      rw [beginSession_inactive _ name filepath hact (h2 hact)]
      exact ⟨rfl, rfl⟩
    | true =>
      obtain ⟨fp, written, -, -, -, hb⟩ := hactive hact
      rw [hb]
      exact ⟨rfl, rfl⟩

/-- Instance of C13: after `beginSession("A", "a.json")` a session is active, and
`beginSession("B", "b.json")` closes `a.json` with header and footer before opening
`b.json`. -/
theorem instrumentor_single_session_witness :
    ((Instrumentor.initial.run [Call.beginSession "A" "a.json"]).beginSession "B"
        "b.json").m_activeSession = true ∧
    ∃ active_path written,
      (Instrumentor.initial.run [Call.beginSession "A" "a.json"]).beginSession "B" "b.json"
        = { m_sessionName := "B"
            m_outputStream := { file := some ("b.json", header_text), bad := false }
            m_profileCount := 0
            m_activeSession := true
            closed := (Instrumentor.initial.run [Call.beginSession "A" "a.json"]).closed
              ++ [(active_path, written ++ footer_text)] } :=
  ⟨(instrumentor_single_session [Call.beginSession "A" "a.json"] "B" "b.json").2.2.2.1,
   (((instrumentor_single_session [Call.beginSession "A" "a.json"] "B" "b.json").2.2.1
      rfl).imp fun _ h => h.imp fun _ h2 => h2.2.2.2)⟩

/-- C19 (the code at the failing input): a `writeProfile` call made before any session leaves
the event count at `1`; the next `beginSession` does not reset it, so the first event of the
session is written after a comma, and the file of the session holds the header, a comma, the
event and the footer, not the header, the event and the footer. -/
theorem instrumentor_leading_comma :
    (Instrumentor.initial.run [Call.writeProfile ⟨"f", 0, 1, 0⟩]).m_profileCount = 1 ∧
    (Instrumentor.initial.run
        [Call.writeProfile ⟨"f", 0, 1, 0⟩, Call.beginSession "Render" "results.json"]).m_profileCount
      = 1 ∧
    (Instrumentor.initial.run
        [Call.writeProfile ⟨"f", 0, 1, 0⟩, Call.beginSession "Render" "results.json",
         Call.writeProfile ⟨"f", 0, 1, 0⟩, Call.endSession]).closed
      = [("results.json", header_text ++ "," ++ profile_text ⟨"f", 0, 1, 0⟩ ++ footer_text)] ∧
    header_text ++ "," ++ profile_text ⟨"f", 0, 1, 0⟩ ++ footer_text
      ≠ header_text ++ profile_text ⟨"f", 0, 1, 0⟩ ++ footer_text := by
  refine ⟨by decide, by decide, by decide, by decide⟩

/-! ## The range of `double`: overflow and underflow -/

/-- In the normal range an exact result is kept. -/
lemma round_normal (x : ℝ) (h1 : 1 / 2 ^ 1022 ≤ |x|) (h2 : |x| < 2 ^ 1024) :
    double.round x = double.fin x := by
  unfold double.round
  rw [if_neg (not_le.mpr h2), if_pos h1]

/-- Values between `1/4` and `4` in magnitude are in the normal range. -/
lemma round_moderate (x : ℝ) (h1 : 1 / 4 ≤ |x|) (h2 : |x| ≤ 4) :
    double.round x = double.fin x := by
  apply round_normal
  · have h : (1 : ℝ) / 2 ^ 1022 ≤ 1 / 4 := by
      rw [show (4 : ℝ) = 2 ^ 2 by norm_num]
      exact one_div_le_one_div_of_le (by positivity)
        (pow_le_pow_right₀ (by norm_num) (by norm_num))
    linarith
  · have h : (4 : ℝ) < 2 ^ 1024 := by
      rw [show (4 : ℝ) = 2 ^ 2 by norm_num]
      exact pow_lt_pow_right₀ (by norm_num) (by norm_num)
    linarith

/-- At `2 ^ 1024` and above an exact result overflows to the infinity of its sign. -/
lemma round_overflow (x : ℝ) (h : 2 ^ 1024 ≤ |x|) :
    double.round x = double.inf (decide (x < 0)) := by
  unfold double.round
  rw [if_pos h]

/-- A non-negative exact result below `2 ^ (-1075)` underflows to `+0.0`. -/
lemma round_underflow (x : ℝ) (h0 : 0 ≤ x) (h1 : x * 2 ^ 1074 < 1 / 2) :
    double.round x = double.fin 0 := by
  have hp : (0 : ℝ) < 2 ^ 1074 := by positivity
  have hy0 : 0 ≤ x * 2 ^ 1074 := mul_nonneg h0 hp.le
  have hfloor : ⌊x * 2 ^ 1074⌋ = 0 := by
    rw [Int.floor_eq_zero_iff]
    exact ⟨hy0, by linarith⟩
  have hq : round_even (x * 2 ^ 1074) = 0 := by
    unfold round_even
    rw [hfloor, if_pos (by simpa using h1)]
  have hx1 : x < 1 / 2 ^ 1022 := by
    have hlt : x * 2 ^ 1074 < 1 / 2 ^ 1022 * 2 ^ 1074 := by
      have h52 : (1 : ℝ) / 2 ^ 1022 * 2 ^ 1074 = 2 ^ 52 := by
        rw [show (1074 : ℕ) = 1022 + 52 by norm_num, pow_add]
        field_simp
      rw [h52]
      have : (1 : ℝ) ≤ 2 ^ 52 := one_le_pow₀ (by norm_num)
      linarith
    exact lt_of_mul_lt_mul_right hlt hp.le
  have hx2 : x < 2 ^ 1024 := by
    have h1' : (1 : ℝ) / 2 ^ 1022 ≤ 1 := by
      rw [div_le_one (by positivity)]
      exact one_le_pow₀ (by norm_num)
    have h2' : (1 : ℝ) ≤ 2 ^ 1024 := one_le_pow₀ (by norm_num)
    linarith
  unfold double.round
  rw [abs_of_nonneg h0, if_neg (not_le.mpr hx2), if_neg (not_le.mpr hx1), if_pos hq,
    if_neg (not_lt.mpr h0)]

/-- The product of two finite values. -/
lemma mul_fin (a b : ℝ) :
    double.mul (double.fin a) (double.fin b)
      = if a * b = 0 then double.zero (Bool.xor (decide (a < 0)) (decide (b < 0)))
        else double.round (a * b) :=
  rfl

/-- The sum of two finite values. -/
lemma add_fin (a b : ℝ) :
    double.add (double.fin a) (double.fin b)
      = if a + b = 0 then double.fin 0 else double.round (a + b) :=
  rfl

/-- The quotient of two finite values. -/
lemma div_fin (a b : ℝ) :
    double.div (double.fin a) (double.fin b)
      = if b = 0 then
          (if a = 0 then double.nan
            else double.inf (Bool.xor (decide (a < 0)) (decide (b < 0))))
        else if a = 0 then double.zero (Bool.xor (decide (a < 0)) (decide (b < 0)))
        else double.round (a / b) :=
  rfl

/-- A value whose square is in the normal range is itself in the normal range, and so is its
inverse. -/
lemma normal_of_square (k : ℝ) (hk : 0 < k) (h1 : 1 / 2 ^ 1022 ≤ k * k)
    (h2 : k * k < 2 ^ 1024) :
    (1 / 2 ^ 1022 ≤ k ∧ k < 2 ^ 1024) ∧ (1 / 2 ^ 1022 ≤ 1 / k ∧ 1 / k < 2 ^ 1024) := by
  have hlo : (1 : ℝ) / 2 ^ 511 ≤ k := by
    by_contra h
    push_neg at h
    have := mul_self_lt_mul_self hk.le h
    have e : (1 : ℝ) / 2 ^ 511 * (1 / 2 ^ 511) = 1 / 2 ^ 1022 := by
      rw [show (1022 : ℕ) = 511 + 511 by norm_num, pow_add]
      field_simp
    rw [e] at this
    linarith
  have hhi : k < 2 ^ 512 := by
    by_contra h
    push_neg at h
    have := mul_self_le_mul_self (by positivity) h
    have e : (2 : ℝ) ^ 512 * 2 ^ 512 = 2 ^ 1024 := by
      rw [← pow_add]
    rw [e] at this
    linarith
  have a1 : (1 : ℝ) / 2 ^ 1022 ≤ 1 / 2 ^ 511 :=
    one_div_le_one_div_of_le (by positivity) (pow_le_pow_right₀ (by norm_num) (by norm_num))
  have a2 : (2 : ℝ) ^ 512 < 2 ^ 1024 := pow_lt_pow_right₀ (by norm_num) (by norm_num)
  have a3 : (1 : ℝ) / 2 ^ 1022 ≤ 1 / 2 ^ 512 :=
    one_div_le_one_div_of_le (by positivity) (pow_le_pow_right₀ (by norm_num) (by norm_num))
  have a4 : (2 : ℝ) ^ 511 < 2 ^ 1024 := pow_lt_pow_right₀ (by norm_num) (by norm_num)
  refine ⟨⟨by linarith, by linarith⟩, ?_, ?_⟩
  · have : (1 : ℝ) / 2 ^ 512 ≤ 1 / k := one_div_le_one_div_of_le hk hhi.le
    linarith
  · have h511 : (0 : ℝ) < 1 / 2 ^ 511 := by positivity
    have : 1 / k ≤ 1 / (1 / 2 ^ 511) := one_div_le_one_div_of_le h511 hlo
    rw [one_div_one_div] at this
    linarith

/-- The first step of `ray_color` on the range of `double`, on a miss with budget left. -/
lemma dbl_ray_color_of_miss {M σ : Type} (scatter : scatter_fn (double ℝ) M σ)
    (world : hittable (double ℝ) M σ) (r : ray (double ℝ)) (depth : Int) (s : σ)
    (hd : 0 < depth)
    (hmiss : (world.hit r (double.fin 0.001)
      ((double.inf false : double ℝ) : WithTop (double ℝ)) s).1 = none) :
    (dbl.ray_color (double.sqrt Real.sqrt) scatter world r depth s).1
      = dbl.add
          (dbl.smul
            (double.sub (double.fin 1.0)
              (double.mul (double.fin 0.5)
                (double.add (dbl.unit_vector (double.sqrt Real.sqrt) r.dir).y
                  (double.fin 1.0))))
            ⟨double.fin 1.0, double.fin 1.0, double.fin 1.0⟩)
          (dbl.smul
            (double.mul (double.fin 0.5)
              (double.add (dbl.unit_vector (double.sqrt Real.sqrt) r.dir).y (double.fin 1.0)))
            ⟨double.fin 0.5, double.fin 0.7, double.fin 1.0⟩) := by
  rw [dbl.ray_color, if_neg (not_le.mpr hd)]
  simp only [hmiss]

/-- The unit vector of a vertical direction `(0, y, 0)` whose square `y * y` is in the normal
range of `double`: `(0, y / |y|, 0)`. -/
lemma dbl_unit_vector_vertical (y : ℝ) (hy : y ≠ 0) (h1 : 1 / 2 ^ 1022 ≤ y * y)
    (h2 : y * y < 2 ^ 1024) :
    dbl.unit_vector (double.sqrt Real.sqrt) ⟨double.fin 0, double.fin y, double.fin 0⟩
      = ⟨double.fin 0, double.fin (1 / |y| * y), double.fin 0⟩ := by
  have habs : 0 < |y| := abs_pos.mpr hy
  have hsq : |y| * |y| = y * y := abs_mul_abs_self y
  obtain ⟨⟨k1, k2⟩, ⟨i1, i2⟩⟩ := normal_of_square |y| habs (by rw [hsq]; exact h1)
    (by rw [hsq]; exact h2)
  have hyy : y * y ≠ 0 := mul_self_ne_zero.mpr hy
  have hyy0 : 0 ≤ y * y := mul_self_nonneg y
  have hlen2 : dbl.length_squared (⟨double.fin 0, double.fin y, double.fin 0⟩ : vec3 (double ℝ))
      = double.fin (y * y) := by
    have hr : double.round (y * y) = double.fin (y * y) :=
      round_normal (y * y) (by rw [abs_of_nonneg hyy0]; exact h1)
        (by rw [abs_of_nonneg hyy0]; exact h2)
    simp only [dbl.length_squared, mul_fin, add_fin, mul_zero, if_true, zero_add, add_zero,
      if_neg hyy, double.zero, lt_irrefl, decide_False, Bool.xor_false, Bool.false_eq_true,
      if_false, hr]
  have hsqrt : Real.sqrt (y * y) = |y| := by
    rw [← sq, Real.sqrt_sq_eq_abs]
  have hlen : dbl.length (double.sqrt Real.sqrt)
      (⟨double.fin 0, double.fin y, double.fin 0⟩ : vec3 (double ℝ)) = double.fin |y| := by
    rw [dbl.length, hlen2]
    simp only [double.sqrt, if_neg (not_lt.mpr hyy0), hsqrt]
    exact round_normal |y| (by rw [abs_abs]; exact k1) (by rw [abs_abs]; exact k2)
  have hinv : double.div (double.fin 1) (double.fin |y|) = double.fin (1 / |y|) := by
    rw [div_fin, if_neg habs.ne', if_neg one_ne_zero]
    have hpos : 0 < 1 / |y| := by positivity
    exact round_normal _ (by rw [abs_of_pos hpos]; exact i1) (by rw [abs_of_pos hpos]; exact i2)
  have hone : |1 / |y| * y| = 1 := by
    rw [abs_mul, abs_of_pos (by positivity : (0 : ℝ) < 1 / |y|)]
    field_simp
  have hprod : 1 / |y| * y ≠ 0 := by
    intro h
    rw [h, abs_zero] at hone
    exact zero_ne_one hone
  have hinvpos : ¬ (1 / |y| < 0) := not_lt.mpr (by positivity)
  rw [dbl.unit_vector, hlen, dbl.div, hinv]
  simp only [dbl.smul, mul_fin, mul_zero, if_true, if_neg hprod, double.zero, lt_irrefl,
    decide_False, Bool.xor_false, hinvpos, Bool.false_eq_true, if_false]
  rw [round_moderate _ (by rw [hone]; norm_num) (by rw [hone]; norm_num)]

/-- The sum of a finite value and `-0.0`. -/
lemma add_fin_negzero (a : ℝ) :
    double.add (double.fin a) (double.negzero)
      = if a + 0 = 0 then double.fin 0 else double.round (a + 0) :=
  rfl

/-- The sum of `-0.0` and a finite value. -/
lemma add_negzero_fin (b : ℝ) :
    double.add (double.negzero) (double.fin b)
      = if 0 + b = 0 then double.fin 0 else double.round (0 + b) :=
  rfl

/-- A positive exact result between `1/4` and `4` is kept. -/
lemma round_pos_moderate (x : ℝ) (h1 : 1 / 4 ≤ x) (h2 : x ≤ 4) :
    double.round x = double.fin x :=
  round_moderate x (by rw [abs_of_pos (by linarith)]; exact h1)
    (by rw [abs_of_pos (by linarith)]; exact h2)

/-- A product of finite values with an exact result `c` between `1/4` and `4`. -/
lemma mul_fin_eval (a b c : ℝ) (h : a * b = c) (h1 : 1 / 4 ≤ c) (h2 : c ≤ 4) :
    double.mul (double.fin a) (double.fin b) = double.fin c := by
  rw [mul_fin, h, if_neg (by linarith), round_pos_moderate c h1 h2]

/-- A product of `+0.0` and a non-negative finite value is `+0.0`. -/
lemma mul_fin_zero_left (b : ℝ) (hb : 0 ≤ b) :
    double.mul (double.fin 0) (double.fin b) = double.fin 0 := by
  rw [mul_fin, zero_mul, if_pos rfl]
  simp [double.zero, not_lt.mpr hb]

/-- A product of a non-negative finite value and `+0.0` is `+0.0`. -/
lemma mul_fin_zero_right (a : ℝ) (ha : 0 ≤ a) :
    double.mul (double.fin a) (double.fin 0) = double.fin 0 := by
  rw [mul_fin, mul_zero, if_pos rfl]
  simp [double.zero, not_lt.mpr ha]

/-- A sum of finite values with an exact result `c` between `1/4` and `4`. -/
lemma add_fin_eval (a b c : ℝ) (h : a + b = c) (h1 : 1 / 4 ≤ c) (h2 : c ≤ 4) :
    double.add (double.fin a) (double.fin b) = double.fin c := by
  rw [add_fin, h, if_neg (by linarith), round_pos_moderate c h1 h2]

/-- A sum of finite values that cancel is `+0.0`. -/
lemma add_fin_cancel (a b : ℝ) (h : a + b = 0) :
    double.add (double.fin a) (double.fin b) = double.fin 0 := by
  rw [add_fin, if_pos h]

/-- A difference of finite values, the second not zero, with an exact result `c` between
`1/4` and `4`. -/
lemma sub_fin_eval (a b c : ℝ) (hb : b ≠ 0) (h : a - b = c) (h1 : 1 / 4 ≤ c) (h2 : c ≤ 4) :
    double.sub (double.fin a) (double.fin b) = double.fin c := by
  rw [double.sub, double.neg, if_neg hb]
  exact add_fin_eval a (-b) c (by linarith) h1 h2

/-- A difference of equal finite values, not zero, is `+0.0`. -/
lemma sub_fin_cancel (a b : ℝ) (hb : b ≠ 0) (h : a - b = 0) :
    double.sub (double.fin a) (double.fin b) = double.fin 0 := by
  rw [double.sub, double.neg, if_neg hb]
  exact add_fin_cancel a (-b) (by linarith)

/-- Subtracting `+0.0` from a finite value between `1/4` and `4` leaves it. -/
lemma sub_fin_zero (a : ℝ) (h1 : 1 / 4 ≤ a) (h2 : a ≤ 4) :
    double.sub (double.fin a) (double.fin 0) = double.fin a := by
  rw [double.sub, double.neg, if_pos rfl, add_fin_negzero, add_zero, if_neg (by linarith),
    round_pos_moderate a h1 h2]

/-- The gradient of the sky for the unit `y` component `-1`: white. -/
lemma dbl_gradient_down :
    dbl.add
        (dbl.smul
          (double.sub (double.fin 1.0)
            (double.mul (double.fin 0.5) (double.add (double.fin (-1)) (double.fin 1.0))))
          ⟨double.fin 1.0, double.fin 1.0, double.fin 1.0⟩)
        (dbl.smul (double.mul (double.fin 0.5) (double.add (double.fin (-1)) (double.fin 1.0)))
          ⟨double.fin 0.5, double.fin 0.7, double.fin 1.0⟩)
      = (⟨double.fin 1, double.fin 1, double.fin 1⟩ : color (double ℝ)) := by
  rw [add_fin_cancel (-1) 1.0 (by norm_num), mul_fin_zero_right 0.5 (by norm_num),
    sub_fin_zero 1.0 (by norm_num) (by norm_num)]
  simp only [dbl.add, dbl.smul]
  rw [mul_fin_eval 1.0 1.0 1 (by norm_num) (by norm_num) (by norm_num),
    mul_fin_zero_left 0.5 (by norm_num), mul_fin_zero_left 0.7 (by norm_num),
    mul_fin_zero_left 1.0 (by norm_num),
    add_fin_eval 1 0 1 (by norm_num) (by norm_num) (by norm_num)]

/-- The gradient of the sky for the unit `y` component `1`: sky-blue. -/
lemma dbl_gradient_up :
    dbl.add
        (dbl.smul
          (double.sub (double.fin 1.0)
            (double.mul (double.fin 0.5) (double.add (double.fin 1) (double.fin 1.0))))
          ⟨double.fin 1.0, double.fin 1.0, double.fin 1.0⟩)
        (dbl.smul (double.mul (double.fin 0.5) (double.add (double.fin 1) (double.fin 1.0)))
          ⟨double.fin 0.5, double.fin 0.7, double.fin 1.0⟩)
      = (⟨double.fin 0.5, double.fin 0.7, double.fin 1.0⟩ : color (double ℝ)) := by
  rw [add_fin_eval 1 1.0 2 (by norm_num) (by norm_num) (by norm_num),
    mul_fin_eval 0.5 2 1 (by norm_num) (by norm_num) (by norm_num),
    sub_fin_cancel 1.0 1 (by norm_num) (by norm_num)]
  simp only [dbl.add, dbl.smul]
  rw [mul_fin_zero_left 1.0 (by norm_num),
    mul_fin_eval 1 0.5 0.5 (by norm_num) (by norm_num) (by norm_num),
    mul_fin_eval 1 0.7 0.7 (by norm_num) (by norm_num) (by norm_num),
    mul_fin_eval 1 1.0 1.0 (by norm_num) (by norm_num) (by norm_num),
    add_fin_eval 0 0.5 0.5 (by norm_num) (by norm_num) (by norm_num),
    add_fin_eval 0 0.7 0.7 (by norm_num) (by norm_num) (by norm_num),
    add_fin_eval 0 1.0 1.0 (by norm_num) (by norm_num) (by norm_num)]

/-- The gradient of the sky for the unit `y` component `-0.0`: the middle of the gradient. -/
lemma dbl_gradient_negzero :
    dbl.add
        (dbl.smul
          (double.sub (double.fin 1.0)
            (double.mul (double.fin 0.5) (double.add double.negzero (double.fin 1.0))))
          ⟨double.fin 1.0, double.fin 1.0, double.fin 1.0⟩)
        (dbl.smul (double.mul (double.fin 0.5) (double.add double.negzero (double.fin 1.0)))
          ⟨double.fin 0.5, double.fin 0.7, double.fin 1.0⟩)
      = (⟨double.fin 0.75, double.fin 0.85, double.fin 1.0⟩ : color (double ℝ)) := by
  have h1 : double.add (double.negzero) (double.fin (1.0 : ℝ)) = double.fin 1 := by
    rw [add_negzero_fin, zero_add, if_neg (by norm_num),
      round_pos_moderate _ (by norm_num) (by norm_num)]
    norm_num
  rw [h1, mul_fin_eval 0.5 1 0.5 (by norm_num) (by norm_num) (by norm_num),
    sub_fin_eval 1.0 0.5 0.5 (by norm_num) (by norm_num) (by norm_num) (by norm_num)]
  simp only [dbl.add, dbl.smul]
  rw [mul_fin_eval 0.5 1.0 0.5 (by norm_num) (by norm_num) (by norm_num),
    mul_fin_eval 0.5 0.5 0.25 (by norm_num) (by norm_num) (by norm_num),
    mul_fin_eval 0.5 0.7 0.35 (by norm_num) (by norm_num) (by norm_num),
    add_fin_eval 0.5 0.25 0.75 (by norm_num) (by norm_num) (by norm_num),
    add_fin_eval 0.5 0.35 0.85 (by norm_num) (by norm_num) (by norm_num),
    add_fin_eval 0.5 0.5 1.0 (by norm_num) (by norm_num) (by norm_num)]

/-- The gradient of the sky for an infinite unit `y` component: NaN in every channel. -/
lemma dbl_gradient_inf (neg : Bool) :
    dbl.add
        (dbl.smul
          (double.sub (double.fin 1.0)
            (double.mul (double.fin 0.5) (double.add (double.inf neg) (double.fin 1.0))))
          ⟨double.fin 1.0, double.fin 1.0, double.fin 1.0⟩)
        (dbl.smul (double.mul (double.fin 0.5) (double.add (double.inf neg) (double.fin 1.0)))
          ⟨double.fin 0.5, double.fin 0.7, double.fin 1.0⟩)
      = (⟨double.nan, double.nan, double.nan⟩ : color (double ℝ)) := by
  cases neg <;>
    norm_num [dbl.add, dbl.smul, double.sub, double.neg, double.mul, double.add, double.val,
      double.sign]

/-- The gradient of the sky for the unit `y` component `+0.0`: the middle of the gradient. -/
lemma dbl_gradient_zero :
    dbl.add
        (dbl.smul
          (double.sub (double.fin 1.0)
            (double.mul (double.fin 0.5) (double.add (double.fin 0) (double.fin 1.0))))
          ⟨double.fin 1.0, double.fin 1.0, double.fin 1.0⟩)
        (dbl.smul (double.mul (double.fin 0.5) (double.add (double.fin 0) (double.fin 1.0)))
          ⟨double.fin 0.5, double.fin 0.7, double.fin 1.0⟩)
      = (⟨double.fin 0.75, double.fin 0.85, double.fin 1.0⟩ : color (double ℝ)) := by
  rw [add_fin_eval 0 1.0 1 (by norm_num) (by norm_num) (by norm_num),
    mul_fin_eval 0.5 1 0.5 (by norm_num) (by norm_num) (by norm_num),
    sub_fin_eval 1.0 0.5 0.5 (by norm_num) (by norm_num) (by norm_num) (by norm_num)]
  simp only [dbl.add, dbl.smul]
  rw [mul_fin_eval 0.5 1.0 0.5 (by norm_num) (by norm_num) (by norm_num),
    mul_fin_eval 0.5 0.5 0.25 (by norm_num) (by norm_num) (by norm_num),
    mul_fin_eval 0.5 0.7 0.35 (by norm_num) (by norm_num) (by norm_num),
    add_fin_eval 0.5 0.25 0.75 (by norm_num) (by norm_num) (by norm_num),
    add_fin_eval 0.5 0.35 0.85 (by norm_num) (by norm_num) (by norm_num),
    add_fin_eval 0.5 0.5 1.0 (by norm_num) (by norm_num) (by norm_num)]

/-- The unit vector of a vertical direction `(0, y, 0)` whose square `y * y` overflows: the
squared length is `+inf`, its inverse is `+0.0`, and the result is a zero vector. -/
lemma dbl_unit_vector_overflow (y : ℝ) (h : 2 ^ 1024 ≤ y * y) :
    dbl.unit_vector (double.sqrt Real.sqrt) ⟨double.fin 0, double.fin y, double.fin 0⟩
      = ⟨double.fin 0, double.zero (decide (y < 0)), double.fin 0⟩ := by
  have hyy0 : 0 ≤ y * y := mul_self_nonneg y
  have hpos : (0 : ℝ) < 2 ^ 1024 := by positivity
  have hyy : y * y ≠ 0 := by linarith
  have hsq : double.mul (double.fin y) (double.fin y) = double.inf false := by
    rw [mul_fin, if_neg hyy, round_overflow _ (by rw [abs_of_nonneg hyy0]; exact h)]
    simp [not_lt.mpr hyy0]
  have hlen2 : dbl.length_squared (⟨double.fin 0, double.fin y, double.fin 0⟩ : vec3 (double ℝ))
      = double.inf false := by
    simp only [dbl.length_squared, hsq, mul_fin_zero_left 0 (le_refl 0)]
    rfl
  have hinv : double.div (double.fin (1 : ℝ)) (double.inf false) = double.fin 0 := by
    simp [double.div, double.sign, double.zero]
  rw [dbl.unit_vector, dbl.length, hlen2, dbl.div]
  simp only [double.sqrt, Bool.false_eq_true, if_false, hinv, dbl.smul, mul_fin, zero_mul,
    if_true, lt_irrefl, decide_False, Bool.xor_false, Bool.false_bne, double.zero]

/-- The unit vector of a vertical direction `(0, y, 0)`, `y` not zero, whose square `y * y`
underflows to zero: the length is `+0.0`, its inverse is `+inf`, and the result has NaN for
`inf * 0` and an infinity of the sign of `y`. -/
lemma dbl_unit_vector_underflow (y : ℝ) (hy : y ≠ 0) (h : y * y * 2 ^ 1074 < 1 / 2) :
    dbl.unit_vector (double.sqrt Real.sqrt) ⟨double.fin 0, double.fin y, double.fin 0⟩
      = ⟨double.nan, double.inf (decide (y < 0)), double.nan⟩ := by
  have hyy0 : 0 ≤ y * y := mul_self_nonneg y
  have hyy : y * y ≠ 0 := mul_self_ne_zero.mpr hy
  have hsq : double.mul (double.fin y) (double.fin y) = double.fin 0 := by
    rw [mul_fin, if_neg hyy, round_underflow _ hyy0 h]
  have hlen2 : dbl.length_squared (⟨double.fin 0, double.fin y, double.fin 0⟩ : vec3 (double ℝ))
      = double.fin 0 := by
    simp only [dbl.length_squared, hsq, mul_fin_zero_left 0 (le_refl 0),
      add_fin_cancel 0 0 (add_zero 0)]
  have hlen : double.sqrt Real.sqrt (double.fin (0 : ℝ)) = double.fin 0 := by
    simp only [double.sqrt, lt_irrefl, if_false, Real.sqrt_zero]
    exact round_underflow 0 (le_refl 0) (by norm_num)
  have hinv : double.div (double.fin (1 : ℝ)) (double.fin 0) = double.inf false := by
    rw [div_fin, if_pos rfl, if_neg one_ne_zero]
    simp
  rw [dbl.unit_vector, dbl.length, hlen2, hlen, dbl.div, hinv]
  simp [dbl.smul, double.mul, double.val, double.sign, hy]

/-! ## The vertical rays on the range of `double` -/

/-- C3 (as stated, refuted): on a miss, with `depth = 16`, the ray pointing straight down with
direction `(0, -2^600, 0)` is not white and the ray pointing straight up with direction
`(0, 2^600, 0)` is not sky-blue: the squared length `2^1200` overflows to `+inf`, the unit
vector is a zero vector and both colours are the middle of the gradient,
`(0.75, 0.85, 1.0)`. For the direction `(0, -2^(-600), 0)` the squared length underflows to
`0` and every channel is NaN. -/
theorem ray_color_vertical_out_of_range :
    (0 : ℝ) < 2 ^ 600 ∧ (0 : ℝ) < 1 / 2 ^ 600 ∧ (0 : Int) < 16 ∧
    (dbl.ray_color (double.sqrt Real.sqrt) dbl.absorb dbl.void_world
        ⟨⟨double.fin 0, double.fin 0, double.fin 0⟩,
         ⟨double.fin 0, double.fin (-2 ^ 600), double.fin 0⟩⟩ 16 0).1
      = ⟨double.fin 0.75, double.fin 0.85, double.fin 1.0⟩ ∧
    (⟨double.fin 0.75, double.fin 0.85, double.fin 1.0⟩ : color (double ℝ))
      ≠ ⟨double.fin 1, double.fin 1, double.fin 1⟩ ∧
    (dbl.ray_color (double.sqrt Real.sqrt) dbl.absorb dbl.void_world
        ⟨⟨double.fin 0, double.fin 0, double.fin 0⟩,
         ⟨double.fin 0, double.fin (2 ^ 600), double.fin 0⟩⟩ 16 0).1
      = ⟨double.fin 0.75, double.fin 0.85, double.fin 1.0⟩ ∧
    (⟨double.fin 0.75, double.fin 0.85, double.fin 1.0⟩ : color (double ℝ))
      ≠ ⟨double.fin 0.5, double.fin 0.7, double.fin 1.0⟩ ∧
    (dbl.ray_color (double.sqrt Real.sqrt) dbl.absorb dbl.void_world
        ⟨⟨double.fin 0, double.fin 0, double.fin 0⟩,
         ⟨double.fin 0, double.fin (-(1 / 2 ^ 600)), double.fin 0⟩⟩ 16 0).1
      = ⟨double.nan, double.nan, double.nan⟩ := by
  have hbig : (2 : ℝ) ^ 1024 ≤ 2 ^ 600 * 2 ^ 600 := by
    rw [← pow_add]
    exact pow_le_pow_right₀ (by norm_num) (by norm_num)
  have hbig' : (2 : ℝ) ^ 1024 ≤ -2 ^ 600 * -2 ^ 600 := by
    rw [neg_mul_neg]; exact hbig
  have hsmall : (-(1 / 2 ^ 600) : ℝ) * -(1 / 2 ^ 600) * 2 ^ 1074 < 1 / 2 := by
    rw [neg_mul_neg, show (1 : ℝ) / 2 ^ 600 * (1 / 2 ^ 600) * 2 ^ 1074 = 1 / 2 ^ 126 by
      rw [show (1 : ℝ) / 2 ^ 600 * (1 / 2 ^ 600) = 1 / (2 ^ 1074 * 2 ^ 126) by
        rw [← pow_add, one_div_mul_one_div, ← pow_add]]
      field_simp]
    exact one_div_lt_one_div_of_lt (by norm_num)
      (by
        have : (2 : ℝ) ^ 1 < 2 ^ 126 := pow_lt_pow_right₀ (by norm_num) (by norm_num)
        simpa using this)
  have hneg : (-2 ^ 600 : ℝ) < 0 := by
    have : (0 : ℝ) < 2 ^ 600 := by positivity
    linarith
  have hpos : ¬ ((2 : ℝ) ^ 600 < 0) := not_lt.mpr (by positivity)
  refine ⟨by positivity, by positivity, by decide, ?_, ?_, ?_, ?_, ?_⟩
  · rw [dbl_ray_color_of_miss _ _ _ _ _ (by decide) rfl, dbl_unit_vector_overflow _ hbig']
    simp only [hneg, decide_True, double.zero, if_true]
    exact dbl_gradient_negzero
  · intro h
    have hx := congrArg vec3.x h
    simp only [double.fin.injEq] at hx
    norm_num at hx
  · rw [dbl_ray_color_of_miss _ _ _ _ _ (by decide) rfl, dbl_unit_vector_overflow _ hbig]
    simp only [hpos, decide_False, double.zero, Bool.false_eq_true, if_false]
    exact dbl_gradient_zero
  · intro h
    have hx := congrArg vec3.x h
    simp only [double.fin.injEq] at hx
    norm_num at hx
  · rw [dbl_ray_color_of_miss _ _ _ _ _ (by decide) rfl,
      dbl_unit_vector_underflow _ (by
        have : (0 : ℝ) < 1 / 2 ^ 600 := by positivity
        linarith) hsmall]
    exact dbl_gradient_inf _

/-- C3 (amended): for every `depth > 0` and every `k > 0` whose square is in the normal range
of `double` (`2^(-1022) <= k*k < 2^1024`, so that it neither underflows nor overflows), on a
miss `ray_color` of a ray pointing straight down (direction `(0,-k,0)`) is white `(1,1,1)`
and of a ray pointing straight up (direction `(0,k,0)`) is sky-blue `(0.5,0.7,1.0)`. -/
theorem ray_color_miss_vertical_in_range {M σ : Type} (scatter : scatter_fn (double ℝ) M σ)
    (world : hittable (double ℝ) M σ) (o : point3 (double ℝ)) (k : ℝ) (depth : Int) (s : σ)
    (hd : 0 < depth) (hk : 0 < k) (h1 : 1 / 2 ^ 1022 ≤ k * k) (h2 : k * k < 2 ^ 1024) :
    ((world.hit ⟨o, ⟨double.fin 0, double.fin (-k), double.fin 0⟩⟩ (double.fin 0.001)
        ((double.inf false : double ℝ) : WithTop (double ℝ)) s).1 = none →
      (dbl.ray_color (double.sqrt Real.sqrt) scatter world
          ⟨o, ⟨double.fin 0, double.fin (-k), double.fin 0⟩⟩ depth s).1
        = ⟨double.fin 1, double.fin 1, double.fin 1⟩) ∧
    ((world.hit ⟨o, ⟨double.fin 0, double.fin k, double.fin 0⟩⟩ (double.fin 0.001)
        ((double.inf false : double ℝ) : WithTop (double ℝ)) s).1 = none →
      (dbl.ray_color (double.sqrt Real.sqrt) scatter world
          ⟨o, ⟨double.fin 0, double.fin k, double.fin 0⟩⟩ depth s).1
        = ⟨double.fin 0.5, double.fin 0.7, double.fin 1.0⟩) := by
  have hdown : (1 : ℝ) / |(-k)| * -k = -1 := by
    rw [abs_neg, abs_of_pos hk]
    field_simp
  have hup : (1 : ℝ) / |k| * k = 1 := by
    rw [abs_of_pos hk]
    field_simp
  constructor
  · intro hmiss
    rw [dbl_ray_color_of_miss _ _ _ _ _ hd hmiss,
      dbl_unit_vector_vertical (-k) (by linarith) (by rw [neg_mul_neg]; exact h1)
        (by rw [neg_mul_neg]; exact h2), hdown]
    exact dbl_gradient_down
  · intro hmiss
    rw [dbl_ray_color_of_miss _ _ _ _ _ hd hmiss,
      dbl_unit_vector_vertical k (by linarith) h1 h2, hup]
    exact dbl_gradient_up

/-- Instance of C3 (amended): directions `(0,-7,0)` and `(0,7,0)` on a scene that never
reports a hit. -/
theorem ray_color_miss_vertical_in_range_witness :
    (dbl.ray_color (double.sqrt Real.sqrt) dbl.absorb dbl.void_world
        ⟨⟨double.fin 1, double.fin 2, double.fin 3⟩,
         ⟨double.fin 0, double.fin (-7), double.fin 0⟩⟩ 16 0).1
      = ⟨double.fin 1, double.fin 1, double.fin 1⟩ ∧
    (dbl.ray_color (double.sqrt Real.sqrt) dbl.absorb dbl.void_world
        ⟨⟨double.fin 1, double.fin 2, double.fin 3⟩,
         ⟨double.fin 0, double.fin 7, double.fin 0⟩⟩ 16 0).1
      = ⟨double.fin 0.5, double.fin 0.7, double.fin 1.0⟩ := by
  have h1 : (1 : ℝ) / 2 ^ 1022 ≤ 7 * 7 := by
    have : (1 : ℝ) / 2 ^ 1022 ≤ 1 := by
      rw [div_le_one (by positivity)]
      exact one_le_pow₀ (by norm_num)
    linarith
  have h2 : (7 : ℝ) * 7 < 2 ^ 1024 := by norm_num
  exact ⟨(ray_color_miss_vertical_in_range dbl.absorb dbl.void_world
      ⟨double.fin 1, double.fin 2, double.fin 3⟩ 7 16 0 (by decide) (by norm_num) h1 h2).1 rfl,
    (ray_color_miss_vertical_in_range dbl.absorb dbl.void_world
      ⟨double.fin 1, double.fin 2, double.fin 3⟩ 7 16 0 (by decide) (by norm_num) h1 h2).2 rfl⟩

/-! ## `hit_sphere` on the range of `double` -/

/-- A sum of finite values with an exact result `c` between `-4` and `-1/4`. -/
lemma add_fin_eval_neg (a b c : ℝ) (h : a + b = c) (h1 : -4 ≤ c) (h2 : c ≤ -(1 / 4)) :
    double.add (double.fin a) (double.fin b) = double.fin c := by
  rw [add_fin, h, if_neg (by linarith),
    round_moderate c (by rw [abs_of_neg (by linarith)]; linarith)
      (by rw [abs_of_neg (by linarith)]; linarith)]

/-- A product of finite values with an exact result `c` between `-4` and `-1/4`. -/
lemma mul_fin_eval_neg (a b c : ℝ) (h : a * b = c) (h1 : -4 ≤ c) (h2 : c ≤ -(1 / 4)) :
    double.mul (double.fin a) (double.fin b) = double.fin c := by
  rw [mul_fin, h, if_neg (by linarith),
    round_moderate c (by rw [abs_of_neg (by linarith)]; linarith)
      (by rw [abs_of_neg (by linarith)]; linarith)]

/-- A difference of finite values, the second not zero, with an exact result `c` between
`-4` and `-1/4`. -/
lemma sub_fin_eval_neg (a b c : ℝ) (hb : b ≠ 0) (h : a - b = c) (h1 : -4 ≤ c)
    (h2 : c ≤ -(1 / 4)) :
    double.sub (double.fin a) (double.fin b) = double.fin c := by
  rw [double.sub, double.neg, if_neg hb]
  exact add_fin_eval_neg a (-b) c (by linarith) h1 h2

/-- The two branches of `hit_sphere` on the range of `double`, in terms of the computed
discriminant. -/
lemma dbl_hit_sphere_eq (sqrt : double ℝ → double ℝ) (center : point3 (double ℝ))
    (radius : double ℝ) (r : ray (double ℝ)) :
    dbl.hit_sphere sqrt center radius r =
      if double.lt (dbl.hit_sphere_discriminant center radius r) (double.fin 0)
      then double.fin (-1.0)
      else double.div
        (double.sub (double.neg (dbl.dot (dbl.sub r.orig center) r.dir))
          (sqrt (dbl.hit_sphere_discriminant center radius r)))
        (dbl.length_squared r.dir) := rfl

/-- The vector from the centre `(0, 3/2, 1)` to the origin, and the value `c` of `hit_sphere`
for the radius `1`: `(0, -3/2, -1)` and `9/4`. -/
lemma dbl_sphere_offset :
    dbl.sub (⟨double.fin 0, double.fin 0, double.fin 0⟩ : vec3 (double ℝ))
        ⟨double.fin 0, double.fin (3 / 2), double.fin 1⟩
      = ⟨double.fin 0, double.fin (-(3 / 2)), double.fin (-1)⟩ ∧
    double.sub
        (dbl.length_squared
          (⟨double.fin 0, double.fin (-(3 / 2)), double.fin (-1)⟩ : vec3 (double ℝ)))
        (double.mul (double.fin 1) (double.fin 1))
      = double.fin (9 / 4) := by
  constructor
  · have hx : double.sub (double.fin (0 : ℝ)) (double.fin 0) = double.fin 0 := by
      rw [double.sub, double.neg, if_pos rfl, add_fin_negzero, if_pos (add_zero 0)]
    simp only [dbl.sub, hx,
      sub_fin_eval_neg 0 (3 / 2) (-(3 / 2)) (by norm_num) (by norm_num) (by norm_num)
        (by norm_num),
      sub_fin_eval_neg 0 1 (-1) (by norm_num) (by norm_num) (by norm_num) (by norm_num)]
  · simp only [dbl.length_squared, mul_fin_zero_left 0 (le_refl 0),
      mul_fin_eval (-(3 / 2)) (-(3 / 2)) (9 / 4) (by norm_num) (by norm_num) (by norm_num),
      mul_fin_eval (-1) (-1) 1 (by norm_num) (by norm_num) (by norm_num),
      mul_fin_eval 1 1 1 (by norm_num) (by norm_num) (by norm_num),
      add_fin_eval 0 (9 / 4) (9 / 4) (by norm_num) (by norm_num) (by norm_num),
      add_fin_eval (9 / 4) 1 (13 / 4) (by norm_num) (by norm_num) (by norm_num),
      sub_fin_eval (13 / 4) 1 (9 / 4) (by norm_num) (by norm_num) (by norm_num) (by norm_num)]

/-- A product of a negative finite value and `+0.0` is `-0.0`. -/
lemma mul_fin_neg_zero (a : ℝ) (ha : a < 0) :
    double.mul (double.fin a) (double.fin 0) = double.negzero := by
  rw [mul_fin, mul_zero, if_pos rfl]
  simp [double.zero, ha]

/-- The values `a` and `half_b` of `hit_sphere` for the ray from the origin along
`(0, 0, 2^600)` and the centre `(0, 3/2, 1)`: `|D|^2` overflows to `+inf`, and
`half_b = -2^600`. -/
lemma dbl_sphere_huge_direction :
    dbl.length_squared
        (⟨double.fin 0, double.fin 0, double.fin (2 ^ 600)⟩ : vec3 (double ℝ))
      = double.inf false ∧
    dbl.dot (⟨double.fin 0, double.fin (-(3 / 2)), double.fin (-1)⟩ : vec3 (double ℝ))
        ⟨double.fin 0, double.fin 0, double.fin (2 ^ 600)⟩
      = double.fin (-2 ^ 600) ∧
    double.mul (double.fin (-2 ^ 600 : ℝ)) (double.fin (-2 ^ 600)) = double.inf false := by
  have hp : (0 : ℝ) < 2 ^ 600 := by positivity
  have hbig : (2 : ℝ) ^ 1024 ≤ 2 ^ 600 * 2 ^ 600 := by
    rw [← pow_add]
    exact pow_le_pow_right₀ (by norm_num) (by norm_num)
  have hsq : double.mul (double.fin (2 ^ 600 : ℝ)) (double.fin (2 ^ 600)) = double.inf false := by
    rw [mul_fin, if_neg (by positivity),
      round_overflow _ (by rw [abs_of_pos (by positivity)]; exact hbig)]
    simp [not_lt.mpr (mul_nonneg hp.le hp.le)]
  have hsq' : double.mul (double.fin (-2 ^ 600 : ℝ)) (double.fin (-2 ^ 600))
      = double.inf false := by
    rw [mul_fin, neg_mul_neg, if_neg (by positivity),
      round_overflow _ (by rw [abs_of_pos (by positivity)]; exact hbig)]
    simp [not_lt.mpr (mul_nonneg hp.le hp.le)]
  have hnorm : double.round (-2 ^ 600 : ℝ) = double.fin (-2 ^ 600) := by
    apply round_normal
    · rw [abs_neg, abs_of_pos hp]
      have h1 : (1 : ℝ) / 2 ^ 1022 ≤ 1 := by
        rw [div_le_one (by positivity)]
        exact one_le_pow₀ (by norm_num)
      have h2 : (1 : ℝ) ≤ 2 ^ 600 := one_le_pow₀ (by norm_num)
      linarith
    · rw [abs_neg, abs_of_pos hp]
      exact pow_lt_pow_right₀ (by norm_num) (by norm_num)
  have hprod : double.mul (double.fin (-1 : ℝ)) (double.fin (2 ^ 600))
      = double.fin (-2 ^ 600) := by
    rw [mul_fin, if_neg (by simp), show (-1 : ℝ) * 2 ^ 600 = -2 ^ 600 by ring, hnorm]
  have hsum : double.add (double.fin (0 : ℝ)) (double.fin (-2 ^ 600))
      = double.fin (-2 ^ 600) := by
    rw [add_fin, zero_add, if_neg (by linarith), hnorm]
  refine ⟨?_, ?_, hsq'⟩
  · simp only [dbl.length_squared, mul_fin_zero_left 0 (le_refl 0), hsq,
      add_fin_cancel 0 0 (add_zero 0)]
    rfl
  · simp only [dbl.dot, mul_fin_zero_left 0 (le_refl 0),
      mul_fin_neg_zero (-(3 / 2)) (by norm_num), hprod, add_fin_negzero,
      if_pos (add_zero (0 : ℝ)), hsum]

/-- C14 (as stated, refuted): the ray from the origin with the non-zero direction
`(0, 0, 2^600)` runs along the `z` axis and does not meet the sphere of centre `(0, 3/2, 1)`
and radius `1`; but `|D|^2` and `half_b^2` overflow, the computed discriminant is
`inf - inf`, a NaN, which is not negative, and `hit_sphere` returns NaN, not `-1.0`. -/
theorem hit_sphere_overflow_nan :
    (⟨double.fin 0, double.fin 0, double.fin (2 ^ 600)⟩ : vec3 (double ℝ))
      ≠ ⟨double.fin 0, double.fin 0, double.fin 0⟩ ∧
    (¬ ∃ t : ℝ,
      (vec3.sub (ray.at (⟨⟨0, 0, 0⟩, ⟨0, 0, 2 ^ 600⟩⟩ : ray ℝ) t) ⟨0, 3 / 2, 1⟩).length_squared
        = 1 * 1) ∧
    dbl.hit_sphere_discriminant (⟨double.fin 0, double.fin (3 / 2), double.fin 1⟩ : vec3 (double ℝ))
        (double.fin 1)
        ⟨⟨double.fin 0, double.fin 0, double.fin 0⟩,
         ⟨double.fin 0, double.fin 0, double.fin (2 ^ 600)⟩⟩ = double.nan ∧
    double.lt (double.nan : double ℝ) (double.fin 0) = false ∧
    dbl.hit_sphere (double.sqrt Real.sqrt)
        (⟨double.fin 0, double.fin (3 / 2), double.fin 1⟩ : vec3 (double ℝ)) (double.fin 1)
        ⟨⟨double.fin 0, double.fin 0, double.fin 0⟩,
         ⟨double.fin 0, double.fin 0, double.fin (2 ^ 600)⟩⟩ = double.nan ∧
    (double.nan : double ℝ) ≠ double.fin (-1.0) := by
  obtain ⟨hoc, hc⟩ := dbl_sphere_offset
  obtain ⟨ha, hhalf, hhalf2⟩ := dbl_sphere_huge_direction
  have hp : (0 : ℝ) < 2 ^ 600 := by positivity
  have hdisc : dbl.hit_sphere_discriminant
      (⟨double.fin 0, double.fin (3 / 2), double.fin 1⟩ : vec3 (double ℝ)) (double.fin 1)
      ⟨⟨double.fin 0, double.fin 0, double.fin 0⟩,
       ⟨double.fin 0, double.fin 0, double.fin (2 ^ 600)⟩⟩ = double.nan := by
    simp only [dbl.hit_sphere_discriminant, hoc, hc, ha, hhalf, hhalf2]
    have hs : double.mul (double.inf false) (double.fin (9 / 4 : ℝ)) = double.inf false := by
      norm_num [double.mul, double.sign, double.val]
    rw [hs]
    simp [double.sub, double.neg, double.add]
  refine ⟨?_, ?_, hdisc, rfl, ?_, by simp⟩
  · intro h
    have hz := congrArg vec3.z h
    simp only [double.fin.injEq] at hz
    linarith
  · rintro ⟨t, ht⟩
    simp only [vec3.length_squared, vec3.sub, ray.at, vec3.add, vec3.smul] at ht
    nlinarith [mul_self_nonneg (0 + t * (2 : ℝ) ^ 600 - 1), mul_self_nonneg (0 + t * (0 : ℝ) - 0)]
  · rw [dbl_hit_sphere_eq, hdisc]
    simp only [hoc, hhalf, ha]
    simp [double.lt, double.sqrt, double.sub, double.neg, double.add, double.div]

/-- Over the exact arithmetic, `fp.hit_sphere` and its discriminant are `hit_sphere` and
`hit_sphere_discriminant` of the first model. -/
lemma fp_hit_sphere_exact (C : point3 ℝ) (radius : ℝ) (r : ray ℝ) :
    fp.hit_sphere (exact_arithmetic Real.sqrt) C radius r = hit_sphere Real.sqrt C radius r ∧
    fp.hit_sphere_discriminant (exact_arithmetic Real.sqrt) C radius r
      = hit_sphere_discriminant C radius r := by
  refine ⟨?_, rfl⟩
  simp only [fp.hit_sphere, hit_sphere, exact_arithmetic, fp.sub, fp.dot, fp.length_squared,
    vec3.sub, dot, vec3.length_squared, ray.origin, ray.direction, decide_eq_true_eq]

/-- Over the arithmetic of the range model, `fp.hit_sphere` and its discriminant are
`dbl.hit_sphere` and `dbl.hit_sphere_discriminant`. -/
lemma fp_hit_sphere_range (sqrt : double ℝ → double ℝ) (C : point3 (double ℝ))
    (radius : double ℝ) (r : ray (double ℝ)) :
    fp.hit_sphere (double.arithmetic sqrt) C radius r = dbl.hit_sphere sqrt C radius r ∧
    fp.hit_sphere_discriminant (double.arithmetic sqrt) C radius r
      = dbl.hit_sphere_discriminant C radius r :=
  ⟨rfl, rfl⟩

/-- The computed discriminant of `hit_sphere` on the range of `double` for the ray from the
origin along `(0, 0, 1)` and the sphere of centre `(0, 3/2, 1)` and radius `1`: `-5/4`. -/
lemma dbl_sphere_unit_direction :
    dbl.hit_sphere_discriminant
        (⟨double.fin 0, double.fin (3 / 2), double.fin 1⟩ : vec3 (double ℝ)) (double.fin 1)
        ⟨⟨double.fin 0, double.fin 0, double.fin 0⟩,
         ⟨double.fin 0, double.fin 0, double.fin 1⟩⟩ = double.fin (-(5 / 4)) := by
  obtain ⟨hoc, hc⟩ := dbl_sphere_offset
  simp only [dbl.hit_sphere_discriminant, hoc, hc]
  simp only [dbl.length_squared, dbl.dot, mul_fin_zero_left 0 (le_refl 0),
    mul_fin_neg_zero (-(3 / 2)) (by norm_num), add_fin_negzero, if_pos (add_zero (0 : ℝ)),
    add_fin_cancel 0 0 (add_zero 0),
    mul_fin_eval 1 1 1 (by norm_num) (by norm_num) (by norm_num),
    mul_fin_eval_neg (-1) 1 (-1) (by norm_num) (by norm_num) (by norm_num),
    mul_fin_eval (-1) (-1) 1 (by norm_num) (by norm_num) (by norm_num),
    mul_fin_eval 1 (9 / 4) (9 / 4) (by norm_num) (by norm_num) (by norm_num),
    add_fin_eval 0 1 1 (by norm_num) (by norm_num) (by norm_num),
    add_fin_eval_neg 0 (-1) (-1) (by norm_num) (by norm_num) (by norm_num),
    sub_fin_eval_neg 1 (9 / 4) (-(5 / 4)) (by norm_num) (by norm_num) (by norm_num)
      (by norm_num)]

/-- C14 (amended): whatever the arithmetic of `double` (however its operations round, overflow
or underflow), `hit_sphere` returns the no-hit sentinel `-1.0` whenever the discriminant
`half_b^2 - a*c` that it computed compares negative; and over the exact arithmetic, for a
ray of non-zero direction, the computed discriminant is negative exactly when the line of
the ray does not meet the sphere, that is, when no real `t` satisfies
`|O + t*D - C|^2 = r^2`. Nothing is said of the line when the operations round. -/
theorem hit_sphere_no_hit_computed {D : Type} (A : arithmetic D) (center : point3 D)
    (radius : D) (r : ray D)
    (hneg : A.lt (fp.hit_sphere_discriminant A center radius r) A.zero = true)
    (C : point3 ℝ) (rad : ℝ) (q : ray ℝ) (hD : q.direction ≠ ⟨0, 0, 0⟩) :
    fp.hit_sphere A center radius r = A.minus_one ∧
    ((exact_arithmetic Real.sqrt).lt
        (fp.hit_sphere_discriminant (exact_arithmetic Real.sqrt) C rad q)
        (exact_arithmetic Real.sqrt).zero = true
      ↔ ¬ ∃ t : ℝ, (vec3.sub (q.at t) C).length_squared = rad * rad) := by
  constructor
  · have h : fp.hit_sphere A center radius r =
        if A.lt (fp.hit_sphere_discriminant A center radius r) A.zero then A.minus_one
        else A.div
          (A.sub (A.neg (fp.dot A (fp.sub A r.orig center) r.dir))
            (A.sqrt (fp.hit_sphere_discriminant A center radius r)))
          (fp.length_squared A r.dir) := rfl
    rw [h, if_pos hneg]
  · rw [(fp_hit_sphere_exact C rad q).2, hit_sphere_miss_exact C rad q hD]
    simp [exact_arithmetic]

/-- C14 (amended), an instance: on the range of `double`, the ray from the origin along
`(0, 0, 1)` and the sphere of centre `(0, 3/2, 1)` and radius `1`, with the computed
discriminant `-5/4`; the same ray and sphere over the exact arithmetic. -/
theorem hit_sphere_no_hit_computed_witness :
    (double.arithmetic (double.sqrt Real.sqrt)).lt
        (fp.hit_sphere_discriminant (double.arithmetic (double.sqrt Real.sqrt))
          (⟨double.fin 0, double.fin (3 / 2), double.fin 1⟩ : vec3 (double ℝ)) (double.fin 1)
          ⟨⟨double.fin 0, double.fin 0, double.fin 0⟩,
           ⟨double.fin 0, double.fin 0, double.fin 1⟩⟩)
        (double.arithmetic (double.sqrt Real.sqrt)).zero = true ∧
    (⟨⟨0, 0, 0⟩, ⟨0, 0, 1⟩⟩ : ray ℝ).direction ≠ ⟨0, 0, 0⟩ ∧
    fp.hit_sphere (double.arithmetic (double.sqrt Real.sqrt))
        (⟨double.fin 0, double.fin (3 / 2), double.fin 1⟩ : vec3 (double ℝ)) (double.fin 1)
        ⟨⟨double.fin 0, double.fin 0, double.fin 0⟩,
         ⟨double.fin 0, double.fin 0, double.fin 1⟩⟩
      = (double.arithmetic (double.sqrt Real.sqrt)).minus_one ∧
    ((exact_arithmetic Real.sqrt).lt
        (fp.hit_sphere_discriminant (exact_arithmetic Real.sqrt) ⟨0, 3 / 2, 1⟩ 1
          ⟨⟨0, 0, 0⟩, ⟨0, 0, 1⟩⟩)
        (exact_arithmetic Real.sqrt).zero = true
      ↔ ¬ ∃ t : ℝ,
          (vec3.sub (ray.at (⟨⟨0, 0, 0⟩, ⟨0, 0, 1⟩⟩ : ray ℝ) t) ⟨0, 3 / 2, 1⟩).length_squared
            = 1 * 1) := by
  have hneg : (double.arithmetic (double.sqrt Real.sqrt)).lt
      (fp.hit_sphere_discriminant (double.arithmetic (double.sqrt Real.sqrt))
        (⟨double.fin 0, double.fin (3 / 2), double.fin 1⟩ : vec3 (double ℝ)) (double.fin 1)
        ⟨⟨double.fin 0, double.fin 0, double.fin 0⟩,
         ⟨double.fin 0, double.fin 0, double.fin 1⟩⟩)
      (double.arithmetic (double.sqrt Real.sqrt)).zero = true := by
    rw [(fp_hit_sphere_range _ _ _ _).2, dbl_sphere_unit_direction]
    simp [double.arithmetic, double.lt, double.val]
  have hD : (⟨⟨0, 0, 0⟩, ⟨0, 0, 1⟩⟩ : ray ℝ).direction ≠ ⟨0, 0, 0⟩ := by
    intro h
    have hz := congrArg vec3.z h
    simp [ray.direction] at hz
  exact ⟨hneg, hD, hit_sphere_no_hit_computed _ _ _ _ hneg ⟨0, 3 / 2, 1⟩ 1 _ hD⟩

/-! ## The range of the colours on the range of `double` -/

/-- C20 (as stated, refuted): in the scene that never reports a hit, whose material never
scatters (so that every scatter returns what the claim asks for), the ray with the non-zero
direction `(0, 2^(-600), 0)` at `depth = 16` has no colour component in `[0,1]`: the squared
length `2^(-1200)` underflows to `0`, the length is `0`, its inverse is `+inf`, the unit
vector is `(NaN, +inf, NaN)` and the three channels of the gradient are NaN, which is no
finite value. -/
theorem ray_color_underflow_nan :
    (⟨double.fin 0, double.fin (1 / 2 ^ 600), double.fin 0⟩ : vec3 (double ℝ))
      ≠ ⟨double.fin 0, double.fin 0, double.fin 0⟩ ∧
    (∀ (m : Unit) (r : ray (double ℝ)) (rec : hit_record (double ℝ) Unit) (s : Nat),
      ((dbl.absorb : scatter_fn (double ℝ) Unit Nat) m r rec s).1 = none) ∧
    (dbl.ray_color (double.sqrt Real.sqrt) dbl.absorb dbl.void_world
        ⟨⟨double.fin 0, double.fin 0, double.fin 0⟩,
         ⟨double.fin 0, double.fin (1 / 2 ^ 600), double.fin 0⟩⟩ 16 0).1
      = ⟨double.nan, double.nan, double.nan⟩ ∧
    (∀ x : ℝ, (double.nan : double ℝ) ≠ double.fin x) ∧
    double.lt (double.nan : double ℝ) (double.fin 0) = false ∧
    double.lt (double.fin 0) (double.nan : double ℝ) = false ∧
    double.lt (double.nan : double ℝ) (double.fin 1) = false ∧
    double.lt (double.fin 1) (double.nan : double ℝ) = false := by
  have hp : (0 : ℝ) < 1 / 2 ^ 600 := by positivity
  have hsmall : (1 / 2 ^ 600 : ℝ) * (1 / 2 ^ 600) * 2 ^ 1074 < 1 / 2 := by
    rw [show (1 : ℝ) / 2 ^ 600 * (1 / 2 ^ 600) * 2 ^ 1074 = 1 / 2 ^ 126 by
      rw [show (1 : ℝ) / 2 ^ 600 * (1 / 2 ^ 600) = 1 / (2 ^ 1074 * 2 ^ 126) by
        rw [← pow_add, one_div_mul_one_div, ← pow_add]]
      field_simp]
    exact one_div_lt_one_div_of_lt (by norm_num)
      (by
        have : (2 : ℝ) ^ 1 < 2 ^ 126 := pow_lt_pow_right₀ (by norm_num) (by norm_num)
        simpa using this)
  refine ⟨?_, fun _ _ _ _ => rfl, ?_, fun x h => ?_, rfl, rfl, rfl, rfl⟩
  · intro h
    have hy := congrArg vec3.y h
    simp only [double.fin.injEq] at hy
    linarith
  · rw [dbl_ray_color_of_miss _ _ _ _ _ (by decide) rfl,
      dbl_unit_vector_underflow _ (by linarith) hsmall]
    exact dbl_gradient_inf _
  · cases h

end RayTracer
